import Mathlib

/-!
# Arena allocator (`arena.h`): embedding and verification

The chunk chain of `arena.h` lives in a heap of chunk headers.  A heap is a
list of chunks, the address of a chunk is its position in that list, and the
backing-block provider (`ARENA_MALLOC`) hands out the next unused address.
`NULL` is `none`.  The provider is taken to succeed (on failure the
`ARENA_ASSERT` in `new_arena_chunk` aborts the program).

Values of type `size_t` are natural numbers below `SIZE_MOD = 2 ^ 64`, and
every addition the C code performs on them is taken modulo `SIZE_MOD`.  Where
a theorem repeats a test of the code, such as `used + size > size`, the sum
is the one the code computes; it is the plain sum whenever that is below
`SIZE_MOD`.

The block of a chunk holds its header and `size` data bytes, and the blocks
of different chunks are different objects.  The data of a chunk is read by
offset; an access at an offset from `size` on is outside the block.  The
counter of `arena_get_chunks_count` is an `int` of 32 bits.

A function returns `none` when the C code would dereference an address that
is not a chunk of the heap, read past the readable bytes of an input buffer,
write through `NULL`, read or write bytes past the end of a block, call
`memcpy` on two ranges that overlap, increment an `int` past `INT_MAX`, or
loop for ever on a cyclic chain.

The build-time switch `ARENA_REDUCE_FRAGMENTATION` is the Boolean argument
`reduce` of the allocation functions.
-/

namespace Arena

/-- Modulus of `size_t` arithmetic. -/
def SIZE_MOD : Nat := 2 ^ 64

/-- The struct `arena_chunk_t`: `next` is the address of the next chunk
(`none` for `NULL`), `data` is the flexible array member, read by offset.
The block behind a chunk has room for `size` bytes of `data`; what the
function `data` holds from offset `size` on is not part of the block. -/
structure arena_chunk_t where
  next : Option Nat
  size : Nat
  used : Nat
  data : Nat → Nat

/-- The struct `arena_t`; the field `end` of the source is `end_` here. -/
structure arena_t where
  begin : Nat
  end_ : Nat
deriving DecidableEq

/-- A non-null pointer into the data of a chunk: `chunk->data + offset`.
It points into the block of the chunk when `offset` is below the chunk's
`size` (`in_block` below says so for a range of bytes). -/
structure Region where
  chunk : Nat
  offset : Nat
deriving DecidableEq

/-- A `void*` result: `none` is `NULL`. -/
abbrev Ptr := Option Region

/-- The heap of chunks; an address is an index into it. -/
abbrev Heap := List arena_chunk_t

/-- The program state an operation works on: the heap and the `arena_t`
the caller passes by pointer. -/
structure State where
  heap : Heap
  arena : arena_t

/-- The function `new_arena_chunk(size)`: a fresh block at the next unused
address, with `used = 0`, `size = size`, `next = NULL`.  The bytes of a
fresh block are unspecified in C; the model starts them at 0.  The block is
taken to hold `size` data bytes, which is what the provider is asked for when
the `size_t` sum `sizeof(arena_chunk_t) + size` does not wrap; when it wraps
the block is smaller still. -/
def new_arena_chunk (h : Heap) (size : Nat) : Nat × Heap :=
  (h.length, h ++ [{ next := none, size := size, used := 0, data := fun _ => 0 }])

/-- The function `create_arena(size)`, run on a heap `h`. -/
def create_arena (h : Heap) (size : Nat) : State :=
  let r := new_arena_chunk h size
  { heap := r.2, arena := { begin := r.1, end_ := r.1 } }

/-- The hole-search loop of `arena_alloc` (lines 106-114): starting at
`cur`, stop at the first chunk whose `next` is `NULL` or which has room for
`size`.  One unit of fuel is one evaluation of the loop condition. -/
def find_hole (h : Heap) (size : Nat) : Nat → Nat → Option Nat
  | 0, _ => none
  | fuel + 1, cur =>
    match h[cur]? with
    | none => none
    | some c =>
      match c.next with
      | none => some cur
      | some nx =>
        if (c.used + size) % SIZE_MOD ≤ c.size then some cur
        else find_hole h size fuel nx

/-- The choice of `current` in `arena_alloc`: the hole search from `begin`
when `reduce` is set, `arena->end` otherwise. -/
def select_chunk (reduce : Bool) (s : State) (size : Nat) : Option Nat :=
  if reduce then find_hole s.heap size s.heap.length s.arena.begin
  else some s.arena.end_

/-- Lines 121-130 of `arena_alloc`, once `current` is chosen. -/
def place (s : State) (cur : Nat) (size : Nat) : Option (Ptr × State) :=
  match s.heap[cur]? with
  | none => none
  | some c =>
    if c.size < (c.used + size) % SIZE_MOD then
      let r := new_arena_chunk s.heap c.size
      let h1 := r.2.set cur { c with next := some r.1 }
      match h1[r.1]? with
      | none => none
      | some n =>
        some (some { chunk := r.1, offset := n.used },
              { heap := h1.set r.1 { n with used := (n.used + size) % SIZE_MOD },
                arena := { s.arena with end_ := r.1 } })
    else
      some (some { chunk := cur, offset := c.used },
            { heap := s.heap.set cur { c with used := (c.used + size) % SIZE_MOD },
              arena := s.arena })

/-- The function `arena_alloc(arena, size)`. -/
def arena_alloc (reduce : Bool) (s : State) (size : Nat) : Option (Ptr × State) :=
  if size = 0 then some (none, s)
  else
    match select_chunk reduce s size with
    | none => none
    | some cur => place s cur size

/-- The bytes of a destination after `n` bytes were copied to its offset
`doff` from offset `soff` of a source. -/
def copy_bytes (dst : Nat → Nat) (doff : Nat) (src : Nat → Nat) (soff : Nat) (n : Nat) :
    Nat → Nat :=
  fun i => if doff ≤ i ∧ i < doff + n then src (soff + (i - doff)) else dst i

/-- The `n` bytes at `dst` and the `n` bytes at `src` share no byte: the
two pointers are into different blocks, or one range ends where the other
starts or before. -/
def ranges_apart (dst src : Region) (n : Nat) : Bool :=
  decide (dst.chunk ≠ src.chunk ∨ dst.offset + n ≤ src.offset ∨ src.offset + n ≤ dst.offset)

/-- The call `memcpy(dst, src, n)` between two regions of the heap.  There
is no result when the `n` bytes read pass the end of the source block, when
the `n` bytes written pass the end of the destination block, or when the two
ranges overlap (C leaves all three undefined). -/
def memcpy (h : Heap) (dst src : Region) (n : Nat) : Option Heap :=
  match h[src.chunk]?, h[dst.chunk]? with
  | some cs, some cd =>
    if cs.size < src.offset + n then none
    else if cd.size < dst.offset + n then none
    else if ranges_apart dst src n then
      some (h.set dst.chunk
        { cd with data := copy_bytes cd.data dst.offset cs.data src.offset n })
    else none
  | _, _ => none

/-- The function `arena_realloc(arena, ptr, size)`. -/
def arena_realloc (reduce : Bool) (s : State) (ptr : Ptr) (size : Nat) :
    Option (Ptr × State) :=
  if size = 0 then some (none, s)
  else
    match arena_alloc reduce s size with
    | none => none
    | some (new_ptr, s1) =>
      match ptr with
      | none => some (new_ptr, s1)
      | some src =>
        match new_ptr with
        | none => none
        | some dst =>
          match memcpy s1.heap dst src size with
          | none => none
          | some h2 => some (some dst, { s1 with heap := h2 })

/-- The library call `strlen(str)` on the readable bytes `str`: the index of
the first zero byte, `none` when there is no terminator to find. -/
def strlen : List Nat → Option Nat
  | [] => none
  | b :: bs => if b = 0 then some 0 else (strlen bs).map (fun n => n + 1)

/-- The two stores of `arena_strndup` into the new string: `length` bytes
copied from `str` to `offset`, then a zero byte at `offset + length`. -/
def store_string (data : Nat → Nat) (offset : Nat) (str : List Nat) (length : Nat) :
    Nat → Nat :=
  fun i =>
    if i = offset + length then 0
    else if offset ≤ i ∧ i < offset + length then str.getD (i - offset) 0
    else data i

/-- The function `arena_strndup(arena, str, length)`; `str` are the readable
bytes at the source pointer.  There is no result when `length` bytes cannot
be read from `str`, or when the `length + 1` bytes stored at `new_str` pass
the end of the block of its chunk. -/
def arena_strndup (reduce : Bool) (s : State) (str : List Nat) (length : Nat) :
    Option (Ptr × State) :=
  match arena_alloc reduce s ((1 * length + 1) % SIZE_MOD) with
  | none => none
  | some (none, _) => none
  | some (some new_str, s1) =>
    if str.length < length then none
    else
      match s1.heap[new_str.chunk]? with
      | none => none
      | some c =>
        if c.size < new_str.offset + length + 1 then none
        else
          let c1 := { c with data := store_string c.data new_str.offset str length }
          some (some new_str, { s1 with heap := s1.heap.set new_str.chunk c1 })

/-- The function `arena_strdup(arena, str)`. -/
def arena_strdup (reduce : Bool) (s : State) (str : List Nat) : Option (Ptr × State) :=
  match strlen str with
  | none => none
  | some length => arena_strndup reduce s str length

/-- The loop of `destroy_arena`: `released` are the addresses passed to
`ARENA_FREE` so far; reading the `next` of a released chunk is an error. -/
def destroy_loop (h : Heap) : Nat → Option Nat → List Nat → Option (List Nat)
  | _, none, released => some released
  | 0, some _, _ => none
  | fuel + 1, some it, released =>
    if it ∈ released then none
    else
      match h[it]? with
      | none => none
      | some chunk => destroy_loop h fuel chunk.next (released ++ [it])

/-- The function `destroy_arena(arena)`: the addresses released, in order. -/
def destroy_arena (s : State) : Option (List Nat) :=
  destroy_loop s.heap s.heap.length (some s.arena.begin) []

/-- The largest value of an `int`. -/
def INT_MAX : Int := 2 ^ 31 - 1

/-- The loop of `arena_get_chunks_count`.  The counter is an `int`: the
step `count++` has no result at `INT_MAX` (signed overflow is undefined in
C). -/
def count_loop (h : Heap) : Nat → Option Nat → Int → Option Int
  | _, none, count => some count
  | 0, some _, _ => none
  | fuel + 1, some it, count =>
    if count < INT_MAX then
      match h[it]? with
      | none => none
      | some c => count_loop h fuel c.next (count + 1)
    else none

/-- The function `arena_get_chunks_count(arena)`. -/
def arena_get_chunks_count (s : State) : Option Int :=
  count_loop s.heap s.heap.length (some s.arena.begin) 0

/-- The loop `for(int i = 0; i < chunk_index; i++) it = it->next;`. -/
def advance (h : Heap) : Nat → Option Nat → Option (Option Nat)
  | 0, it => some it
  | i + 1, it =>
    match it with
    | none => none
    | some a =>
      match h[a]? with
      | none => none
      | some c => advance h i c.next

/-- Subtraction of two `size_t` values. -/
def size_sub (a b : Nat) : Nat := (a + SIZE_MOD - b % SIZE_MOD) % SIZE_MOD

/-- The function `arena_get_available_space_of(arena, chunk_index)`. -/
def arena_get_available_space_of (s : State) (chunk_index : Int) : Option Nat :=
  match arena_get_chunks_count s with
  | none => none
  | some count =>
    if chunk_index > count ∨ chunk_index < 0 then some 0
    else
      match advance s.heap chunk_index.toNat (some s.arena.begin) with
      | some (some it) => (s.heap[it]?).map (fun c => size_sub c.size c.used)
      | _ => none

/-- The function `arena_get_current_available_space(arena)`. -/
def arena_get_current_available_space (s : State) : Option Nat :=
  (s.heap[s.arena.end_]?).map (fun c => size_sub c.size c.used)

/-- The function `arena_get_used_space_of(arena, chunk_index)`. -/
def arena_get_used_space_of (s : State) (chunk_index : Int) : Option Nat :=
  match arena_get_chunks_count s with
  | none => none
  | some count =>
    if chunk_index > count ∨ chunk_index < 0 then some 0
    else
      match advance s.heap chunk_index.toNat (some s.arena.begin) with
      | some (some it) => (s.heap[it]?).map (fun c => c.used)
      | _ => none

/-- The function `arena_get_current_used_space(arena)`. -/
def arena_get_current_used_space (s : State) : Option Nat :=
  (s.heap[s.arena.end_]?).map (fun c => c.used)

/-- One call of the allocation interface. -/
inductive Call where
  | alloc (size : Nat)
  | realloc (ptr : Ptr) (size : Nat)
  | strdup (str : List Nat)
  | strndup (str : List Nat) (length : Nat)

/-- Run one call. -/
def Call.run (reduce : Bool) (s : State) : Call → Option (Ptr × State)
  | .alloc size => arena_alloc reduce s size
  | .realloc ptr size => arena_realloc reduce s ptr size
  | .strdup str => arena_strdup reduce s str
  | .strndup str length => arena_strndup reduce s str length

/-- Run a sequence of calls, keeping each returned pointer with the call. -/
def run_calls (reduce : Bool) : State → List Call → Option (List Ptr × State)
  | s, [] => some ([], s)
  | s, c :: cs =>
    match c.run reduce s with
    | none => none
    | some (p, s1) =>
      match run_calls reduce s1 cs with
      | none => none
      | some (ps, s2) => some (p :: ps, s2)

/-- Run a sequence of `arena_alloc` calls. -/
def run_allocs (reduce : Bool) (s : State) (sizes : List Nat) : Option (List Ptr × State) :=
  run_calls reduce s (sizes.map Call.alloc)

/-- The chunks of a chain in order: the walk `it = it->next` from `p` until
`NULL`, as the loops of `arena_get_chunks_count` and `destroy_arena` do it. -/
def chain_from (h : Heap) : Nat → Option Nat → Option (List Nat)
  | _, none => some []
  | 0, some _ => none
  | fuel + 1, some a =>
    match h[a]? with
    | none => none
    | some c => (chain_from h fuel c.next).map (fun l => a :: l)

/-- The chain of an arena: the addresses of its chunks from `begin` on. -/
def chain (s : State) : Option (List Nat) :=
  chain_from s.heap s.heap.length (some s.arena.begin)

/-- The `used` counter of the chunk at address `a` (0 when there is none). -/
def used_of (h : Heap) (a : Nat) : Nat :=
  match h[a]? with
  | some c => c.used
  | none => 0

/-- The sum of `used` over the chunks at the addresses `l`. -/
def used_sum (h : Heap) (l : List Nat) : Nat := (l.map (used_of h)).sum

/-- The test `current->used + size <= current->size` on the chunk at `a`. -/
def fits (h : Heap) (size : Nat) (a : Nat) : Bool :=
  match h[a]? with
  | some c => decide ((c.used + size) % SIZE_MOD ≤ c.size)
  | none => false

/-- A well-formed arena with chunks `l`: the walk from `begin` ends at
`NULL` after visiting `l`, and `end` is the last chunk of `l`. -/
def WellFormed (s : State) (l : List Nat) : Prop :=
  chain s = some l ∧ l.getLast? = some s.arena.end_

/-- The chunk a request of `size` bytes is sent to in a well-formed arena
with chunks `l` (§4.2): with the hole search, the first chunk before the last
one that has room, and `end` if there is none; without it, `end`. -/
def target (reduce : Bool) (s : State) (l : List Nat) (size : Nat) : Nat :=
  if reduce then (l.dropLast.find? (fits s.heap size)).getD s.arena.end_
  else s.arena.end_

/-- The state after a request of `size` bytes was placed in the chunk `c`
at address `cur`, which has room for it. -/
def bumped (s : State) (cur : Nat) (c : arena_chunk_t) (size : Nat) : State :=
  { heap := s.heap.set cur { c with used := (c.used + size) % SIZE_MOD },
    arena := s.arena }

/-- The state after a request of `size` bytes made the arena grow behind
the chunk `c` at address `cur`. -/
def grown (s : State) (cur : Nat) (c : arena_chunk_t) (size : Nat) : State :=
  { heap := s.heap.set cur { c with next := some s.heap.length } ++
      [{ next := none, size := c.size, used := size % SIZE_MOD, data := fun _ => 0 }],
    arena := { s.arena with end_ := s.heap.length } }

/-- The header of a chunk: its link and its two counters, without its bytes. -/
def header (c : arena_chunk_t) : Option Nat × Nat × Nat := (c.next, c.size, c.used)

/-- Two states with the same chunk chain: the same `begin` and `end`, the
same number of chunks in the heap and the same header at every address; only
the bytes stored in the chunks may differ. -/
def same_chain (s1 s2 : State) : Prop :=
  s1.arena = s2.arena ∧ s1.heap.map header = s2.heap.map header

/-- The size a call requests: the size argument of `arena_alloc` and
`arena_realloc`, and the length plus one terminator byte for a duplicate. -/
def Call.requested : Call → Nat
  | .alloc size => size
  | .realloc _ size => size
  | .strdup str => (strlen str).getD 0 + 1
  | .strndup _ length => length + 1

/-- The sum of the sizes requested by the calls that returned a region
(`ps` are the pointers the calls returned, in order). -/
def requested_total : List Call → List Ptr → Nat
  | c :: cs, p :: ps => (if p.isSome then c.requested else 0) + requested_total cs ps
  | _, _ => 0

/-- The count of P3: walking the requests with the `used` counter of the
current chunk, the number of requests that push it past the capacity `K`;
such a request starts a new chunk, the others add to the current one.  The
additions are those of `size_t`. -/
def overflow_events (K : Nat) : Nat → List Nat → Nat
  | _, [] => 0
  | used, a :: as =>
    if K < (used + a) % SIZE_MOD then 1 + overflow_events K (a % SIZE_MOD) as
    else overflow_events K ((used + a) % SIZE_MOD) as

/-- The count of P3 in unbounded arithmetic. -/
def overflow_events_exact (K : Nat) : Nat → List Nat → Nat
  | _, [] => 0
  | used, a :: as =>
    if K < used + a then 1 + overflow_events_exact K a as
    else overflow_events_exact K (used + a) as

/-- The state `s` with the bytes of the chunk `c` at address `a` replaced by
`d`. -/
def with_data (s : State) (a : Nat) (c : arena_chunk_t) (d : Nat → Nat) : State :=
  { s with heap := s.heap.set a { c with data := d } }

/-- Every chunk of `l` has capacity `C0` and at most `C0` bytes used. -/
def bounded_chain (C0 : Nat) (s : State) (l : List Nat) : Prop :=
  ∀ a ∈ l, ∃ c, s.heap[a]? = some c ∧ c.size = C0 ∧ c.used ≤ c.size

/-- Two regions, of `n1` and `n2` bytes, apart by chunk and offset: they are
in different chunks, or one ends before the other starts.  Two such regions
share no byte when each lies inside the block of its chunk (`in_block`); a
region that passes the end of its block covers bytes outside it. -/
def apart (r1 : Region) (n1 : Nat) (r2 : Region) (n2 : Nat) : Prop :=
  r1.chunk ≠ r2.chunk ∨ r1.offset + n1 ≤ r2.offset ∨ r2.offset + n2 ≤ r1.offset

/-- No `size_t` addition of the calls wraps: for each call in turn, the size
it requests is a `size_t` value, and the sum of that size and the `used`
counter of any chunk of the chain is below `SIZE_MOD`. -/
def no_overflow (reduce : Bool) : State → List Call → Prop
  | _, [] => True
  | s, c :: cs =>
    c.requested < SIZE_MOD ∧
    (∀ l, chain s = some l → ∀ a ∈ l, used_of s.heap a + c.requested < SIZE_MOD) ∧
    (∀ p s1, c.run reduce s = some (p, s1) → no_overflow reduce s1 cs)

/-- The `n` bytes of the region at `r` lie inside the block of its chunk:
`r.offset + n` is at most the `size` of the chunk. -/
def in_block (h : Heap) (r : Region) (n : Nat) : Bool :=
  match h[r.chunk]? with
  | some c => decide (r.offset + n ≤ c.size)
  | none => false

end Arena

namespace Arena

/-! ## Single calls of `arena_alloc` -/

theorem arena_alloc_size_zero (reduce : Bool) (s : State) :
    arena_alloc reduce s 0 = some (none, s) := by
  simp [arena_alloc]

/-- C1. A request of size 0 returns `NULL` and leaves the whole state (heap,
hence chunk count and every `used` and `size`, and `begin`/`end`) as it was,
under either placement policy. -/
theorem arena_alloc_zero (reduce : Bool) (s : State) :
    arena_alloc reduce s 0 = some (none, s) :=
  arena_alloc_size_zero reduce s

/-! ## The two branches of `place` -/

theorem heap_push_get {α : Type} (h : List α) (cur : Nat) (c1 new : α)
    (hlt : cur < h.length) : ((h ++ [new]).set cur c1)[h.length]? = some new := by
  rw [List.getElem?_set_ne (Nat.ne_of_lt hlt)]
  exact List.getElem?_concat_length h new

theorem heap_push_set {α : Type} (h : List α) (cur : Nat) (c1 new new1 : α)
    (hlt : cur < h.length) :
    ((h ++ [new]).set cur c1).set h.length new1 = h.set cur c1 ++ [new1] := by
  rw [List.set_append_left _ _ hlt, List.set_append]
  simp

theorem lt_of_get {α : Type} {h : List α} {a : Nat} {c : α} (hc : h[a]? = some c) :
    a < h.length := by
  rcases List.getElem?_eq_some.mp hc with ⟨hlt, _⟩
  exact hlt

/-- The bump branch: the request fits the chosen chunk. -/
theorem place_fits (s : State) (cur size : Nat) (c : arena_chunk_t)
    (hc : s.heap[cur]? = some c) (hfit : (c.used + size) % SIZE_MOD ≤ c.size) :
    place s cur size = some (some { chunk := cur, offset := c.used }, bumped s cur c size) := by
  unfold place bumped
  rw [hc]
  simp only [Nat.not_lt.mpr hfit, if_false]

/-- The growth branch: the request does not fit the chosen chunk. -/
theorem place_grows (s : State) (cur size : Nat) (c : arena_chunk_t)
    (hc : s.heap[cur]? = some c) (hover : c.size < (c.used + size) % SIZE_MOD) :
    place s cur size = some (some { chunk := s.heap.length, offset := 0 },
      grown s cur c size) := by
  have hlt : cur < s.heap.length := lt_of_get hc
  unfold place grown
  rw [hc]
  simp only [hover, if_true, new_arena_chunk]
  rw [heap_push_get _ _ _ _ hlt]
  simp only [Nat.zero_add]
  rw [heap_push_set _ _ _ _ _ hlt]

/-! ## Chains -/

theorem chain_from_none (h : Heap) (f : Nat) : chain_from h f none = some [] := by
  cases f <;> rfl

theorem chain_from_some_succ (h : Heap) (f a : Nat) (c : arena_chunk_t)
    (hc : h[a]? = some c) :
    chain_from h (f + 1) (some a) = (chain_from h f c.next).map (fun l => a :: l) := by
  simp only [chain_from, hc]

/-- Unfolding of a successful walk from a non-null address. -/
theorem chain_from_some_inv {h : Heap} {f a : Nat} {l : List Nat}
    (hch : chain_from h f (some a) = some l) :
    ∃ f1 c l1, f = f1 + 1 ∧ h[a]? = some c ∧ chain_from h f1 c.next = some l1 ∧
      l = a :: l1 := by
  cases f with
  | zero => simp [chain_from] at hch
  | succ f1 =>
    cases hc : h[a]? with
    | none => simp [chain_from, hc] at hch
    | some c =>
      rw [chain_from_some_succ h f1 a c hc] at hch
      cases hl : chain_from h f1 c.next with
      | none => simp [hl] at hch
      | some l1 =>
        rw [hl] at hch
        simp only [Option.map_some', Option.some.injEq] at hch
        exact ⟨f1, c, l1, rfl, rfl, hl, hch.symm⟩

theorem chain_from_length {h : Heap} : ∀ {f : Nat} {p : Option Nat} {l : List Nat},
    chain_from h f p = some l → l.length ≤ f := by
  intro f
  induction f with
  | zero =>
    intro p l hch
    cases p with
    | none => rw [chain_from_none] at hch; cases hch; simp
    | some a => simp [chain_from] at hch
  | succ f ih =>
    intro p l hch
    cases p with
    | none => rw [chain_from_none] at hch; cases hch; simp
    | some a =>
      obtain ⟨f1, c, l1, hf, _, hl1, rfl⟩ := chain_from_some_inv hch
      have hf1 : f1 = f := by omega
      subst hf1
      have := ih hl1
      simp only [List.length_cons]
      omega

/-- More fuel does not change a walk that ended. -/
theorem chain_from_mono {h : Heap} : ∀ {f : Nat} {p : Option Nat} {l : List Nat} (g : Nat),
    chain_from h f p = some l → f ≤ g → chain_from h g p = some l := by
  intro f
  induction f with
  | zero =>
    intro p l g hch _
    cases p with
    | none => rw [chain_from_none] at hch ⊢; exact hch
    | some a => simp [chain_from] at hch
  | succ f ih =>
    intro p l g hch hle
    cases p with
    | none => rw [chain_from_none] at hch ⊢; exact hch
    | some a =>
      obtain ⟨f1, c, l1, hf, hc, hl1, rfl⟩ := chain_from_some_inv hch
      have hf1 : f1 = f := by omega
      subst hf1
      obtain ⟨g1, rfl⟩ : ∃ g1, g = g1 + 1 := ⟨g - 1, by omega⟩
      rw [chain_from_some_succ h g1 a c hc, ih g1 hl1 (by omega)]
      rfl

/-- A walk only reads the `next` links: two heaps with the same links have
the same chains. -/
theorem chain_from_congr {h h1 : Heap}
    (hn : ∀ a : Nat, (h1[a]?).map arena_chunk_t.next = (h[a]?).map arena_chunk_t.next) :
    ∀ (f : Nat) (p : Option Nat), chain_from h1 f p = chain_from h f p := by
  intro f
  induction f with
  | zero =>
    intro p
    cases p <;> rfl
  | succ f ih =>
    intro p
    cases p with
    | none => rfl
    | some a =>
      have ha := hn a
      cases hc1 : h1[a]? with
      | none =>
        cases hc : h[a]? with
        | none => simp [chain_from, hc1, hc]
        | some c => simp [hc1, hc] at ha
      | some c1 =>
        cases hc : h[a]? with
        | none => simp [hc1, hc] at ha
        | some c =>
          simp only [hc1, hc, Option.map_some', Option.some.injEq] at ha
          rw [chain_from_some_succ h1 f a c1 hc1, chain_from_some_succ h f a c hc, ha, ih]

/-- Every address of a chain is a chunk of the heap. -/
theorem chain_from_valid {h : Heap} : ∀ {f : Nat} {p : Option Nat} {l : List Nat},
    chain_from h f p = some l → ∀ a ∈ l, a < h.length := by
  intro f
  induction f with
  | zero =>
    intro p l hch a ha
    cases p with
    | none => rw [chain_from_none] at hch; cases hch; simp at ha
    | some b => simp [chain_from] at hch
  | succ f ih =>
    intro p l hch a ha
    cases p with
    | none => rw [chain_from_none] at hch; cases hch; simp at ha
    | some b =>
      obtain ⟨f1, c, l1, hf, hc, hl1, rfl⟩ := chain_from_some_inv hch
      have hf1 : f1 = f := by omega
      subst hf1
      rcases List.mem_cons.mp ha with rfl | hmem
      · exact lt_of_get hc
      · exact ih hl1 a hmem

/-- The last chunk of a chain is the one whose `next` is `NULL`. -/
theorem chain_from_last_next {h : Heap} : ∀ {f : Nat} {p : Option Nat} {l : List Nat} {e : Nat},
    chain_from h f p = some l → l.getLast? = some e →
    ∃ c, h[e]? = some c ∧ c.next = none := by
  intro f
  induction f with
  | zero =>
    intro p l e hch hlast
    cases p with
    | none => rw [chain_from_none] at hch; cases hch; simp at hlast
    | some b => simp [chain_from] at hch
  | succ f ih =>
    intro p l e hch hlast
    cases p with
    | none => rw [chain_from_none] at hch; cases hch; simp at hlast
    | some b =>
      obtain ⟨f1, c, l1, hf, hc, hl1, rfl⟩ := chain_from_some_inv hch
      have hf1 : f1 = f := by omega
      subst hf1
      cases hnx : c.next with
      | none =>
        rw [hnx, chain_from_none] at hl1
        cases hl1
        simp only [List.getLast?_singleton, Option.some.injEq] at hlast
        subst hlast
        exact ⟨c, hc, hnx⟩
      | some b1 =>
        rw [hnx] at hl1
        obtain ⟨f2, c2, l2, _, _, _, rfl⟩ := chain_from_some_inv hl1
        rw [List.getLast?_cons_cons] at hlast
        exact ih hl1 hlast

/-- A chain from a non-null address starts with that address. -/
theorem chain_from_head {h : Heap} {f a : Nat} {l : List Nat}
    (hch : chain_from h f (some a) = some l) : ∃ l1, l = a :: l1 := by
  obtain ⟨_, _, l1, _, _, _, rfl⟩ := chain_from_some_inv hch
  exact ⟨l1, rfl⟩

/-- From any chunk of a chain, the walk yields the rest of the chain. -/
theorem chain_from_suffix {h : Heap} : ∀ {f : Nat} {p : Option Nat} {l : List Nat} {a : Nat},
    chain_from h f p = some l → a ∈ l →
    ∃ l1 l2, l = l1 ++ a :: l2 ∧ chain_from h f (some a) = some (a :: l2) := by
  intro f
  induction f with
  | zero =>
    intro p l a hch ha
    cases p with
    | none => rw [chain_from_none] at hch; cases hch; simp at ha
    | some b => simp [chain_from] at hch
  | succ f ih =>
    intro p l a hch ha
    cases p with
    | none => rw [chain_from_none] at hch; cases hch; simp at ha
    | some b =>
      obtain ⟨f1, c, l1, hf, hc, hl1, rfl⟩ := chain_from_some_inv hch
      have hf1 : f1 = f := by omega
      subst hf1
      rcases List.mem_cons.mp ha with rfl | hmem
      · exact ⟨[], l1, rfl, hch⟩
      · obtain ⟨k1, k2, hk, hk2⟩ := ih hl1 hmem
        exact ⟨b :: k1, k2, by rw [hk]; rfl, chain_from_mono (f1 + 1) hk2 (by omega)⟩

/-- No chunk occurs twice in a chain. -/
theorem chain_from_nodup {h : Heap} : ∀ {f : Nat} {p : Option Nat} {l : List Nat},
    chain_from h f p = some l → l.Nodup := by
  intro f
  induction f with
  | zero =>
    intro p l hch
    cases p with
    | none => rw [chain_from_none] at hch; cases hch; exact List.nodup_nil
    | some b => simp [chain_from] at hch
  | succ f ih =>
    intro p l hch
    cases p with
    | none => rw [chain_from_none] at hch; cases hch; exact List.nodup_nil
    | some b =>
      obtain ⟨f1, c, l1, hf, hc, hl1, rfl⟩ := chain_from_some_inv hch
      have hf1 : f1 = f := by omega
      subst hf1
      refine List.nodup_cons.mpr ⟨?_, ih hl1⟩
      intro hmem
      obtain ⟨k1, k2, hk, hk2⟩ := chain_from_suffix hl1 hmem
      have h2 := chain_from_mono (f1 + 1) hk2 (by omega)
      rw [hch] at h2
      have hlen := congrArg List.length (Option.some.inj h2)
      rw [hk] at hlen
      simp at hlen
      omega

/-! ## The fuel of the walks

The walks are run with as much fuel as the heap has chunks.  A walk that
ends with any amount of fuel visits no chunk twice, so it ends with that
much fuel as well. -/

theorem chain_from_lower {h : Heap} : ∀ {f : Nat} {p : Option Nat} {l : List Nat} (g : Nat),
    chain_from h f p = some l → l.length ≤ g → chain_from h g p = some l := by
  intro f
  induction f with
  | zero =>
    intro p l g hch _
    cases p with
    | none => rw [chain_from_none] at hch ⊢; exact hch
    | some a => simp [chain_from] at hch
  | succ f ih =>
    intro p l g hch hle
    cases p with
    | none => rw [chain_from_none] at hch ⊢; exact hch
    | some a =>
      obtain ⟨f1, c, l1, hf, hc, hl1, rfl⟩ := chain_from_some_inv hch
      have hf1 : f1 = f := by omega
      subst hf1
      simp only [List.length_cons] at hle
      obtain ⟨g1, rfl⟩ : ∃ g1, g = g1 + 1 := ⟨g - 1, by omega⟩
      rw [chain_from_some_succ h g1 a c hc, ih g1 hl1 (by omega)]
      rfl

/-- A chain has at most as many chunks as the heap. -/
theorem chain_from_length_le_heap {h : Heap} {f : Nat} {p : Option Nat} {l : List Nat}
    (hch : chain_from h f p = some l) : l.length ≤ h.length := by
  have hsub : l ⊆ List.range h.length := by
    intro a ha
    exact List.mem_range.mpr (chain_from_valid hch a ha)
  have := ((chain_from_nodup hch).subperm hsub).length_le
  simpa using this

/-- Fuel equal to the size of the heap is enough for every walk that ends. -/
theorem chain_from_heap_fuel {h : Heap} {f : Nat} {p : Option Nat} {l : List Nat}
    (hch : chain_from h f p = some l) : chain_from h h.length p = some l :=
  chain_from_lower h.length hch (chain_from_length_le_heap hch)

/-! ## The heap after a growth step -/

theorem grow_get_old {α : Type} (h : List α) (cur a : Nat) (c1 new : α)
    (ha : a < h.length) (hne : a ≠ cur) : (h.set cur c1 ++ [new])[a]? = h[a]? := by
  rw [List.getElem?_append_left (by simpa using ha), List.getElem?_set_ne (Ne.symm hne)]

theorem grow_get_cur {α : Type} (h : List α) (cur : Nat) (c1 new : α)
    (hcur : cur < h.length) : (h.set cur c1 ++ [new])[cur]? = some c1 := by
  rw [List.getElem?_append_left (by simpa using hcur), List.getElem?_set_self hcur]

theorem grow_get_new {α : Type} (h : List α) (cur : Nat) (c1 new : α) :
    (h.set cur c1 ++ [new])[h.length]? = some new := by
  have hlen : h.length = (h.set cur c1).length := by simp
  have := List.getElem?_concat_length (h.set cur c1) new
  rw [← hlen] at this
  exact this

/-- Growth appends the new chunk to the chain: when `cur` is the last chunk
of a chain, linking a fresh chunk after it extends the chain by that chunk. -/
theorem chain_from_grow {h : Heap} {cur : Nat} {c new : arena_chunk_t}
    (hc : h[cur]? = some c) (hnew : new.next = none) :
    ∀ {f : Nat} {p : Option Nat} {l : List Nat},
    chain_from h f p = some l → l.getLast? = some cur →
    chain_from (h.set cur { c with next := some h.length } ++ [new]) (f + 1) p =
      some (l ++ [h.length]) := by
  have hcur : cur < h.length := lt_of_get hc
  intro f
  induction f with
  | zero =>
    intro p l hch hlast
    cases p with
    | none => rw [chain_from_none] at hch; cases hch; simp at hlast
    | some b => simp [chain_from] at hch
  | succ f ih =>
    intro p l hch hlast
    cases p with
    | none => rw [chain_from_none] at hch; cases hch; simp at hlast
    | some b =>
      obtain ⟨cl, hcl, hclnext⟩ := chain_from_last_next hch hlast
      rw [hc] at hcl
      cases hcl
      obtain ⟨f1, cb, l1, hf, hcb, hl1, rfl⟩ := chain_from_some_inv hch
      have hf1 : f1 = f := by omega
      subst hf1
      by_cases hb : b = cur
      · subst hb
        rw [hc] at hcb
        cases hcb
        rw [hclnext, chain_from_none] at hl1
        cases hl1
        rw [chain_from_some_succ _ _ _ _ (grow_get_cur h b _ new hcur)]
        simp only
        rw [chain_from_some_succ _ _ _ _ (grow_get_new h b _ new), hnew, chain_from_none]
        rfl
      · have hbl : b < h.length := lt_of_get hcb
        rw [chain_from_some_succ _ _ _ cb (by rw [grow_get_old h cur b _ new hbl hb]; exact hcb)]
        cases hnx : cb.next with
        | none =>
          rw [hnx, chain_from_none] at hl1
          cases hl1
          simp only [List.getLast?_singleton, Option.some.injEq] at hlast
          exact absurd hlast hb
        | some b1 =>
          rw [hnx] at hl1
          obtain ⟨l2, rfl⟩ := chain_from_head hl1
          rw [List.getLast?_cons_cons] at hlast
          rw [ih hl1 hlast]
          rfl

/-- Writing a chunk back with its `next` unchanged keeps every link. -/
theorem links_set {h : Heap} {cur : Nat} {c : arena_chunk_t} (c1 : arena_chunk_t)
    (hc : h[cur]? = some c) (hnext : c1.next = c.next) (a : Nat) :
    ((h.set cur c1)[a]?).map arena_chunk_t.next = (h[a]?).map arena_chunk_t.next := by
  by_cases ha : cur = a
  · subst ha
    rw [List.getElem?_set_self (lt_of_get hc), hc]
    simp [hnext]
  · rw [List.getElem?_set_ne ha]

/-! ## The hole search -/

/-- The hole search stops at the first chunk before the last that has room. -/
theorem find_hole_found {h : Heap} {size : Nat} : ∀ {f a : Nat} {l : List Nat} {x : Nat},
    chain_from h f (some a) = some l → l.dropLast.find? (fits h size) = some x →
    find_hole h size f a = some x := by
  intro f
  induction f with
  | zero => intro a l x hch _; simp [chain_from] at hch
  | succ f ih =>
    intro a l x hch hfind
    obtain ⟨f1, c, l1, hf, hc, hl1, rfl⟩ := chain_from_some_inv hch
    have hf1 : f1 = f := by omega
    subst hf1
    cases hnx : c.next with
    | none =>
      rw [hnx, chain_from_none] at hl1
      cases hl1
      simp at hfind
    | some b =>
      rw [hnx] at hl1
      obtain ⟨l2, rfl⟩ := chain_from_head hl1
      rw [List.dropLast_cons₂, List.find?_cons] at hfind
      simp only [find_hole, hc, hnx]
      by_cases hfit : (c.used + size) % SIZE_MOD ≤ c.size
      · have hfa : fits h size a = true := by simp [fits, hc, hfit]
        rw [hfa] at hfind
        simp only [Option.some.injEq] at hfind
        simp [hfit, hfind]
      · have hfa : fits h size a = false := by simp [fits, hc, hfit]
        rw [hfa] at hfind
        simp only [hfit, if_false]
        exact ih hl1 hfind

/-- The hole search ends on the last chunk when no earlier chunk has room. -/
theorem find_hole_last {h : Heap} {size : Nat} : ∀ {f a : Nat} {l : List Nat} {e : Nat},
    chain_from h f (some a) = some l → l.dropLast.find? (fits h size) = none →
    l.getLast? = some e → find_hole h size f a = some e := by
  intro f
  induction f with
  | zero => intro a l e hch _ _; simp [chain_from] at hch
  | succ f ih =>
    intro a l e hch hfind hlast
    obtain ⟨f1, c, l1, hf, hc, hl1, rfl⟩ := chain_from_some_inv hch
    have hf1 : f1 = f := by omega
    subst hf1
    cases hnx : c.next with
    | none =>
      rw [hnx, chain_from_none] at hl1
      cases hl1
      simp only [List.getLast?_singleton, Option.some.injEq] at hlast
      subst hlast
      simp [find_hole, hc, hnx]
    | some b =>
      rw [hnx] at hl1
      obtain ⟨l2, rfl⟩ := chain_from_head hl1
      rw [List.dropLast_cons₂, List.find?_cons] at hfind
      rw [List.getLast?_cons_cons] at hlast
      simp only [find_hole, hc, hnx]
      by_cases hfit : (c.used + size) % SIZE_MOD ≤ c.size
      · have hfa : fits h size a = true := by simp [fits, hc, hfit]
        rw [hfa] at hfind
        simp at hfind
      · have hfa : fits h size a = false := by simp [fits, hc, hfit]
        rw [hfa] at hfind
        simp only [hfit, if_false]
        exact ih hl1 hfind hlast

/-! ## One request on a well-formed arena -/

theorem find_mem_of_dropLast {l : List Nat} {q : Nat → Bool} {x : Nat}
    (hf : l.dropLast.find? q = some x) : x ∈ l ∧ q x = true := by
  have h1 := List.mem_of_find?_eq_some hf
  have h2 := List.find?_some hf
  exact ⟨List.dropLast_subset l h1, h2⟩

theorem mem_of_getLast {l : List Nat} {e : Nat} (h : l.getLast? = some e) : e ∈ l := by
  obtain ⟨ys, rfl⟩ := List.getLast?_eq_some_iff.mp h
  simp

/-- The target is a chunk of the chain. -/
theorem target_mem (reduce : Bool) {s : State} {l : List Nat} (size : Nat)
    (hwf : WellFormed s l) : target reduce s l size ∈ l := by
  unfold target
  cases reduce with
  | false => simpa using mem_of_getLast hwf.2
  | true =>
    simp only [if_true]
    cases hf : l.dropLast.find? (fits s.heap size) with
    | none => simpa using mem_of_getLast hwf.2
    | some x => simpa using (find_mem_of_dropLast hf).1

/-- The code selects the target. -/
theorem select_chunk_wf (reduce : Bool) {s : State} {l : List Nat} (size : Nat)
    (hwf : WellFormed s l) : select_chunk reduce s size = some (target reduce s l size) := by
  unfold select_chunk target
  cases reduce with
  | false => simp
  | true =>
    simp only [if_true]
    have hch : chain_from s.heap s.heap.length (some s.arena.begin) = some l := hwf.1
    cases hf : l.dropLast.find? (fits s.heap size) with
    | none => simpa using find_hole_last hch hf hwf.2
    | some x => simpa using find_hole_found hch hf

/-- When the target has no room, it is `end`. -/
theorem target_full_is_end {reduce : Bool} {s : State} {l : List Nat} {size : Nat}
    {c : arena_chunk_t} (hc : s.heap[target reduce s l size]? = some c)
    (hover : c.size < (c.used + size) % SIZE_MOD) :
    target reduce s l size = s.arena.end_ := by
  unfold target at hc ⊢
  cases reduce with
  | false => simp
  | true =>
    simp only [if_true] at hc ⊢
    cases hf : l.dropLast.find? (fits s.heap size) with
    | none => simp
    | some x =>
      rw [hf] at hc
      simp only [Option.getD_some] at hc
      have hx := (find_mem_of_dropLast hf).2
      simp only [fits, hc, decide_eq_true_eq] at hx
      omega

/-- The effect of one request on a well-formed arena, under either policy:
the target chunk is bumped when the request fits it, and otherwise the target
is `end` and the arena grows behind it. -/
theorem arena_alloc_step (reduce : Bool) (s : State) (l : List Nat) (size : Nat)
    (hwf : WellFormed s l) (hpos : 0 < size) :
    ∃ c, s.heap[target reduce s l size]? = some c ∧
      (((c.used + size) % SIZE_MOD ≤ c.size ∧
          arena_alloc reduce s size =
            some (some { chunk := target reduce s l size, offset := c.used },
                  bumped s (target reduce s l size) c size)) ∨
       (c.size < (c.used + size) % SIZE_MOD ∧ target reduce s l size = s.arena.end_ ∧
          arena_alloc reduce s size =
            some (some { chunk := s.heap.length, offset := 0 },
                  grown s (target reduce s l size) c size))) := by
  have hmem := target_mem reduce size hwf
  have hlt := chain_from_valid hwf.1 _ hmem
  obtain ⟨c, hc⟩ : ∃ c, s.heap[target reduce s l size]? = some c :=
    ⟨s.heap[target reduce s l size], List.getElem?_eq_getElem hlt⟩
  refine ⟨c, hc, ?_⟩
  have halloc : arena_alloc reduce s size = place s (target reduce s l size) size := by
    unfold arena_alloc
    rw [if_neg (by omega), select_chunk_wf reduce size hwf]
  by_cases hfit : (c.used + size) % SIZE_MOD ≤ c.size
  · exact Or.inl ⟨hfit, by rw [halloc, place_fits s _ size c hc hfit]⟩
  · have hover : c.size < (c.used + size) % SIZE_MOD := by omega
    exact Or.inr ⟨hover, target_full_is_end hc hover,
      by rw [halloc, place_grows s _ size c hc hover]⟩

/-- A bump keeps the arena well-formed, with the same chunks. -/
theorem bumped_wf {s : State} {l : List Nat} {cur size : Nat} {c : arena_chunk_t}
    (hwf : WellFormed s l) (hc : s.heap[cur]? = some c) :
    WellFormed (bumped s cur c size) l := by
  refine ⟨?_, hwf.2⟩
  unfold chain bumped
  simp only [List.length_set]
  rw [chain_from_congr
    (links_set { c with used := (c.used + size) % SIZE_MOD } hc rfl)]
  exact hwf.1

/-- Growth behind `end` keeps the arena well-formed, with the new chunk
appended to its chunks. -/
theorem grown_wf {s : State} {l : List Nat} {size : Nat} {c : arena_chunk_t}
    (hwf : WellFormed s l) (hc : s.heap[s.arena.end_]? = some c) :
    WellFormed (grown s s.arena.end_ c size) (l ++ [s.heap.length]) := by
  refine ⟨?_, by simp [grown]⟩
  unfold chain grown
  simp only [List.length_append, List.length_set, List.length_singleton]
  exact chain_from_grow hc rfl hwf.1 hwf.2

/-- A fresh arena is well-formed and has one chunk. -/
theorem create_arena_wf (h : Heap) (size : Nat) :
    WellFormed (create_arena h size) [h.length] := by
  refine ⟨?_, rfl⟩
  unfold chain create_arena new_arena_chunk
  simp only [List.length_append, List.length_singleton]
  rw [chain_from_some_succ _ _ _ _ (List.getElem?_concat_length h _), chain_from_none]
  rfl

/-! ## The default policy -/

/-- Without the hole search a positive request goes to `end`. -/
theorem arena_alloc_default (s : State) (size : Nat) (hpos : 0 < size) :
    arena_alloc false s size = place s s.arena.end_ size := by
  unfold arena_alloc select_chunk
  rw [if_neg (by omega)]
  simp

theorem size_sub_of_le {a b : Nat} (hb : b ≤ a) (ha : a < SIZE_MOD) : size_sub a b = a - b := by
  unfold size_sub
  have hb1 : b % SIZE_MOD = b := Nat.mod_eq_of_lt (by omega)
  rw [hb1]
  have h1 : a + SIZE_MOD - b = (a - b) + SIZE_MOD := by omega
  rw [h1, Nat.add_mod_right]
  exact Nat.mod_eq_of_lt (by omega)

theorem run_allocs_nil (reduce : Bool) (s : State) : run_allocs reduce s [] = some ([], s) := rfl

theorem run_allocs_cons (reduce : Bool) (s : State) (a : Nat) (as : List Nat) :
    run_allocs reduce s (a :: as) =
      match arena_alloc reduce s a with
      | none => none
      | some (p, s1) =>
        match run_allocs reduce s1 as with
        | none => none
        | some (ps, s2) => some (p :: ps, s2) := rfl

/-- Requests that together fit the end chunk are all served from it. -/
theorem run_allocs_within (K : Nat) (hK : K < SIZE_MOD) :
    ∀ (sizes : List Nat) (s : State) (c : arena_chunk_t),
    s.heap[s.arena.end_]? = some c → c.size = K → c.used + sizes.sum ≤ K →
    ∃ ps s1 c1, run_allocs false s sizes = some (ps, s1) ∧
      s1.heap[s1.arena.end_]? = some c1 ∧ c1.size = K ∧ c1.used = c.used + sizes.sum ∧
      s1.heap.length = s.heap.length := by
  intro sizes
  induction sizes with
  | nil =>
    intro s c hc hsz _
    exact ⟨[], s, c, rfl, hc, hsz, by simp, rfl⟩
  | cons a as ih =>
    intro s c hc hsz hsum
    simp only [List.sum_cons] at hsum
    rw [run_allocs_cons]
    by_cases ha : a = 0
    · subst ha
      rw [arena_alloc_size_zero]
      obtain ⟨ps, s1, c1, hrun, hc1, hsz1, hu1, hlen⟩ := ih s c hc hsz (by omega)
      refine ⟨none :: ps, s1, c1, ?_, hc1, hsz1, ?_, hlen⟩
      · simp only [hrun]
      · simp only [List.sum_cons]; omega
    · have hmod : (c.used + a) % SIZE_MOD = c.used + a := Nat.mod_eq_of_lt (by omega)
      rw [arena_alloc_default s a (by omega),
        place_fits s _ a c hc (by rw [hmod]; omega)]
      have hc2 : (bumped s s.arena.end_ c a).heap[(bumped s s.arena.end_ c a).arena.end_]? =
          some { c with used := (c.used + a) % SIZE_MOD } := by
        simp only [bumped]
        exact List.getElem?_set_self (lt_of_get hc)
      obtain ⟨ps, s1, c1, hrun, hc1, hsz1, hu1, hlen⟩ :=
        ih (bumped s s.arena.end_ c a) _ hc2 hsz (by simp only [hmod]; omega)
      refine ⟨some { chunk := s.arena.end_, offset := c.used } :: ps, s1, c1, ?_,
        hc1, hsz1, ?_, ?_⟩
      · simp only [hrun]
      · simp only [hmod] at hu1
        simp only [List.sum_cons]
        omega
      · rw [hlen]; simp [bumped]

/-- C2. Default policy: a request of `size > 0` bytes that fits the end
chunk (`end.used + size <= end.size`) is returned at offset `end.used` of the
end chunk, `end.used` grows by exactly `size`, and no chunk is created (the
heap keeps its length, every other chunk and `begin`/`end` are as before).
Hence after `create_arena(K)` and requests whose sizes sum to at most `K`,
the current used space is their sum and the current available space is `K`
minus that sum. -/
theorem arena_alloc_default_bump (s : State) (size : Nat) (c : arena_chunk_t)
    (h : Heap) (K : Nat) (sizes : List Nat)
    (hpos : 0 < size) (hend : s.heap[s.arena.end_]? = some c)
    (hcap : c.size < SIZE_MOD) (hfit : c.used + size ≤ c.size)
    (hK : K < SIZE_MOD) (hsum : sizes.sum ≤ K) :
    (arena_alloc false s size =
        some (some { chunk := s.arena.end_, offset := c.used },
              { heap := s.heap.set s.arena.end_ { c with used := c.used + size },
                arena := s.arena }) ∧
      (s.heap.set s.arena.end_ { c with used := c.used + size }).length = s.heap.length) ∧
    ∃ ps s1, run_allocs false (create_arena h K) sizes = some (ps, s1) ∧
      arena_get_current_used_space s1 = some sizes.sum ∧
      arena_get_current_available_space s1 = some (K - sizes.sum) := by
  refine ⟨⟨?_, by simp⟩, ?_⟩
  · have hmod : (c.used + size) % SIZE_MOD = c.used + size := Nat.mod_eq_of_lt (by omega)
    rw [arena_alloc_default s size hpos, place_fits s _ size c hend (by rw [hmod]; exact hfit)]
    simp only [bumped, hmod]
  · have h0 : (create_arena h K).heap[(create_arena h K).arena.end_]? =
        some { next := none, size := K, used := 0, data := fun _ => 0 } := by
      simp only [create_arena, new_arena_chunk]
      exact List.getElem?_concat_length h _
    obtain ⟨ps, s1, c1, hrun, hc1, hsz1, hu1, _⟩ :=
      run_allocs_within K hK sizes (create_arena h K) _ h0 rfl (by simpa using hsum)
    refine ⟨ps, s1, hrun, ?_, ?_⟩
    · simp [arena_get_current_used_space, hc1, hu1]
    · simp only [arena_get_current_available_space, hc1, Option.map_some', hsz1, hu1,
        Nat.zero_add]
      rw [size_sub_of_le hsum hK]

/-- The witness of C2: capacity 1024, a 4-byte request on the fresh arena,
and the requests 4 then 8 leave 12 bytes used and 1012 available. -/
theorem arena_alloc_default_bump_witness :
    (arena_alloc false (create_arena [] 1024) 4 =
        some (some { chunk := 0, offset := 0 },
              { heap := (create_arena [] 1024).heap.set 0
                  { next := none, size := 1024, used := 0 + 4, data := fun _ => 0 },
                arena := (create_arena [] 1024).arena }) ∧
      ((create_arena [] 1024).heap.set 0
          { next := none, size := 1024, used := 0 + 4, data := fun _ => 0 }).length =
        (create_arena [] 1024).heap.length) ∧
    ∃ ps s1, run_allocs false (create_arena [] 1024) [4, 8] = some (ps, s1) ∧
      arena_get_current_used_space s1 = some 12 ∧
      arena_get_current_available_space s1 = some 1012 :=
  arena_alloc_default_bump (create_arena [] 1024) 4
    { next := none, size := 1024, used := 0, data := fun _ => 0 } [] 1024 [4, 8]
    (by decide) rfl (by decide) (by decide) (by decide) (by decide)

/-- Default policy: a request of `size > 0` bytes for which the test
`end.used + size > end.size` of the code holds (the sum taken as `size_t`,
which is the plain sum only when that is below `2 ^ 64`) appends exactly one
chunk: the new chunk has the capacity of the previous end, `used = size`
and no successor; the previous end gets it as `next`; it is the arena's new
`end`; the returned region starts at its offset 0; and every chunk that
existed before keeps its `used`, `size` and bytes (all but the previous end
are untouched). -/
theorem arena_alloc_default_grow (s : State) (size : Nat) (c : arena_chunk_t)
    (hpos : 0 < size) (hlt : size < SIZE_MOD) (hend : s.heap[s.arena.end_]? = some c)
    (hover : c.size < (c.used + size) % SIZE_MOD) :
    ∃ s1 n e, arena_alloc false s size =
        some (some { chunk := s.heap.length, offset := 0 }, s1) ∧
      s1.heap.length = s.heap.length + 1 ∧
      s1.heap[s.heap.length]? = some n ∧ n.size = c.size ∧ n.used = size ∧ n.next = none ∧
      s1.heap[s.arena.end_]? = some e ∧ e.next = some s.heap.length ∧
      s1.arena.end_ = s.heap.length ∧ s1.arena.begin = s.arena.begin ∧
      ∀ (a : Nat) (old : arena_chunk_t), s.heap[a]? = some old →
        ∃ new, s1.heap[a]? = some new ∧ new.used = old.used ∧ new.size = old.size ∧
          new.data = old.data ∧ (a ≠ s.arena.end_ → new = old) := by
  have hcur : s.arena.end_ < s.heap.length := lt_of_get hend
  refine ⟨grown s s.arena.end_ c size, _, _, ?_, ?_, grow_get_new _ _ _ _, rfl,
    Nat.mod_eq_of_lt hlt, rfl, grow_get_cur _ _ _ _ hcur, rfl, rfl, rfl, ?_⟩
  · rw [arena_alloc_default s size hpos, place_grows s _ size c hend hover]
  · simp [grown]
  · intro a old hold
    by_cases ha : a = s.arena.end_
    · subst ha
      rw [hend] at hold
      cases hold
      exact ⟨_, grow_get_cur _ _ _ _ hcur, rfl, rfl, rfl, fun hne => absurd rfl hne⟩
    · refine ⟨old, ?_, rfl, rfl, rfl, fun _ => rfl⟩
      simp only [grown]
      rw [grow_get_old _ _ _ _ _ (lt_of_get hold) ha]
      exact hold

/-- Capacity 1024 with 480 bytes used, a request of 960 bytes: one chunk is
appended. -/
theorem arena_alloc_default_grow_witness :
    ∃ s1 n e, arena_alloc false
        { heap := [{ next := none, size := 1024, used := 480, data := fun _ => 0 }],
          arena := { begin := 0, end_ := 0 } } 960 =
        some (some { chunk := 1, offset := 0 }, s1) ∧
      s1.heap.length = 1 + 1 ∧
      s1.heap[1]? = some n ∧ n.size = 1024 ∧ n.used = 960 ∧ n.next = none ∧
      s1.heap[0]? = some e ∧ e.next = some 1 ∧
      s1.arena.end_ = 1 ∧ s1.arena.begin = 0 ∧
      ∀ (a : Nat) (old : arena_chunk_t),
        [({ next := none, size := 1024, used := 480, data := fun _ => 0 } :
            arena_chunk_t)][a]? = some old →
        ∃ new, s1.heap[a]? = some new ∧ new.used = old.used ∧ new.size = old.size ∧
          new.data = old.data ∧ (a ≠ 0 → new = old) :=
  arena_alloc_default_grow
    { heap := [{ next := none, size := 1024, used := 480, data := fun _ => 0 }],
      arena := { begin := 0, end_ := 0 } } 960
    { next := none, size := 1024, used := 480, data := fun _ => 0 }
    (by decide) (by decide) rfl (by decide)

/-! ## The sum of the `used` counters -/

theorem used_of_eq {h : Heap} {a : Nat} {c : arena_chunk_t} (hc : h[a]? = some c) :
    used_of h a = c.used := by
  simp [used_of, hc]

theorem used_sum_cons (h : Heap) (a : Nat) (l : List Nat) :
    used_sum h (a :: l) = used_of h a + used_sum h l := by
  simp [used_sum]

theorem used_sum_congr {h h1 : Heap} {l : List Nat}
    (hl : ∀ a ∈ l, used_of h1 a = used_of h a) : used_sum h1 l = used_sum h l := by
  unfold used_sum
  rw [List.map_congr_left hl]

theorem used_of_le_sum (h : Heap) {l : List Nat} {a : Nat} (ha : a ∈ l) :
    used_of h a ≤ used_sum h l := by
  induction l with
  | nil => simp at ha
  | cons b l ih =>
    rw [used_sum_cons]
    rcases List.mem_cons.mp ha with rfl | hmem
    · omega
    · have := ih hmem
      omega

theorem used_of_set_ne {h : Heap} {cur a : Nat} (c1 : arena_chunk_t) (hne : a ≠ cur) :
    used_of (h.set cur c1) a = used_of h a := by
  simp [used_of, List.getElem?_set_ne (Ne.symm hne)]

/-- Replacing one chunk of a duplicate-free list of chunks moves the sum of
`used` by the difference of the two counters. -/
theorem used_sum_set {h : Heap} {cur : Nat} {c : arena_chunk_t} (c1 : arena_chunk_t)
    (hc : h[cur]? = some c) :
    ∀ {l : List Nat}, l.Nodup → cur ∈ l →
    used_sum (h.set cur c1) l + c.used = used_sum h l + c1.used := by
  intro l
  induction l with
  | nil => intro _ hmem; simp at hmem
  | cons a l ih =>
    intro hnd hmem
    rw [used_sum_cons, used_sum_cons]
    have hnd2 := List.nodup_cons.mp hnd
    by_cases ha : a = cur
    · subst ha
      have hrest : used_sum (h.set a c1) l = used_sum h l :=
        used_sum_congr (fun b hb => used_of_set_ne c1 (fun hba => hnd2.1 (hba ▸ hb)))
      rw [hrest, used_of_eq hc, used_of_eq (List.getElem?_set_self (lt_of_get hc))]
      omega
    · have hmem2 : cur ∈ l := by
        rcases List.mem_cons.mp hmem with h1 | h1
        · exact absurd h1.symm ha
        · exact h1
      have := ih hnd2.2 hmem2
      rw [used_of_set_ne c1 ha]
      omega

/-- A bump moves the sum of `used` from the old counter to the new one. -/
theorem used_sum_bumped {s : State} {l : List Nat} {cur : Nat} (size : Nat)
    {c : arena_chunk_t} (hwf : WellFormed s l) (hmem : cur ∈ l) (hc : s.heap[cur]? = some c) :
    used_sum (bumped s cur c size).heap l + c.used =
      used_sum s.heap l + (c.used + size) % SIZE_MOD :=
  used_sum_set { c with used := (c.used + size) % SIZE_MOD } hc (chain_from_nodup hwf.1) hmem

/-- Growth adds the counter of the new chunk to the sum of `used`. -/
theorem used_sum_grown {s : State} {l : List Nat} {cur : Nat} (size : Nat)
    {c : arena_chunk_t} (hwf : WellFormed s l) (hc : s.heap[cur]? = some c) :
    used_sum (grown s cur c size).heap (l ++ [s.heap.length]) =
      used_sum s.heap l + size % SIZE_MOD := by
  have hcur : cur < s.heap.length := lt_of_get hc
  unfold used_sum
  rw [List.map_append, List.sum_append]
  have hnew : used_of (grown s cur c size).heap s.heap.length = size % SIZE_MOD :=
    used_of_eq (grow_get_new _ _ _ _)
  have hold : ∀ a ∈ l, used_of (grown s cur c size).heap a = used_of s.heap a := by
    intro a ha
    have hal := chain_from_valid hwf.1 a ha
    by_cases hac : a = cur
    · subst hac
      have hg : (grown s a c size).heap[a]? = some { c with next := some s.heap.length } :=
        grow_get_cur _ _ _ _ hcur
      rw [used_of_eq hg, used_of_eq hc]
    · simp only [used_of, grown]
      rw [grow_get_old _ _ _ _ _ hal hac]
  rw [List.map_congr_left hold]
  simp [hnew]

/-! ## States with the same chain -/

theorem same_chain_refl (s : State) : same_chain s s := ⟨rfl, rfl⟩

theorem same_chain_header {s1 s2 : State} (hs : same_chain s1 s2) (a : Nat) :
    (s2.heap[a]?).map header = (s1.heap[a]?).map header := by
  have := congrArg (fun l : List (Option Nat × Nat × Nat) => l[a]?) hs.2
  simp only [List.getElem?_map] at this
  exact this.symm

theorem same_chain_length {s1 s2 : State} (hs : same_chain s1 s2) :
    s2.heap.length = s1.heap.length := by
  have := congrArg List.length hs.2
  simpa using this.symm

theorem same_chain_links {s1 s2 : State} (hs : same_chain s1 s2) (a : Nat) :
    (s2.heap[a]?).map arena_chunk_t.next = (s1.heap[a]?).map arena_chunk_t.next := by
  have := congrArg (Option.map Prod.fst) (same_chain_header hs a)
  simpa [Option.map_map, Function.comp_def, header] using this

theorem same_chain_used {s1 s2 : State} (hs : same_chain s1 s2) (a : Nat) :
    used_of s2.heap a = used_of s1.heap a := by
  have := same_chain_header hs a
  unfold used_of
  cases h1 : s1.heap[a]? with
  | none =>
    cases h2 : s2.heap[a]? with
    | none => rfl
    | some c2 => simp [h1, h2] at this
  | some c1 =>
    cases h2 : s2.heap[a]? with
    | none => simp [h1, h2] at this
    | some c2 =>
      simp only [h1, h2, Option.map_some', Option.some.injEq, header, Prod.mk.injEq] at this
      exact this.2.2

theorem same_chain_chain {s1 s2 : State} (hs : same_chain s1 s2) : chain s2 = chain s1 := by
  unfold chain
  rw [same_chain_length hs, ← hs.1]
  exact chain_from_congr (same_chain_links hs) _ _

theorem same_chain_wf {s1 s2 : State} {l : List Nat} (hs : same_chain s1 s2)
    (hwf : WellFormed s1 l) : WellFormed s2 l := by
  refine ⟨by rw [same_chain_chain hs]; exact hwf.1, ?_⟩
  rw [← hs.1]
  exact hwf.2

theorem same_chain_used_sum {s1 s2 : State} (hs : same_chain s1 s2) (l : List Nat) :
    used_sum s2.heap l = used_sum s1.heap l :=
  used_sum_congr (fun a _ => same_chain_used hs a)

/-- Storing bytes into a chunk leaves the chain as it is. -/
theorem same_chain_store {s : State} {a : Nat} {c : arena_chunk_t} (d : Nat → Nat)
    (hc : s.heap[a]? = some c) :
    same_chain s { s with heap := s.heap.set a { c with data := d } } := by
  refine ⟨rfl, ?_⟩
  apply List.ext_getElem?
  intro i
  simp only [List.getElem?_map]
  by_cases hi : a = i
  · subst hi
    rw [List.getElem?_set_self (lt_of_get hc), hc]
    rfl
  · rw [List.getElem?_set_ne hi]

/-! ## Accounting for one request -/

/-- One request on a well-formed arena, under either policy: it returns; it
returns a region exactly when `size > 0`; the arena stays well-formed, with
the same chunks or with one chunk more; and the sum of `used` over the chain
grows by `size`, modulo `SIZE_MOD` in general and exactly when the sum stays
below `SIZE_MOD`. -/
theorem arena_alloc_sum (reduce : Bool) (s : State) (l : List Nat) (size : Nat)
    (hwf : WellFormed s l) :
    ∃ p s1 l1, arena_alloc reduce s size = some (p, s1) ∧ WellFormed s1 l1 ∧
      (p.isSome = true ↔ 0 < size) ∧
      (l1 = l ∨ l1 = l ++ [s.heap.length]) ∧
      used_sum s1.heap l1 % SIZE_MOD = (used_sum s.heap l + size) % SIZE_MOD ∧
      (used_sum s.heap l + size < SIZE_MOD →
        used_sum s1.heap l1 = used_sum s.heap l + size) := by
  by_cases hz : size = 0
  · subst hz
    exact ⟨none, s, l, arena_alloc_size_zero reduce s, hwf, by simp, Or.inl rfl, by simp,
      fun _ => by simp⟩
  · have hpos : 0 < size := by omega
    obtain ⟨c, hc, hcase⟩ := arena_alloc_step reduce s l size hwf hpos
    have hmem := target_mem reduce size hwf
    have hle : c.used ≤ used_sum s.heap l := by
      have := used_of_le_sum s.heap hmem
      rwa [used_of_eq hc] at this
    rcases hcase with ⟨_, halloc⟩ | ⟨_, hend, halloc⟩
    · have hsum := used_sum_bumped size hwf hmem hc
      refine ⟨_, _, l, halloc, bumped_wf hwf hc, by simp [hpos], Or.inl rfl, ?_, ?_⟩
      · have h1 : used_sum (bumped s (target reduce s l size) c size).heap l =
            (used_sum s.heap l - c.used) + (c.used + size) % SIZE_MOD := by omega
        rw [h1, Nat.add_mod_mod]
        congr 1
        omega
      · intro hlt
        have hmod : (c.used + size) % SIZE_MOD = c.used + size :=
          Nat.mod_eq_of_lt (by omega)
        omega
    · have hsum := used_sum_grown size hwf hc
      rw [hend] at hc hsum halloc
      refine ⟨_, _, l ++ [s.heap.length], halloc, grown_wf hwf hc, by simp [hpos],
        Or.inr rfl, ?_, ?_⟩
      · rw [hsum, Nat.add_mod_mod]
      · intro hlt
        rw [hsum, Nat.mod_eq_of_lt (by omega)]

/-- Every call is an `arena_alloc` of some size followed by stores into chunk
data: the pointer is the one `arena_alloc` returns and the chain is the one
it leaves.  The size is the requested one, reduced modulo `SIZE_MOD` for the
duplicates. -/
theorem call_as_alloc (reduce : Bool) (s : State) (c : Call) (p : Ptr) (s2 : State)
    (hrun : c.run reduce s = some (p, s2)) :
    ∃ sz s1, arena_alloc reduce s sz = some (p, s1) ∧ same_chain s1 s2 ∧
      sz % SIZE_MOD = c.requested % SIZE_MOD ∧ (c.requested < SIZE_MOD → sz = c.requested) := by
  have hdup : ∀ (str : List Nat) (length : Nat),
      arena_strndup reduce s str length = some (p, s2) →
      ∃ s1, arena_alloc reduce s ((1 * length + 1) % SIZE_MOD) = some (p, s1) ∧
        same_chain s1 s2 := by
    intro str length hr
    unfold arena_strndup at hr
    generalize (1 * length + 1) % SIZE_MOD = sz at hr ⊢
    cases ha : arena_alloc reduce s sz with
    | none => rw [ha] at hr; simp at hr
    | some r =>
      obtain ⟨q, s1⟩ := r
      cases q with
      | none => rw [ha] at hr; simp at hr
      | some new_str =>
        rw [ha] at hr
        simp only at hr
        by_cases hlen : str.length < length
        · simp [hlen] at hr
        · simp only [hlen, if_false] at hr
          cases hc : s1.heap[new_str.chunk]? with
          | none => simp [hc] at hr
          | some c1 =>
            simp only [hc] at hr
            by_cases hb : c1.size < new_str.offset + length + 1
            · simp [hb] at hr
            · simp only [hb, if_false, Option.some.injEq, Prod.mk.injEq] at hr
              obtain ⟨hp, hs⟩ := hr
              subst hp hs
              exact ⟨s1, rfl, same_chain_store _ hc⟩
  cases c with
  | alloc size => exact ⟨size, s2, hrun, same_chain_refl s2, rfl, fun _ => rfl⟩
  | realloc ptr size =>
    refine ⟨size, ?_⟩
    simp only [Call.run, arena_realloc] at hrun
    by_cases hz : size = 0
    · subst hz
      simp only [if_true, Option.some.injEq, Prod.mk.injEq] at hrun
      obtain ⟨hp, hs⟩ := hrun
      subst hp hs
      exact ⟨s, arena_alloc_size_zero reduce s, same_chain_refl s, rfl, fun _ => rfl⟩
    · simp only [hz, if_false] at hrun
      cases ha : arena_alloc reduce s size with
      | none => simp [ha] at hrun
      | some r =>
        obtain ⟨q, s1⟩ := r
        simp only [ha] at hrun
        cases ptr with
        | none =>
          simp only [Option.some.injEq, Prod.mk.injEq] at hrun
          obtain ⟨hp, hs⟩ := hrun
          subst hp hs
          exact ⟨s1, rfl, same_chain_refl s1, rfl, fun _ => rfl⟩
        | some src =>
          cases q with
          | none => simp at hrun
          | some dst =>
            simp only [memcpy] at hrun
            cases hcs : s1.heap[src.chunk]? with
            | none => simp [hcs] at hrun
            | some cs =>
              cases hcd : s1.heap[dst.chunk]? with
              | none => simp [hcs, hcd] at hrun
              | some cd =>
                simp only [hcs, hcd] at hrun
                by_cases h1 : cs.size < src.offset + size
                · simp [h1] at hrun
                · by_cases h2 : cd.size < dst.offset + size
                  · simp [h1, h2] at hrun
                  · by_cases h3 : ranges_apart dst src size = true
                    · simp only [h1, h2, h3, if_false, if_true, Option.some.injEq,
                        Prod.mk.injEq] at hrun
                      obtain ⟨hp, hs⟩ := hrun
                      subst hp hs
                      exact ⟨s1, rfl, same_chain_store _ hcd, rfl, fun _ => rfl⟩
                    · simp [h1, h2, h3] at hrun
  | strdup str =>
    simp only [Call.run, arena_strdup] at hrun
    cases hl : strlen str with
    | none => simp [hl] at hrun
    | some length =>
      simp only [hl] at hrun
      obtain ⟨s1, ha, hs⟩ := hdup str length hrun
      refine ⟨_, s1, ha, hs, ?_, ?_⟩
      · simp [Call.requested, hl]
      · intro hlt
        simp only [Call.requested, hl, Option.getD_some] at hlt ⊢
        rw [Nat.one_mul]
        exact Nat.mod_eq_of_lt hlt
  | strndup str length =>
    obtain ⟨s1, ha, hs⟩ := hdup str length hrun
    refine ⟨_, s1, ha, hs, ?_, ?_⟩
    · simp [Call.requested]
    · intro hlt
      simp only [Call.requested] at hlt ⊢
      rw [Nat.one_mul]
      exact Nat.mod_eq_of_lt hlt

/-! ## Accounting for a sequence of calls -/

theorem run_calls_cons_inv {reduce : Bool} {s s2 : State} {c : Call} {cs : List Call}
    {qs : List Ptr} (hrun : run_calls reduce s (c :: cs) = some (qs, s2)) :
    ∃ p s1 ps, c.run reduce s = some (p, s1) ∧ run_calls reduce s1 cs = some (ps, s2) ∧
      qs = p :: ps := by
  simp only [run_calls] at hrun
  cases hc : c.run reduce s with
  | none => rw [hc] at hrun; simp at hrun
  | some r =>
    obtain ⟨p, s1⟩ := r
    rw [hc] at hrun
    simp only at hrun
    cases hr : run_calls reduce s1 cs with
    | none => rw [hr] at hrun; simp at hrun
    | some r2 =>
      obtain ⟨ps, s3⟩ := r2
      rw [hr] at hrun
      simp only [Option.some.injEq, Prod.mk.injEq] at hrun
      obtain ⟨h1, h2⟩ := hrun
      subst h1 h2
      exact ⟨p, s1, ps, rfl, hr, rfl⟩

/-- A sequence of calls on a well-formed arena leaves it well-formed, and the
sum of `used` over the chain grows by the total the calls requested. -/
theorem run_calls_used_sum (reduce : Bool) :
    ∀ (calls : List Call) (s : State) (l : List Nat) (ps : List Ptr) (s2 : State),
    WellFormed s l → run_calls reduce s calls = some (ps, s2) →
    ∃ l2, WellFormed s2 l2 ∧
      used_sum s2.heap l2 % SIZE_MOD =
        (used_sum s.heap l + requested_total calls ps) % SIZE_MOD ∧
      (used_sum s.heap l + requested_total calls ps < SIZE_MOD →
        used_sum s2.heap l2 = used_sum s.heap l + requested_total calls ps) := by
  intro calls
  induction calls with
  | nil =>
    intro s l ps s2 hwf hrun
    simp only [run_calls, Option.some.injEq, Prod.mk.injEq] at hrun
    obtain ⟨hp, hs⟩ := hrun
    subst hp hs
    exact ⟨l, hwf, by simp [requested_total], fun _ => by simp [requested_total]⟩
  | cons c cs ih =>
    intro s l qs s2 hwf hrun
    obtain ⟨p, s1, ps, hc, hrest, rfl⟩ := run_calls_cons_inv hrun
    obtain ⟨sz, sa, ha, hsame, hszmod, hszeq⟩ := call_as_alloc reduce s c p s1 hc
    obtain ⟨p1, sa1, l1, ha1, hwf1, hsome, _, hmod1, hex1⟩ :=
      arena_alloc_sum reduce s l sz hwf
    rw [ha] at ha1
    simp only [Option.some.injEq, Prod.mk.injEq] at ha1
    obtain ⟨hp, hs⟩ := ha1
    subst hp hs
    have hwf2 : WellFormed s1 l1 := same_chain_wf hsame hwf1
    have hu : used_sum s1.heap l1 = used_sum sa.heap l1 := same_chain_used_sum hsame l1
    obtain ⟨l2, hwfl2, hmod2, hex2⟩ := ih s1 l1 ps s2 hwf2 hrest
    refine ⟨l2, hwfl2, ?_, ?_⟩
    · rw [hmod2, hu]
      simp only [requested_total]
      by_cases hp : p.isSome = true
      · simp only [hp, if_true]
        rw [Nat.add_mod, hmod1, ← Nat.add_assoc,
          Nat.add_mod (used_sum s.heap l + Call.requested c),
          Nat.add_mod (used_sum s.heap l) (Call.requested c),
          Nat.add_mod (used_sum s.heap l) sz, hszmod]
      · have hsz0 : sz = 0 := by
          have := hsome.not.mp hp
          omega
        subst hsz0
        simp only [hp, Nat.add_zero] at hmod1 ⊢
        rw [Nat.add_mod, hmod1, ← Nat.add_mod]
        simp
    · intro hlt
      simp only [requested_total] at hlt ⊢
      by_cases hp : p.isSome = true
      · simp only [hp, if_true] at hlt ⊢
        have hszr : sz = c.requested := hszeq (by omega)
        have h1 := hex1 (by omega)
        rw [hex2 (by rw [hu, h1]; omega), hu, h1]
        omega
      · have hsz0 : sz = 0 := by
          have := hsome.not.mp hp
          omega
        subst hsz0
        simp only [hp] at hlt ⊢
        have h1 := hex1 (by omega)
        rw [hex2 (by rw [hu, h1]; omega), hu, h1]
        simp

theorem used_sum_create_arena (h : Heap) (K : Nat) :
    used_sum (create_arena h K).heap [h.length] = 0 := by
  have hc : (create_arena h K).heap[h.length]? =
      some { next := none, size := K, used := 0, data := fun _ => 0 } := by
    simp only [create_arena, new_arena_chunk]
    exact List.getElem?_concat_length h _
  simp [used_sum, used_of_eq hc]

/-- For every sequence of `arena_alloc`, `arena_realloc`, `arena_strdup` and
`arena_strndup` calls that runs on a fresh arena, under either placement
policy, the sum of `used` over the chunks of the chain and the sum of the
sizes requested by the calls that returned a region (length + 1 for a
duplicate) are equal modulo `2 ^ 64`, and they are equal as plain numbers
when the requested total is below `2 ^ 64`. -/
theorem used_sum_eq_requested (reduce : Bool) (h : Heap) (K : Nat) (calls : List Call)
    (ps : List Ptr) (s1 : State)
    (hrun : run_calls reduce (create_arena h K) calls = some (ps, s1)) :
    ∃ l, chain s1 = some l ∧
      used_sum s1.heap l % SIZE_MOD = requested_total calls ps % SIZE_MOD ∧
      (requested_total calls ps < SIZE_MOD → used_sum s1.heap l = requested_total calls ps) := by
  obtain ⟨l, hwf, hmod, hex⟩ :=
    run_calls_used_sum reduce calls _ _ ps s1 (create_arena_wf h K) hrun
  rw [used_sum_create_arena] at hmod hex
  simp only [Nat.zero_add] at hmod hex
  exact ⟨l, hwf.1, hmod, hex⟩

/-- Capacity 1024, requests of 480 and 960 bytes and the duplicate of a
two-letter string: the chain has two chunks, with 480 and 963 bytes used,
and 1443 bytes were requested. -/
theorem used_sum_eq_requested_witness :
    ∃ l, chain
        { heap := [{ next := some 1, size := 1024, used := 480, data := fun _ => 0 },
            { next := none, size := 1024, used := 963,
              data := store_string (fun _ => 0) 960 [72, 105, 0] 2 }],
          arena := { begin := 0, end_ := 1 } } = some l ∧
      used_sum [{ next := some 1, size := 1024, used := 480, data := fun _ => 0 },
            { next := none, size := 1024, used := 963,
              data := store_string (fun _ => 0) 960 [72, 105, 0] 2 }] l = 1443 :=
  match used_sum_eq_requested false [] 1024
    [Call.alloc 480, Call.alloc 960, Call.strdup [72, 105, 0]]
    [some { chunk := 0, offset := 0 }, some { chunk := 1, offset := 0 },
      some { chunk := 1, offset := 960 }]
    { heap := [{ next := some 1, size := 1024, used := 480, data := fun _ => 0 },
        { next := none, size := 1024, used := 963,
          data := store_string (fun _ => 0) 960 [72, 105, 0] 2 }],
      arena := { begin := 0, end_ := 1 } }
    rfl with
  | ⟨l, hl, _, hex⟩ => ⟨l, hl, (hex (by decide)).trans (by decide)⟩

/-! ## Counting chunks -/

/-- The counting loop counts the chunks of the walk, and has no result when
the counter would pass `INT_MAX`. -/
theorem count_loop_eq (h : Heap) : ∀ (f : Nat) (p : Option Nat) (n : Int) (l : List Nat),
    chain_from h f p = some l → n ≤ INT_MAX →
    count_loop h f p n =
      if n + (l.length : Int) ≤ INT_MAX then some (n + (l.length : Int)) else none := by
  intro f
  induction f with
  | zero =>
    intro p n l hch hn
    cases p with
    | none =>
      simp only [chain_from, Option.some.injEq] at hch
      subst hch
      simp [count_loop, hn]
    | some a => simp [chain_from] at hch
  | succ f ih =>
    intro p n l hch hn
    cases p with
    | none =>
      simp only [chain_from, Option.some.injEq] at hch
      subst hch
      simp [count_loop, hn]
    | some a =>
      obtain ⟨f1, c, l1, hf, hc, hrest, hl⟩ := chain_from_some_inv hch
      have hf1 : f1 = f := by omega
      subst hf1 hl
      simp only [count_loop, hc, List.length_cons]
      by_cases hlt : n < INT_MAX
      · rw [if_pos hlt, ih c.next (n + 1) l1 hrest (by omega)]
        push_cast
        have harith : n + 1 + (l1.length : Int) = n + ((l1.length : Int) + 1) := by ring
        rw [harith]
      · rw [if_neg hlt, if_neg]
        push_cast
        omega

/-- On a well-formed arena of at most `INT_MAX` chunks
`arena_get_chunks_count` returns the number of chunks of the chain. -/
theorem arena_get_chunks_count_wf {s : State} {l : List Nat} (hwf : WellFormed s l)
    (hlen : (l.length : Int) ≤ INT_MAX) :
    arena_get_chunks_count s = some (l.length : Int) := by
  unfold arena_get_chunks_count
  rw [count_loop_eq s.heap _ _ 0 l hwf.1 (by decide)]
  simp [hlen]

/-- On a well-formed arena of more than `INT_MAX` chunks the counter of
`arena_get_chunks_count` overflows. -/
theorem arena_get_chunks_count_overflow {s : State} {l : List Nat} (hwf : WellFormed s l)
    (hlen : INT_MAX < (l.length : Int)) :
    arena_get_chunks_count s = none := by
  unfold arena_get_chunks_count
  rw [count_loop_eq s.heap _ _ 0 l hwf.1 (by decide)]
  simp only [zero_add]
  rw [if_neg (by omega)]

theorem end_chunk_bumped {s : State} {c : arena_chunk_t} (size : Nat)
    (hc : s.heap[s.arena.end_]? = some c) :
    (bumped s s.arena.end_ c size).heap[(bumped s s.arena.end_ c size).arena.end_]? =
      some { c with used := (c.used + size) % SIZE_MOD } := by
  simp only [bumped]
  exact List.getElem?_set_self (lt_of_get hc)

theorem end_chunk_grown (s : State) (cur : Nat) (c : arena_chunk_t) (size : Nat) :
    (grown s cur c size).heap[(grown s cur c size).arena.end_]? =
      some { next := none, size := c.size, used := size % SIZE_MOD, data := fun _ => 0 } := by
  simp only [grown]
  exact grow_get_new _ _ _ _

/-- The default policy on a well-formed arena whose end chunk has capacity
`K`: every sequence of positive requests runs, the end chunk keeps capacity
`K`, and the chain gains one chunk per overflow event. -/
theorem run_allocs_default_count (K : Nat) :
    ∀ (sizes : List Nat) (s : State) (l : List Nat) (c : arena_chunk_t),
    WellFormed s l → s.heap[s.arena.end_]? = some c → c.size = K →
    (∀ a ∈ sizes, 0 < a ∧ a < SIZE_MOD) →
    ∃ ps s1 l1 c1, run_allocs false s sizes = some (ps, s1) ∧ WellFormed s1 l1 ∧
      s1.heap[s1.arena.end_]? = some c1 ∧ c1.size = K ∧
      l1.length = l.length + overflow_events K c.used sizes := by
  intro sizes
  induction sizes with
  | nil =>
    intro s l c hwf hc hsz _
    exact ⟨[], s, l, c, rfl, hwf, hc, hsz, by simp [overflow_events]⟩
  | cons a as ih =>
    intro s l c hwf hc hsz hsizes
    have ha := hsizes a (List.mem_cons_self a as)
    have has : ∀ b ∈ as, 0 < b ∧ b < SIZE_MOD :=
      fun b hb => hsizes b (List.mem_cons_of_mem a hb)
    rw [run_allocs_cons, arena_alloc_default s a ha.1]
    by_cases hover : c.size < (c.used + a) % SIZE_MOD
    · rw [place_grows s _ a c hc hover]
      obtain ⟨ps, s1, l1, c1, hrun, hwf1, hc1, hsz1, hlen⟩ :=
        ih (grown s s.arena.end_ c a) _ _ (grown_wf hwf hc) (end_chunk_grown s _ c a) hsz has
      refine ⟨some { chunk := s.heap.length, offset := 0 } :: ps, s1, l1, c1, ?_, hwf1, hc1,
        hsz1, ?_⟩
      · simp only [hrun]
      · rw [hlen]
        simp only [overflow_events, ← hsz, hover, if_true, List.length_append,
          List.length_singleton]
        omega
    · rw [place_fits s _ a c hc (by omega)]
      obtain ⟨ps, s1, l1, c1, hrun, hwf1, hc1, hsz1, hlen⟩ :=
        ih (bumped s s.arena.end_ c a) _ _ (bumped_wf hwf hc) (end_chunk_bumped a hc) hsz has
      refine ⟨some { chunk := s.arena.end_, offset := c.used } :: ps, s1, l1, c1, ?_, hwf1,
        hc1, hsz1, ?_⟩
      · simp only [hrun]
      · rw [hlen]
        simp only [overflow_events, ← hsz, hover, if_false]

theorem end_chunk_create_arena (h : Heap) (K : Nat) :
    (create_arena h K).heap[(create_arena h K).arena.end_]? =
      some { next := none, size := K, used := 0, data := fun _ => 0 } := by
  simp only [create_arena, new_arena_chunk]
  exact List.getElem?_concat_length h _

/-- Below half the range of `size_t` no addition wraps, and the count of
overflow events is the one of unbounded arithmetic. -/
theorem overflow_events_eq_exact (K : Nat) (hK : 2 * K < SIZE_MOD) :
    ∀ (sizes : List Nat) (used : Nat), 2 * used < SIZE_MOD →
    (∀ a ∈ sizes, 2 * a < SIZE_MOD) →
    overflow_events K used sizes = overflow_events_exact K used sizes := by
  intro sizes
  induction sizes with
  | nil => intro _ _ _; rfl
  | cons a as ih =>
    intro used hused hsizes
    have ha := hsizes a (List.mem_cons_self a as)
    have has : ∀ b ∈ as, 2 * b < SIZE_MOD :=
      fun b hb => hsizes b (List.mem_cons_of_mem a hb)
    have hmod : (used + a) % SIZE_MOD = used + a := Nat.mod_eq_of_lt (by omega)
    have hmoda : a % SIZE_MOD = a := Nat.mod_eq_of_lt (by omega)
    simp only [overflow_events, overflow_events_exact, hmod, hmoda]
    by_cases hover : K < used + a
    · simp only [hover, if_true]
      rw [ih a ha has]
    · simp only [hover, if_false]
      rw [ih (used + a) (by omega) has]

theorem overflow_events_le (K : Nat) :
    ∀ (sizes : List Nat) (used : Nat), overflow_events K used sizes ≤ sizes.length := by
  intro sizes
  induction sizes with
  | nil => intro _; simp [overflow_events]
  | cons a as ih =>
    intro used
    simp only [overflow_events, List.length_cons]
    by_cases hover : K < (used + a) % SIZE_MOD
    · rw [if_pos hover]
      have := ih (a % SIZE_MOD)
      omega
    · rw [if_neg hover]
      have := ih ((used + a) % SIZE_MOD)
      omega

/-- Default policy, capacity `K` and positive requests `a1..an` all below
`2 ^ 63`, fewer than `INT_MAX` of them, on a fresh arena: no sum `used + ai`
wraps, the counter stays an `int`, every request is served, and
`arena_get_chunks_count` after the sequence is 1 plus the number of requests
that push `used` past `K`, counted in unbounded arithmetic. -/
theorem chunks_count_default (h : Heap) (K : Nat) (sizes : List Nat)
    (hK : 2 * K < SIZE_MOD) (hsizes : ∀ a ∈ sizes, 0 < a ∧ 2 * a < SIZE_MOD)
    (hn : (sizes.length : Int) < INT_MAX) :
    ∃ ps s1, run_allocs false (create_arena h K) sizes = some (ps, s1) ∧
      arena_get_chunks_count s1 = some (1 + (overflow_events_exact K 0 sizes : Int)) := by
  obtain ⟨ps, s1, l1, c1, hrun, hwf1, _, _, hlen⟩ :=
    run_allocs_default_count K sizes (create_arena h K) _ _ (create_arena_wf h K)
      (end_chunk_create_arena h K) rfl
      (fun a ha => ⟨(hsizes a ha).1, by have := (hsizes a ha).2; omega⟩)
  have hle := overflow_events_le K sizes 0
  have hex := overflow_events_eq_exact K hK sizes 0 (by simp [SIZE_MOD])
    (fun a ha => (hsizes a ha).2)
  simp only [List.length_singleton] at hlen
  have hlen2 : l1.length = 1 + overflow_events K 0 sizes := hlen
  refine ⟨ps, s1, hrun, ?_⟩
  rw [arena_get_chunks_count_wf hwf1 (by rw [hlen2]; push_cast; omega), hlen2, hex]
  simp

/-- Capacity 1024, requests of 480 then 960 bytes: the second request is the
one that pushes `used` past the capacity, and the count is 2. -/
theorem chunks_count_default_witness :
    (∃ ps s1, run_allocs false (create_arena [] 1024) [480, 960] = some (ps, s1) ∧
      arena_get_chunks_count s1 = some 2) ∧
    overflow_events_exact 1024 0 [480, 960] = 1 :=
  match chunks_count_default [] 1024 [480, 960] (by decide) (by decide) (by decide) with
  | ⟨ps, s1, hrun, hcount⟩ => ⟨⟨ps, s1, hrun, hcount.trans (by decide)⟩, by decide⟩

/-! ## Requests larger than a chunk -/

/-- C6. The code at `create_arena(10)` followed by `arena_alloc(arena, 20)`
(default policy): the request does not fit the first chunk, a second chunk
of capacity 10 is appended, and its `used` becomes 20, above its capacity. -/
theorem oversized_request_exceeds_capacity :
    ∃ ps s1 c, run_allocs false (create_arena [] 10) [20] = some (ps, s1) ∧
      ps = [some { chunk := 1, offset := 0 }] ∧
      s1.heap[s1.arena.end_]? = some c ∧ c.size = 10 ∧ c.used = 20 ∧ ¬ c.used ≤ c.size :=
  ⟨_, _, _, rfl, rfl, rfl, rfl, rfl, by decide⟩

/-! ## The hole search -/

/-- With the hole search, a request of `size > 0` bytes on a well-formed
arena with chunks `l` goes to the first chunk in chain order, among those
before the final one, that passes the test `used + size <= size` of the code
(the sum taken as `size_t`), at offset `used` of that chunk, which is bumped.
When there is no such chunk the call does exactly what the default policy
does on the final chunk: a bump if the request fits, and otherwise one new
chunk of the same capacity behind it, with the region at its offset 0. -/
theorem arena_alloc_reduce (s : State) (l : List Nat) (size : Nat)
    (hwf : WellFormed s l) (hpos : 0 < size) :
    (∀ a, l.dropLast.find? (fits s.heap size) = some a →
      ∃ c, s.heap[a]? = some c ∧ (c.used + size) % SIZE_MOD ≤ c.size ∧
        arena_alloc true s size =
          some (some { chunk := a, offset := c.used },
                { heap := s.heap.set a { c with used := (c.used + size) % SIZE_MOD },
                  arena := s.arena })) ∧
    (l.dropLast.find? (fits s.heap size) = none →
      arena_alloc true s size = arena_alloc false s size ∧
      ∃ c, s.heap[s.arena.end_]? = some c ∧
        arena_alloc false s size =
          if (c.used + size) % SIZE_MOD ≤ c.size then
            some (some { chunk := s.arena.end_, offset := c.used },
                  { heap := s.heap.set s.arena.end_
                      { c with used := (c.used + size) % SIZE_MOD },
                    arena := s.arena })
          else
            some (some { chunk := s.heap.length, offset := 0 },
                  { heap := s.heap.set s.arena.end_ { c with next := some s.heap.length } ++
                      [{ next := none, size := c.size, used := size % SIZE_MOD,
                         data := fun _ => 0 }],
                    arena := { s.arena with end_ := s.heap.length } })) := by
  have hsel := select_chunk_wf true size hwf
  constructor
  · intro a hfind
    have ht : target true s l size = a := by simp [target, hfind]
    obtain ⟨hmem, hfits⟩ := find_mem_of_dropLast hfind
    have hlt := chain_from_valid hwf.1 a hmem
    have hc : s.heap[a]? = some s.heap[a] := List.getElem?_eq_getElem hlt
    have hfit : (s.heap[a].used + size) % SIZE_MOD ≤ s.heap[a].size := by
      simpa [fits, hc] using hfits
    refine ⟨s.heap[a], hc, hfit, ?_⟩
    unfold arena_alloc
    rw [if_neg (by omega), hsel, ht]
    simp only
    rw [place_fits s a size _ hc hfit]
    rfl
  · intro hfind
    have ht : target true s l size = s.arena.end_ := by simp [target, hfind]
    have hlt := chain_from_valid hwf.1 _ (mem_of_getLast hwf.2)
    have hc : s.heap[s.arena.end_]? = some s.heap[s.arena.end_] :=
      List.getElem?_eq_getElem hlt
    refine ⟨?_, s.heap[s.arena.end_], hc, ?_⟩
    · rw [arena_alloc_default s size hpos]
      unfold arena_alloc
      rw [if_neg (by omega), hsel, ht]
    · rw [arena_alloc_default s size hpos]
      by_cases hfit : (s.heap[s.arena.end_].used + size) % SIZE_MOD ≤ s.heap[s.arena.end_].size
      · rw [if_pos hfit, place_fits s _ size _ hc hfit]
        rfl
      · rw [if_neg hfit, place_grows s _ size _ hc (by omega)]
        rfl

/-- Capacity 4096 and the requests 4096, 2048, 4096 leave three chunks, the second with 2048 bytes used; the fourth request, of 2048
bytes, is placed in the second chunk right after the second region, and the
chain still has 3 chunks. -/
theorem arena_alloc_reduce_witness :
    run_allocs true (create_arena [] 4096) [4096, 2048, 4096] =
      some ([some { chunk := 0, offset := 0 }, some { chunk := 1, offset := 0 },
             some { chunk := 2, offset := 0 }],
        { heap := [{ next := some 1, size := 4096, used := 4096, data := fun _ => 0 },
            { next := some 2, size := 4096, used := 2048, data := fun _ => 0 },
            { next := none, size := 4096, used := 4096, data := fun _ => 0 }],
          arena := { begin := 0, end_ := 2 } }) ∧
    arena_alloc true
        { heap := [{ next := some 1, size := 4096, used := 4096, data := fun _ => 0 },
            { next := some 2, size := 4096, used := 2048, data := fun _ => 0 },
            { next := none, size := 4096, used := 4096, data := fun _ => 0 }],
          arena := { begin := 0, end_ := 2 } } 2048 =
      some (some { chunk := 1, offset := 0 + 2048 },
        { heap := [{ next := some 1, size := 4096, used := 4096, data := fun _ => 0 },
            { next := some 2, size := 4096, used := 4096, data := fun _ => 0 },
            { next := none, size := 4096, used := 4096, data := fun _ => 0 }],
          arena := { begin := 0, end_ := 2 } }) ∧
    arena_get_chunks_count
        { heap := [{ next := some 1, size := 4096, used := 4096, data := fun _ => 0 },
            { next := some 2, size := 4096, used := 4096, data := fun _ => 0 },
            { next := none, size := 4096, used := 4096, data := fun _ => 0 }],
          arena := { begin := 0, end_ := 2 } } = some 3 :=
  ⟨rfl,
   match (arena_alloc_reduce
      { heap := [{ next := some 1, size := 4096, used := 4096, data := fun _ => 0 },
          { next := some 2, size := 4096, used := 2048, data := fun _ => 0 },
          { next := none, size := 4096, used := 4096, data := fun _ => 0 }],
        arena := { begin := 0, end_ := 2 } } [0, 1, 2] 2048 ⟨rfl, rfl⟩ (by decide)).1 1 rfl with
   | ⟨_, hc, _, halloc⟩ => by
     cases hc
     exact halloc,
   rfl⟩

/-- C8, as stated, fails: with the hole search and capacity 4096, the
requests 2048, 1024, 2048, 1024 leave 2 chunks, not 3. -/
theorem hole_search_small_requests_not_three_chunks :
    ¬ ∃ ps s1, run_allocs true (create_arena [] 4096) [2048, 1024, 2048, 1024] =
        some (ps, s1) ∧ arena_get_chunks_count s1 = some 3 := by
  intro ⟨ps, s1, hrun, hcount⟩
  have hrun2 : run_allocs true (create_arena [] 4096) [2048, 1024, 2048, 1024] =
      some ([some { chunk := 0, offset := 0 }, some { chunk := 0, offset := 2048 },
             some { chunk := 1, offset := 0 }, some { chunk := 0, offset := 3072 }],
        { heap := [{ next := some 1, size := 4096, used := 4096, data := fun _ => 0 },
            { next := none, size := 4096, used := 2048, data := fun _ => 0 }],
          arena := { begin := 0, end_ := 1 } }) := rfl
  rw [hrun2] at hrun
  simp only [Option.some.injEq, Prod.mk.injEq] at hrun
  obtain ⟨_, hs⟩ := hrun
  subst hs
  revert hcount
  decide

/-- C8, amended: with the hole search and capacity 4096, the requests 2048,
1024, 2048, 1024 are placed at offsets 0 and 2048 of chunk 0, offset 0 of
chunk 1 and offset 3072 of chunk 0; the chain has exactly 2 chunks, and the
second 1024-byte region starts 1024 bytes after the first, in the same
chunk. -/
theorem hole_search_small_requests :
    ∃ s1, run_allocs true (create_arena [] 4096) [2048, 1024, 2048, 1024] =
        some ([some { chunk := 0, offset := 0 }, some { chunk := 0, offset := 2048 },
               some { chunk := 1, offset := 0 }, some { chunk := 0, offset := 2048 + 1024 }],
          s1) ∧
      arena_get_chunks_count s1 = some 2 :=
  ⟨_, rfl, rfl⟩

/-! ## `arena_realloc` -/

/-- C9. `arena_realloc(arena, p, 0)` returns `NULL` for every pointer `p`,
null or not, and leaves the whole state as it was: the chain, every `used`
counter and every byte of every chunk, so what is read through `p` after
the call is what was read before. -/
theorem arena_realloc_zero (reduce : Bool) (s : State) (p : Ptr) :
    arena_realloc reduce s p 0 = some (none, s) := by
  simp [arena_realloc]

/-- What one positive request does to the chunks that were there, under
either policy: it returns a region `q` inside a chunk of the new heap; every
old chunk keeps its capacity and its bytes; its `used` is unchanged unless the
region was placed in it, at offset `used`; a region in a new chunk starts at
offset 0. -/
theorem arena_alloc_effect (reduce : Bool) (s : State) (l : List Nat) (size : Nat)
    (hwf : WellFormed s l) (hpos : 0 < size) :
    ∃ q s1, arena_alloc reduce s size = some (some q, s1) ∧
      s.heap.length ≤ s1.heap.length ∧ q.chunk < s1.heap.length ∧
      (s.heap.length ≤ q.chunk → q.offset = 0) ∧
      ∀ (a : Nat) (c : arena_chunk_t), s.heap[a]? = some c →
        ∃ c1, s1.heap[a]? = some c1 ∧ c1.size = c.size ∧ c1.data = c.data ∧
          (c1.used = c.used ∨
            (q = { chunk := a, offset := c.used } ∧
              c1.used = (c.used + size) % SIZE_MOD)) := by
  obtain ⟨c, hc, hcase⟩ := arena_alloc_step reduce s l size hwf hpos
  have hlt : target reduce s l size < s.heap.length := lt_of_get hc
  rcases hcase with ⟨_, halloc⟩ | ⟨_, _, halloc⟩
  · refine ⟨_, _, halloc, by simp [bumped], by simpa [bumped] using hlt,
      fun hge => absurd hlt (by simp only at hge; omega), ?_⟩
    intro a ca hca
    by_cases ha : a = target reduce s l size
    · subst ha
      rw [hc] at hca
      cases hca
      exact ⟨_, List.getElem?_set_self hlt, rfl, rfl, Or.inr ⟨rfl, rfl⟩⟩
    · refine ⟨ca, ?_, rfl, rfl, Or.inl rfl⟩
      simp only [bumped]
      rw [List.getElem?_set_ne (Ne.symm ha)]
      exact hca
  · refine ⟨_, _, halloc, by simp [grown], by simp [grown], fun _ => rfl, ?_⟩
    intro a ca hca
    by_cases ha : a = target reduce s l size
    · subst ha
      rw [hc] at hca
      cases hca
      exact ⟨_, grow_get_cur _ _ _ _ hlt, rfl, rfl, Or.inl rfl⟩
    · refine ⟨ca, ?_, rfl, rfl, Or.inl rfl⟩
      simp only [grown]
      rw [grow_get_old _ _ _ _ _ (lt_of_get hca) ha]
      exact hca

/-- Whenever `arena_realloc(arena, p, size)` returns, it returns the pointer
that `arena_alloc(arena, size)` returns and leaves the chain that call
leaves: the same `begin` and `end` and the same header at every address; only
bytes of chunk data differ. -/
theorem arena_realloc_as_alloc (reduce : Bool) (s : State) (p : Ptr) (size : Nat)
    (q : Ptr) (s2 : State) (hre : arena_realloc reduce s p size = some (q, s2)) :
    ∃ s1, arena_alloc reduce s size = some (q, s1) ∧ same_chain s1 s2 := by
  obtain ⟨sz, s1, ha, hsame, _, hsz⟩ := call_as_alloc reduce s (Call.realloc p size) q s2 hre
  by_cases hlt : size < SIZE_MOD
  · have hsz1 : sz = size := hsz hlt
    subst hsz1
    exact ⟨s1, ha, hsame⟩
  · unfold arena_realloc at hre
    by_cases hz : size = 0
    · subst hz
      simp only [if_true, Option.some.injEq, Prod.mk.injEq] at hre
      obtain ⟨hq, hs⟩ := hre
      subst hq hs
      exact ⟨s, arena_alloc_size_zero reduce s, same_chain_refl s⟩
    · simp only [hz, if_false] at hre
      cases ha2 : arena_alloc reduce s size with
      | none => simp [ha2] at hre
      | some r =>
        obtain ⟨q1, s3⟩ := r
        simp only [ha2] at hre
        cases p with
        | none =>
          simp only [Option.some.injEq, Prod.mk.injEq] at hre
          obtain ⟨hq, hs⟩ := hre
          subst hq hs
          exact ⟨s3, rfl, same_chain_refl s3⟩
        | some src =>
          cases q1 with
          | none => simp at hre
          | some dst =>
            simp only [memcpy] at hre
            cases hcs : s3.heap[src.chunk]? with
            | none => simp [hcs] at hre
            | some cs =>
              cases hcd : s3.heap[dst.chunk]? with
              | none => simp [hcs, hcd] at hre
              | some cd =>
                simp only [hcs, hcd] at hre
                by_cases h1 : cs.size < src.offset + size
                · simp [h1] at hre
                · by_cases h2 : cd.size < dst.offset + size
                  · simp [h1, h2] at hre
                  · by_cases h3 : ranges_apart dst src size = true
                    · simp only [h1, h2, h3, if_false, if_true, Option.some.injEq,
                        Prod.mk.injEq] at hre
                      obtain ⟨hq, hs⟩ := hre
                      subst hq hs
                      exact ⟨s3, rfl, same_chain_store _ hcd⟩
                    · simp [h1, h2, h3] at hre

/-- On a 1024-byte arena with 400 bytes allocated at offset 0, reallocating
that region to 352 bytes returns the region at offset 400, where
`arena_alloc(arena, 352)` places it, and brings `used` to 752. -/
theorem arena_realloc_as_alloc_witness :
    ∃ s1 s2 c, arena_realloc false
        { heap := [{ next := none, size := 1024, used := 400, data := fun _ => 0 }],
          arena := { begin := 0, end_ := 0 } } (some { chunk := 0, offset := 0 }) 352 =
        some (some { chunk := 0, offset := 400 }, s2) ∧
      arena_alloc false
        { heap := [{ next := none, size := 1024, used := 400, data := fun _ => 0 }],
          arena := { begin := 0, end_ := 0 } } 352 =
        some (some { chunk := 0, offset := 400 }, s1) ∧
      same_chain s1 s2 ∧ s2.heap[0]? = some c ∧ c.used = 752 :=
  match arena_realloc_as_alloc false
      { heap := [{ next := none, size := 1024, used := 400, data := fun _ => 0 }],
        arena := { begin := 0, end_ := 0 } } (some { chunk := 0, offset := 0 }) 352
      (some { chunk := 0, offset := 400 }) _ rfl with
  | ⟨s1, ha, hsame⟩ => ⟨s1, _, _, rfl, ha, hsame, rfl, rfl⟩

/-! ## The chain invariant -/

/-- One call on a well-formed arena leaves it well-formed: the chain keeps
its chunks, in order, and gains at most one chunk at its end. -/
theorem call_wf (reduce : Bool) {s s2 : State} {l : List Nat} (c : Call) {p : Ptr}
    (hwf : WellFormed s l) (hrun : c.run reduce s = some (p, s2)) :
    ∃ l2, WellFormed s2 l2 ∧ (l2 = l ∨ l2 = l ++ [s.heap.length]) := by
  obtain ⟨sz, s1, ha, hsame, _, _⟩ := call_as_alloc reduce s c p s2 hrun
  obtain ⟨p1, sa1, l1, ha1, hwf1, _, hl1, _, _⟩ := arena_alloc_sum reduce s l sz hwf
  rw [ha] at ha1
  simp only [Option.some.injEq, Prod.mk.injEq] at ha1
  obtain ⟨hp, hs⟩ := ha1
  subst hp hs
  exact ⟨l1, same_chain_wf hsame hwf1, hl1⟩

/-- A sequence of calls on a well-formed arena leaves it well-formed, and the
old chain is a prefix of the new one. -/
theorem run_calls_wf (reduce : Bool) :
    ∀ (calls : List Call) (s : State) (l : List Nat) (ps : List Ptr) (s2 : State),
    WellFormed s l → run_calls reduce s calls = some (ps, s2) →
    ∃ l2, WellFormed s2 l2 ∧ l <+: l2 := by
  intro calls
  induction calls with
  | nil =>
    intro s l ps s2 hwf hrun
    simp only [run_calls, Option.some.injEq, Prod.mk.injEq] at hrun
    obtain ⟨_, hs⟩ := hrun
    subst hs
    exact ⟨l, hwf, List.prefix_refl l⟩
  | cons c cs ih =>
    intro s l qs s2 hwf hrun
    obtain ⟨p, s1, ps, hc, hrest, _⟩ := run_calls_cons_inv hrun
    obtain ⟨l1, hwf1, hl1⟩ := call_wf reduce c hwf hc
    obtain ⟨l2, hwf2, hpre⟩ := ih s1 l1 ps s2 hwf1 hrest
    refine ⟨l2, hwf2, List.IsPrefix.trans ?_ hpre⟩
    rcases hl1 with rfl | rfl
    · exact List.prefix_refl _
    · exact List.prefix_append _ _

/-- A chain from a non-null address is not empty and starts there. -/
theorem wf_head {s : State} {l : List Nat} (hwf : WellFormed s l) :
    l ≠ [] ∧ l.head? = some s.arena.begin := by
  obtain ⟨l1, rfl⟩ := chain_from_head hwf.1
  exact ⟨by simp, rfl⟩

/-- The release loop on a walk that ends: it releases the chunks of the
walk, in order, after those released before. -/
theorem destroy_loop_chain {h : Heap} :
    ∀ {f : Nat} {p : Option Nat} {l : List Nat} (released : List Nat),
    chain_from h f p = some l → (∀ a ∈ l, a ∉ released) →
    destroy_loop h f p released = some (released ++ l) := by
  intro f
  induction f with
  | zero =>
    intro p l released hch _
    cases p with
    | none => rw [chain_from_none] at hch; cases hch; simp [destroy_loop]
    | some a => simp [chain_from] at hch
  | succ f ih =>
    intro p l released hch hfresh
    cases p with
    | none => rw [chain_from_none] at hch; cases hch; simp [destroy_loop]
    | some a =>
      have hnd := chain_from_nodup hch
      obtain ⟨f1, c, l1, hf, hc, hl1, rfl⟩ := chain_from_some_inv hch
      have hf1 : f1 = f := by omega
      subst hf1
      have hnd2 := List.nodup_cons.mp hnd
      have ha : a ∉ released := hfresh a (List.mem_cons_self a l1)
      simp only [destroy_loop, ha, if_false, hc]
      rw [ih (released ++ [a]) hl1 ?_]
      · simp
      · intro b hb hmem
        rcases List.mem_append.mp hmem with h1 | h1
        · exact hfresh b (List.mem_cons_of_mem a hb) h1
        · simp only [List.mem_singleton] at h1
          subst h1
          exact hnd2.1 hb

/-- On a well-formed arena `destroy_arena` releases the chunks of the chain,
in chain order. -/
theorem destroy_arena_wf {s : State} {l : List Nat} (hwf : WellFormed s l) :
    destroy_arena s = some l := by
  unfold destroy_arena
  have hch : chain_from s.heap s.heap.length (some s.arena.begin) = some l := hwf.1
  rw [destroy_loop_chain [] hch (by simp)]
  simp

/-- For every arena reached from `create_arena` by a sequence of calls,
`destroy_arena` ends, and the blocks it releases are the chunks of the chain
from `begin`, in chain order: each chunk once (the list has no duplicate),
`begin` first.  The loop reads the `next` of a chunk only while that chunk is
not yet released (otherwise `destroy_loop` gives no result).  The releases
are as many as `arena_get_chunks_count` counted before when the chain has at
most `INT_MAX` chunks; on a longer chain the count has no result. -/
theorem destroy_arena_releases_chain (reduce : Bool) (h : Heap) (K : Nat)
    (calls : List Call) (ps : List Ptr) (s : State)
    (hrun : run_calls reduce (create_arena h K) calls = some (ps, s)) :
    ∃ l, chain s = some l ∧ destroy_arena s = some l ∧ l.Nodup ∧
      l.head? = some s.arena.begin ∧
      ((l.length : Int) ≤ INT_MAX → arena_get_chunks_count s = some (l.length : Int)) ∧
      (INT_MAX < (l.length : Int) → arena_get_chunks_count s = none) := by
  obtain ⟨l, hwf, _⟩ := run_calls_wf reduce calls _ _ ps s (create_arena_wf h K) hrun
  exact ⟨l, hwf.1, destroy_arena_wf hwf, chain_from_nodup hwf.1, (wf_head hwf).2,
    arena_get_chunks_count_wf hwf, arena_get_chunks_count_overflow hwf⟩

/-- Capacity 1024, requests of 480 and 960 bytes: the two chunks 0 and 1 are
released, in that order, and the count before was 2. -/
theorem destroy_arena_releases_chain_witness :
    destroy_arena
        { heap := [{ next := some 1, size := 1024, used := 480, data := fun _ => 0 },
            { next := none, size := 1024, used := 960, data := fun _ => 0 }],
          arena := { begin := 0, end_ := 1 } } = some [0, 1] ∧
      arena_get_chunks_count
        { heap := [{ next := some 1, size := 1024, used := 480, data := fun _ => 0 },
            { next := none, size := 1024, used := 960, data := fun _ => 0 }],
          arena := { begin := 0, end_ := 1 } } = some 2 :=
  match destroy_arena_releases_chain false [] 1024 [Call.alloc 480, Call.alloc 960]
    [some { chunk := 0, offset := 0 }, some { chunk := 1, offset := 0 }]
    { heap := [{ next := some 1, size := 1024, used := 480, data := fun _ => 0 },
        { next := none, size := 1024, used := 960, data := fun _ => 0 }],
      arena := { begin := 0, end_ := 1 } }
    rfl with
  | ⟨l, hl, hd, _, _, hcount, _⟩ => by
    have hl2 : l = [0, 1] := by
      have : some l = some [0, 1] := hl.symm.trans rfl
      exact Option.some.inj this
    subst hl2
    exact ⟨hd, hcount (by decide)⟩

/-! ## The space queries -/

/-- The index loop of the space queries on a walk that ends: after `i` steps,
with `i` at most the length of the walk, `it` is the `i`-th chunk, and `NULL`
when `i` is the length. -/
theorem advance_chain {h : Heap} : ∀ (i : Nat) {f : Nat} {p : Option Nat} {l : List Nat},
    chain_from h f p = some l → i ≤ l.length → advance h i p = some l[i]? := by
  intro i
  induction i with
  | zero =>
    intro f p l hch _
    cases p with
    | none => rw [chain_from_none] at hch; cases hch; simp [advance]
    | some a =>
      obtain ⟨l1, rfl⟩ := chain_from_head hch
      simp [advance]
  | succ i ih =>
    intro f p l hch hle
    cases p with
    | none => rw [chain_from_none] at hch; cases hch; simp at hle
    | some a =>
      obtain ⟨f1, c, l1, hf, hc, hl1, rfl⟩ := chain_from_some_inv hch
      simp only [List.length_cons] at hle
      simp only [advance, hc]
      rw [ih hl1 (by omega)]
      simp

/-- The two space queries on a well-formed arena with chunks `l`, at most
`INT_MAX` of them, for every index: 0 below 0 and above the length, the
values of the `i`-th chunk for `0 <= i < length`, and no result at
`i = length`, where the code reads through `NULL`. -/
theorem space_of_wf {s : State} {l : List Nat} (hwf : WellFormed s l)
    (hlen : (l.length : Int) ≤ INT_MAX) (i : Int) :
    (i < 0 ∨ (l.length : Int) < i →
      arena_get_available_space_of s i = some 0 ∧ arena_get_used_space_of s i = some 0) ∧
    (0 ≤ i ∧ i < (l.length : Int) →
      ∃ a c, l[i.toNat]? = some a ∧ s.heap[a]? = some c ∧
        arena_get_available_space_of s i = some (size_sub c.size c.used) ∧
        arena_get_used_space_of s i = some c.used) ∧
    (i = (l.length : Int) →
      arena_get_available_space_of s i = none ∧ arena_get_used_space_of s i = none) := by
  have hcount := arena_get_chunks_count_wf hwf hlen
  have hch : chain_from s.heap s.heap.length (some s.arena.begin) = some l := hwf.1
  refine ⟨?_, ?_, ?_⟩
  · intro hi
    have hcond : i > (l.length : Int) ∨ i < 0 := by omega
    simp [arena_get_available_space_of, arena_get_used_space_of, hcount, hcond]
  · intro hi
    have hcond : ¬ (i > (l.length : Int) ∨ i < 0) := by omega
    have hlt : i.toNat < l.length := by omega
    have hadv := advance_chain i.toNat hch (by omega)
    have hget : l[i.toNat]? = some l[i.toNat] := List.getElem?_eq_getElem hlt
    have hvalid := chain_from_valid hwf.1 _ (List.getElem_mem hlt)
    have hc : s.heap[l[i.toNat]]? = some s.heap[l[i.toNat]] := List.getElem?_eq_getElem hvalid
    refine ⟨l[i.toNat], s.heap[l[i.toNat]], hget, hc, ?_, ?_⟩
    · simp only [arena_get_available_space_of, hcount, hcond, if_false, hadv, hget, hc,
        Option.map_some']
    · simp only [arena_get_used_space_of, hcount, hcond, if_false, hadv, hget, hc,
        Option.map_some']
  · intro hi
    have hcond : ¬ (i > (l.length : Int) ∨ i < 0) := by omega
    have hn : i.toNat = l.length := by omega
    have hadv := advance_chain i.toNat hch (by omega)
    have hget : l[i.toNat]? = none := by rw [hn]; simp
    constructor
    · simp only [arena_get_available_space_of, hcount, hcond, if_false, hadv, hget]
    · simp only [arena_get_used_space_of, hcount, hcond, if_false, hadv, hget]

/-- C15. The code at the index equal to the chunk count: on the fresh arena
`create_arena(10)`, which has 1 chunk, the queries with index 1 pass the
guard `chunk_index > count`, step once to `NULL` and read through it, so
they give no result; only the indices above the count and below 0 give 0. -/
theorem space_of_index_count_reads_null :
    arena_get_chunks_count (create_arena [] 10) = some 1 ∧
    arena_get_available_space_of (create_arena [] 10) 1 = none ∧
    arena_get_used_space_of (create_arena [] 10) 1 = none ∧
    arena_get_available_space_of (create_arena [] 10) 2 = some 0 ∧
    arena_get_used_space_of (create_arena [] 10) 2 = some 0 ∧
    arena_get_available_space_of (create_arena [] 10) (-1) = some 0 ∧
    arena_get_used_space_of (create_arena [] 10) (-1) = some 0 ∧
    arena_get_available_space_of (create_arena [] 10) 0 = some 10 ∧
    arena_get_used_space_of (create_arena [] 10) 0 = some 0 := by
  decide

/-- For every arena reached from `create_arena` by a sequence of calls,
under either policy, whose chain has at most `INT_MAX` chunks, with `n` the
result of `arena_get_chunks_count`: the current used space is the used space
of index `n - 1`, and the current available space is the available space of
index `n - 1`; all four queries return. -/
theorem current_space_is_last (reduce : Bool) (h : Heap) (K : Nat) (calls : List Call)
    (ps : List Ptr) (s : State)
    (hrun : run_calls reduce (create_arena h K) calls = some (ps, s)) :
    ∃ l, chain s = some l ∧ ((l.length : Int) ≤ INT_MAX →
      ∃ (n : Int) (u v : Nat), arena_get_chunks_count s = some n ∧
        arena_get_current_used_space s = some u ∧
        arena_get_used_space_of s (n - 1) = some u ∧
        arena_get_current_available_space s = some v ∧
        arena_get_available_space_of s (n - 1) = some v) := by
  obtain ⟨l, hwf, _⟩ := run_calls_wf reduce calls _ _ ps s (create_arena_wf h K) hrun
  refine ⟨l, hwf.1, fun hlen => ?_⟩
  have hne := (wf_head hwf).1
  have hpos : 0 < l.length := List.length_pos.mpr hne
  obtain ⟨a, c, ha, hc, hav, hus⟩ :=
    (space_of_wf hwf hlen ((l.length : Int) - 1)).2.1 (by omega)
  have hidx : ((l.length : Int) - 1).toNat = l.length - 1 := by omega
  rw [hidx, ← List.getLast?_eq_getElem?, hwf.2] at ha
  cases ha
  refine ⟨l.length, c.used, size_sub c.size c.used, arena_get_chunks_count_wf hwf hlen, ?_,
    hus, ?_, hav⟩
  · simp [arena_get_current_used_space, hc]
  · simp [arena_get_current_available_space, hc]

/-- Capacity 1024, requests of 480 and 960 bytes: 2 chunks, 960 bytes used
and 64 available in the current one, which is the chunk of index 1. -/
theorem current_space_is_last_witness :
    arena_get_chunks_count
        { heap := [{ next := some 1, size := 1024, used := 480, data := fun _ => 0 },
            { next := none, size := 1024, used := 960, data := fun _ => 0 }],
          arena := { begin := 0, end_ := 1 } } = some 2 ∧
      arena_get_used_space_of
        { heap := [{ next := some 1, size := 1024, used := 480, data := fun _ => 0 },
            { next := none, size := 1024, used := 960, data := fun _ => 0 }],
          arena := { begin := 0, end_ := 1 } } (2 - 1) = some 960 ∧
      arena_get_available_space_of
        { heap := [{ next := some 1, size := 1024, used := 480, data := fun _ => 0 },
            { next := none, size := 1024, used := 960, data := fun _ => 0 }],
          arena := { begin := 0, end_ := 1 } } (2 - 1) = some 64 :=
  match current_space_is_last false [] 1024 [Call.alloc 480, Call.alloc 960]
    [some { chunk := 0, offset := 0 }, some { chunk := 1, offset := 0 }]
    { heap := [{ next := some 1, size := 1024, used := 480, data := fun _ => 0 },
        { next := none, size := 1024, used := 960, data := fun _ => 0 }],
      arena := { begin := 0, end_ := 1 } }
    rfl with
  | ⟨l, hl, hrest⟩ => by
    have hl2 : l = [0, 1] := by
      have : some l = some [0, 1] := hl.symm.trans rfl
      exact Option.some.inj this
    subst hl2
    obtain ⟨n, u, v, hn, hu, hus, hv, hav⟩ := hrest (by decide)
    have hn2 : n = 2 := by
      have : some n = some 2 := hn.symm.trans (by decide)
      exact Option.some.inj this
    subst hn2
    have hu2 : u = 960 := by
      have : some u = some 960 := hu.symm.trans (by decide)
      exact Option.some.inj this
    have hv2 : v = 64 := by
      have : some v = some 64 := hv.symm.trans (by decide)
      exact Option.some.inj this
    subst hu2 hv2
    exact ⟨hn, hus, hav⟩

/-! ## Requests that wrap around -/

/-- C18. The code on a request whose sum with `used` wraps: after
`create_arena(1024)` and `arena_alloc(arena, 10)` the first chunk has
`used = 10`; `arena_alloc(arena, 2 ^ 64 - 5)` computes `used + size` as 5 in
`size_t`, finds that it fits, returns the region at offset 10 of the same
chunk and stores 5 in `used`: the counter goes down from 10 to 5 (the
capacity stays 1024 and no chunk is added). -/
theorem wrapping_request_lowers_used :
    ∃ ps s1 s2 c1 c2, run_allocs false (create_arena [] 1024) [10] = some (ps, s1) ∧
      s1.heap[0]? = some c1 ∧ c1.used = 10 ∧ c1.size = 1024 ∧
      arena_alloc false s1 (2 ^ 64 - 5) = some (some { chunk := 0, offset := 10 }, s2) ∧
      s2.heap[0]? = some c2 ∧ c2.used = 5 ∧ c2.size = 1024 ∧ s2.heap.length = 1 ∧
      ¬ c1.used ≤ c2.used :=
  ⟨_, _, _, _, _, rfl, rfl, rfl, rfl, rfl, rfl, rfl, rfl, rfl, by decide⟩

/-! ## The duplicates -/

/-- What `strlen` returns: the index of the first zero byte. -/
theorem strlen_spec : ∀ (str : List Nat) (L : Nat),
    strlen str = some L ↔
      (str[L]? = some 0 ∧ ∀ i, i < L → ∃ b, str[i]? = some b ∧ b ≠ 0) := by
  intro str
  induction str with
  | nil => intro L; simp [strlen]
  | cons b bs ih =>
    intro L
    by_cases hb : b = 0
    · subst hb
      simp only [strlen, if_true, Option.some.injEq]
      constructor
      · intro h
        subst h
        exact ⟨by simp, fun i hi => absurd hi (Nat.not_lt_zero i)⟩
      · intro ⟨_, h2⟩
        cases L with
        | zero => rfl
        | succ L =>
          obtain ⟨x, hx, hne⟩ := h2 0 (Nat.succ_pos L)
          simp only [List.getElem?_cons_zero, Option.some.injEq] at hx
          exact absurd hx.symm hne
    · simp only [strlen, hb, if_false]
      cases L with
      | zero =>
        simp only [List.getElem?_cons_zero, Option.some.injEq]
        constructor
        · intro h
          cases hs : strlen bs with
          | none => simp [hs] at h
          | some n => simp [hs] at h
        · intro ⟨h1, _⟩
          exact absurd h1 hb
      | succ L =>
        simp only [List.getElem?_cons_succ]
        constructor
        · intro h
          have hL : strlen bs = some L := by
            cases hs : strlen bs with
            | none => simp [hs] at h
            | some n =>
              simp only [hs, Option.map_some', Option.some.injEq] at h
              rw [Nat.add_right_cancel h]
          obtain ⟨h1, h2⟩ := (ih L).mp hL
          refine ⟨h1, ?_⟩
          intro i hi
          cases i with
          | zero => exact ⟨b, by simp, hb⟩
          | succ i => simpa using h2 i (by omega)
        · intro ⟨h1, h2⟩
          have hL : strlen bs = some L :=
            (ih L).mpr ⟨h1, fun i hi => by simpa using h2 (i + 1) (by omega)⟩
          simp [hL]

theorem same_chain_with_data {s : State} {a : Nat} {c : arena_chunk_t} (d : Nat → Nat)
    (hc : s.heap[a]? = some c) : same_chain s (with_data s a c d) :=
  same_chain_store d hc

theorem with_data_get {s : State} {a : Nat} (c : arena_chunk_t) (d : Nat → Nat)
    (ha : a < s.heap.length) :
    (with_data s a c d).heap[a]? = some { c with data := d } := by
  simp only [with_data]
  exact List.getElem?_set_self ha

/-! ## Where a request lands -/

theorem bumped_get_eq {s : State} {cur : Nat} (c : arena_chunk_t) (size : Nat)
    (hcur : cur < s.heap.length) :
    (bumped s cur c size).heap[cur]? = some { c with used := (c.used + size) % SIZE_MOD } := by
  simp only [bumped]
  exact List.getElem?_set_self hcur

theorem bumped_get_ne {s : State} {cur a : Nat} (c : arena_chunk_t) (size : Nat)
    (hne : a ≠ cur) : (bumped s cur c size).heap[a]? = s.heap[a]? := by
  simp only [bumped]
  exact List.getElem?_set_ne (Ne.symm hne)

theorem grown_get_new (s : State) (cur : Nat) (c : arena_chunk_t) (size : Nat) :
    (grown s cur c size).heap[s.heap.length]? =
      some { next := none, size := c.size, used := size % SIZE_MOD, data := fun _ => 0 } := by
  simp only [grown]
  exact grow_get_new _ _ _ _

theorem grown_get_cur {s : State} {cur : Nat} (c : arena_chunk_t) (size : Nat)
    (hcur : cur < s.heap.length) :
    (grown s cur c size).heap[cur]? = some { c with next := some s.heap.length } := by
  simp only [grown]
  exact grow_get_cur _ _ _ _ hcur

theorem grown_get_old {s : State} {cur a : Nat} (c : arena_chunk_t) (size : Nat)
    (ha : a < s.heap.length) (hne : a ≠ cur) :
    (grown s cur c size).heap[a]? = s.heap[a]? := by
  simp only [grown]
  exact grow_get_old _ _ _ _ _ ha hne

theorem used_of_none {h : Heap} {a : Nat} (ha : h[a]? = none) : used_of h a = 0 := by
  simp [used_of, ha]

theorem used_of_bumped {s : State} {cur : Nat} {c : arena_chunk_t} (size : Nat)
    (hc : s.heap[cur]? = some c) (a : Nat) :
    used_of (bumped s cur c size).heap a =
      if a = cur then (c.used + size) % SIZE_MOD else used_of s.heap a := by
  by_cases ha : a = cur
  · subst ha
    rw [if_pos rfl, used_of_eq (bumped_get_eq c size (lt_of_get hc))]
  · rw [if_neg ha]
    simp only [used_of, bumped_get_ne c size ha]

theorem used_of_grown {s : State} {cur : Nat} {c : arena_chunk_t} (size : Nat)
    (hc : s.heap[cur]? = some c) (a : Nat) :
    used_of (grown s cur c size).heap a =
      if a = s.heap.length then size % SIZE_MOD else used_of s.heap a := by
  have hcur : cur < s.heap.length := lt_of_get hc
  by_cases ha : a = s.heap.length
  · subst ha
    rw [if_pos rfl, used_of_eq (grown_get_new s cur c size)]
  · rw [if_neg ha]
    by_cases hac : a = cur
    · subst hac
      rw [used_of_eq (grown_get_cur c size hcur), used_of_eq hc]
    · by_cases hlt : a < s.heap.length
      · simp only [used_of, grown_get_old c size hlt hac]
      · have h1 : s.heap[a]? = none := List.getElem?_eq_none (by omega)
        have h2 : (grown s cur c size).heap[a]? = none := by
          apply List.getElem?_eq_none
          simp [grown]
          omega
        rw [used_of_none h1, used_of_none h2]

/-- A chunk of a state with the same chain has the same link and counters. -/
theorem same_chain_get {s1 s2 : State} (hs : same_chain s1 s2) {a : Nat} {c1 : arena_chunk_t}
    (hc : s1.heap[a]? = some c1) :
    ∃ c2, s2.heap[a]? = some c2 ∧ c2.next = c1.next ∧ c2.size = c1.size ∧
      c2.used = c1.used := by
  have hh := same_chain_header hs a
  rw [hc] at hh
  cases h2 : s2.heap[a]? with
  | none => simp [h2] at hh
  | some c2 =>
    simp only [h2, Option.map_some', Option.some.injEq, header, Prod.mk.injEq] at hh
    exact ⟨c2, rfl, hh.1, hh.2.1, hh.2.2⟩

theorem same_chain_symm {s1 s2 : State} (hs : same_chain s1 s2) : same_chain s2 s1 :=
  ⟨hs.1.symm, hs.2.symm⟩

/-- Where a call places its region, on a well-formed arena, when the size it
requests is a `size_t` value.  Either the size is 0, the call returns `NULL`
and the chain is as before; or the call returns a region `q`, and then
either `q` starts at the `used` mark of a chunk of the chain that passes the
fit test, which is bumped, or the end chunk fails the fit test and `q`
starts a new chunk behind it. -/
theorem call_region (reduce : Bool) {s s2 : State} {l : List Nat} (c : Call) {p : Ptr}
    (hwf : WellFormed s l) (hreq : c.requested < SIZE_MOD)
    (hrun : c.run reduce s = some (p, s2)) :
    (p = none ∧ c.requested = 0 ∧ same_chain s s2) ∨
    (∃ q c0, p = some q ∧ 0 < c.requested ∧ q.chunk ∈ l ∧ s.heap[q.chunk]? = some c0 ∧
      q.offset = c0.used ∧ (c0.used + c.requested) % SIZE_MOD ≤ c0.size ∧
      same_chain (bumped s q.chunk c0 c.requested) s2) ∨
    (∃ q c0, p = some q ∧ 0 < c.requested ∧ s.heap[s.arena.end_]? = some c0 ∧
      c0.size < (c0.used + c.requested) % SIZE_MOD ∧
      q = { chunk := s.heap.length, offset := 0 } ∧
      same_chain (grown s s.arena.end_ c0 c.requested) s2) := by
  obtain ⟨sz, s1, ha, hsame, _, hsz⟩ := call_as_alloc reduce s c p s2 hrun
  have hsz2 := hsz hreq
  subst hsz2
  by_cases hz : c.requested = 0
  · rw [hz, arena_alloc_size_zero] at ha
    simp only [Option.some.injEq, Prod.mk.injEq] at ha
    obtain ⟨hp, hs⟩ := ha
    subst hp hs
    exact Or.inl ⟨rfl, hz, hsame⟩
  · have hpos : 0 < c.requested := by omega
    obtain ⟨c0, hc0, hcase⟩ := arena_alloc_step reduce s l c.requested hwf hpos
    have hmem := target_mem reduce c.requested hwf
    rcases hcase with ⟨hfit, halloc⟩ | ⟨hover, hend, halloc⟩
    · rw [ha] at halloc
      simp only [Option.some.injEq, Prod.mk.injEq] at halloc
      obtain ⟨hp, hs⟩ := halloc
      subst hp hs
      exact Or.inr (Or.inl ⟨_, c0, rfl, hpos, hmem, hc0, rfl, hfit, hsame⟩)
    · rw [ha] at halloc
      simp only [Option.some.injEq, Prod.mk.injEq] at halloc
      obtain ⟨hp, hs⟩ := halloc
      subst hp hs
      rw [hend] at hc0 hsame
      exact Or.inr (Or.inr ⟨_, c0, rfl, hpos, hc0, hover, rfl, hsame⟩)

/-! ## Placement inside the chunks -/

/-- One call that requests between 1 and `C0` bytes, on a well-formed arena
whose chunks have capacity `C0 < 2 ^ 63` and at most `C0` bytes used: the
region it returns lies inside a chunk of the chain, and the chunks stay
within their capacity. -/
theorem call_in_bounds (reduce : Bool) {s s2 : State} {l : List Nat} (C0 : Nat) (c : Call)
    {p : Ptr} (hwf : WellFormed s l) (hb : bounded_chain C0 s l) (hC0 : 2 * C0 < SIZE_MOD)
    (hreq : 0 < c.requested ∧ c.requested ≤ C0) (hrun : c.run reduce s = some (p, s2)) :
    ∃ r l2, p = some r ∧ WellFormed s2 l2 ∧ l <+: l2 ∧ bounded_chain C0 s2 l2 ∧
      r.chunk ∈ l2 ∧ r.offset + c.requested ≤ C0 := by
  rcases call_region reduce c hwf (by omega) hrun with
    ⟨_, hz, _⟩ | ⟨q, c0, hp, _, hmem, hc0, hoff, hfit, hsame⟩ |
    ⟨q, c0, hp, _, hc0, _, hq, hsame⟩
  · omega
  · obtain ⟨c1, hc1, hsz, hus⟩ := hb q.chunk hmem
    rw [hc0] at hc1
    cases hc1
    have hmod : (c0.used + c.requested) % SIZE_MOD = c0.used + c.requested :=
      Nat.mod_eq_of_lt (by omega)
    rw [hmod] at hfit
    refine ⟨q, l, hp, same_chain_wf hsame (bumped_wf hwf hc0), List.prefix_refl l, ?_, hmem,
      by omega⟩
    intro a ha
    by_cases haq : a = q.chunk
    · subst haq
      obtain ⟨c2, hc2, _, hs2, hu2⟩ :=
        same_chain_get hsame (bumped_get_eq c0 c.requested (lt_of_get hc0))
      refine ⟨c2, hc2, by rw [hs2]; exact hsz, ?_⟩
      rw [hs2, hu2]
      simp only [hmod]
      omega
    · obtain ⟨ca, hca, hsa, hua⟩ := hb a ha
      rw [← bumped_get_ne c0 c.requested haq] at hca
      obtain ⟨c2, hc2, _, hs2, hu2⟩ := same_chain_get hsame hca
      exact ⟨c2, hc2, by rw [hs2]; exact hsa, by rw [hs2, hu2]; exact hua⟩
  · have hend := mem_of_getLast hwf.2
    obtain ⟨c1, hc1, hsz, hus⟩ := hb s.arena.end_ hend
    rw [hc0] at hc1
    cases hc1
    have hcur : s.arena.end_ < s.heap.length := lt_of_get hc0
    have hmod : c.requested % SIZE_MOD = c.requested := Nat.mod_eq_of_lt (by omega)
    refine ⟨q, l ++ [s.heap.length], hp, same_chain_wf hsame (grown_wf hwf hc0),
      List.prefix_append _ _, ?_, by rw [hq]; simp, by rw [hq]; simp only; omega⟩
    intro a ha
    rcases List.mem_append.mp ha with hal | han
    · by_cases hae : a = s.arena.end_
      · subst hae
        obtain ⟨c2, hc2, _, hs2, hu2⟩ :=
          same_chain_get hsame (grown_get_cur c0 c.requested hcur)
        exact ⟨c2, hc2, by rw [hs2]; exact hsz, by rw [hs2, hu2]; exact hus⟩
      · obtain ⟨ca, hca, hsa, hua⟩ := hb a hal
        rw [← grown_get_old c0 c.requested (lt_of_get hca) hae] at hca
        obtain ⟨c2, hc2, _, hs2, hu2⟩ := same_chain_get hsame hca
        exact ⟨c2, hc2, by rw [hs2]; exact hsa, by rw [hs2, hu2]; exact hua⟩
    · simp only [List.mem_singleton] at han
      subst han
      obtain ⟨c2, hc2, _, hs2, hu2⟩ :=
        same_chain_get hsame (grown_get_new s s.arena.end_ c0 c.requested)
      refine ⟨c2, hc2, by rw [hs2]; exact hsz, ?_⟩
      rw [hs2, hu2]
      simp only [hmod]
      omega

/-- The same for a sequence of calls. -/
theorem run_calls_in_bounds (reduce : Bool) (C0 : Nat) (hC0 : 2 * C0 < SIZE_MOD) :
    ∀ (calls : List Call) (s : State) (l : List Nat) (ps : List Ptr) (s2 : State),
    WellFormed s l → bounded_chain C0 s l →
    (∀ c ∈ calls, 0 < c.requested ∧ c.requested ≤ C0) →
    run_calls reduce s calls = some (ps, s2) →
    ∃ l2, WellFormed s2 l2 ∧ l <+: l2 ∧ bounded_chain C0 s2 l2 ∧
      List.Forall₂ (fun c p => ∃ r, p = some r ∧ r.chunk ∈ l2 ∧ r.offset + c.requested ≤ C0)
        calls ps := by
  intro calls
  induction calls with
  | nil =>
    intro s l ps s2 hwf hb _ hrun
    simp only [run_calls, Option.some.injEq, Prod.mk.injEq] at hrun
    obtain ⟨hp, hs⟩ := hrun
    subst hp hs
    exact ⟨l, hwf, List.prefix_refl l, hb, List.Forall₂.nil⟩
  | cons c cs ih =>
    intro s l qs s2 hwf hb hreq hrun
    obtain ⟨p, s1, ps, hc, hrest, rfl⟩ := run_calls_cons_inv hrun
    obtain ⟨r, l1, hp, hwf1, hpre1, hb1, hmem, hin⟩ :=
      call_in_bounds reduce C0 c hwf hb hC0 (hreq c (List.mem_cons_self c cs)) hc
    obtain ⟨l2, hwf2, hpre2, hb2, hall⟩ :=
      ih s1 l1 ps s2 hwf1 hb1 (fun d hd => hreq d (List.mem_cons_of_mem c hd)) hrest
    exact ⟨l2, hwf2, List.IsPrefix.trans hpre1 hpre2, hb2,
      List.Forall₂.cons ⟨r, hp, hpre2.subset hmem, hin⟩ hall⟩

/-- Every sequence of `arena_alloc` calls on a well-formed arena returns. -/
theorem run_allocs_total (reduce : Bool) :
    ∀ (sizes : List Nat) (s : State) (l : List Nat), WellFormed s l →
    ∃ ps s2, run_allocs reduce s sizes = some (ps, s2) := by
  intro sizes
  induction sizes with
  | nil => intro s l _; exact ⟨[], s, rfl⟩
  | cons a as ih =>
    intro s l hwf
    obtain ⟨p, s1, l1, ha, hwf1, _⟩ := arena_alloc_sum reduce s l a hwf
    obtain ⟨ps, s2, hrun⟩ := ih s1 l1 hwf1
    refine ⟨p :: ps, s2, ?_⟩
    rw [run_allocs_cons, ha]
    simp only [hrun]

theorem bounded_chain_create_arena (h : Heap) (C0 : Nat) :
    bounded_chain C0 (create_arena h C0) [h.length] := by
  intro a ha
  simp only [List.mem_singleton] at ha
  subst ha
  exact ⟨_, end_chunk_create_arena h C0, rfl, Nat.zero_le _⟩

/-- In-bounds placement, under either policy, for a capacity `C0` below
`2 ^ 63` (so that no sum `used + size` of two values up to `C0` wraps): in
every arena reached from `create_arena(C0)` by calls that each request between 1
and `C0` bytes, every returned region lies inside one chunk of the chain,
its start offset plus its size being at most the capacity of that chunk, and
every chunk of the chain has capacity `C0` and `used <= capacity`.  Every
sequence of `arena_alloc` calls does return. -/
theorem regions_in_bounds (reduce : Bool) (h : Heap) (C0 : Nat) (calls : List Call)
    (ps : List Ptr) (s : State) (hC0 : 2 * C0 < SIZE_MOD)
    (hreq : ∀ c ∈ calls, 0 < c.requested ∧ c.requested ≤ C0)
    (hrun : run_calls reduce (create_arena h C0) calls = some (ps, s)) :
    (∃ l, chain s = some l ∧ bounded_chain C0 s l ∧
      List.Forall₂ (fun c p => ∃ r ch, p = some r ∧ r.chunk ∈ l ∧
        s.heap[r.chunk]? = some ch ∧ r.offset + c.requested ≤ ch.size) calls ps) ∧
    ∀ sizes, ∃ qs s1, run_allocs reduce (create_arena h C0) sizes = some (qs, s1) := by
  refine ⟨?_, fun sizes => run_allocs_total reduce sizes _ _ (create_arena_wf h C0)⟩
  obtain ⟨l, hwf, _, hb, hall⟩ :=
    run_calls_in_bounds reduce C0 hC0 calls _ _ ps s (create_arena_wf h C0)
      (bounded_chain_create_arena h C0) hreq hrun
  refine ⟨l, hwf.1, hb, List.Forall₂.imp ?_ hall⟩
  intro c p ⟨r, hp, hmem, hin⟩
  obtain ⟨ch, hch, hsz, _⟩ := hb r.chunk hmem
  exact ⟨r, ch, hp, hmem, hch, by rw [hsz]; exact hin⟩

/-- Hole search, capacity 4096, requests of 4096, 2048, 4096 and 2048 bytes:
every region lies inside its chunk. -/
theorem regions_in_bounds_witness :
    ∃ l, chain
        { heap := [{ next := some 1, size := 4096, used := 4096, data := fun _ => 0 },
            { next := some 2, size := 4096, used := 4096, data := fun _ => 0 },
            { next := none, size := 4096, used := 4096, data := fun _ => 0 }],
          arena := { begin := 0, end_ := 2 } } = some l ∧
      bounded_chain 4096
        { heap := [{ next := some 1, size := 4096, used := 4096, data := fun _ => 0 },
            { next := some 2, size := 4096, used := 4096, data := fun _ => 0 },
            { next := none, size := 4096, used := 4096, data := fun _ => 0 }],
          arena := { begin := 0, end_ := 2 } } l ∧
      List.Forall₂ (fun (c : Call) (p : Ptr) => ∃ (r : Region) (ch : arena_chunk_t),
        p = some r ∧ r.chunk ∈ l ∧
        [({ next := some 1, size := 4096, used := 4096, data := fun _ => 0 } : arena_chunk_t),
          { next := some 2, size := 4096, used := 4096, data := fun _ => 0 },
          { next := none, size := 4096, used := 4096, data := fun _ => 0 }][r.chunk]? =
          some ch ∧ r.offset + c.requested ≤ ch.size)
        [Call.alloc 4096, Call.alloc 2048, Call.alloc 4096, Call.alloc 2048]
        [some { chunk := 0, offset := 0 }, some { chunk := 1, offset := 0 },
          some { chunk := 2, offset := 0 }, some { chunk := 1, offset := 2048 }] :=
  (regions_in_bounds true [] 4096
    [Call.alloc 4096, Call.alloc 2048, Call.alloc 4096, Call.alloc 2048]
    [some { chunk := 0, offset := 0 }, some { chunk := 1, offset := 0 },
      some { chunk := 2, offset := 0 }, some { chunk := 1, offset := 2048 }]
    { heap := [{ next := some 1, size := 4096, used := 4096, data := fun _ => 0 },
        { next := some 2, size := 4096, used := 4096, data := fun _ => 0 },
        { next := none, size := 4096, used := 4096, data := fun _ => 0 }],
      arena := { begin := 0, end_ := 2 } }
    (by decide)
    (by
      intro c hc
      simp only [List.mem_cons, List.mem_singleton, List.not_mem_nil, or_false] at hc
      rcases hc with rfl | rfl | rfl | rfl <;> decide)
    rfl).1

/-! ## Disjoint regions -/

/-- One call whose additions do not wrap, on a well-formed arena: no `used`
counter goes down, and a returned region ends at or below the new `used`
mark of its chunk and starts at or above the old one. -/
theorem call_live (reduce : Bool) {s s2 : State} {l : List Nat} (c : Call) {p : Ptr}
    (hwf : WellFormed s l) (hreq : c.requested < SIZE_MOD)
    (hno : ∀ a ∈ l, used_of s.heap a + c.requested < SIZE_MOD)
    (hrun : c.run reduce s = some (p, s2)) :
    ∃ l2, WellFormed s2 l2 ∧ s.heap.length ≤ s2.heap.length ∧
      (∀ a, used_of s.heap a ≤ used_of s2.heap a) ∧
      ∀ r, p = some r → r.chunk < s2.heap.length ∧
        r.offset + c.requested ≤ used_of s2.heap r.chunk ∧
        (r.chunk < s.heap.length → used_of s.heap r.chunk ≤ r.offset) := by
  rcases call_region reduce c hwf hreq hrun with
    ⟨hp, _, hsame⟩ | ⟨q, c0, hp, _, hmem, hc0, hoff, _, hsame⟩ |
    ⟨q, c0, hp, _, hc0, _, hq, hsame⟩
  · refine ⟨l, same_chain_wf hsame hwf, by rw [same_chain_length hsame], ?_, ?_⟩
    · intro a
      rw [same_chain_used hsame a]
    · intro r hr
      rw [hp] at hr
      cases hr
  · have hmod : (c0.used + c.requested) % SIZE_MOD = c0.used + c.requested := by
      have := hno q.chunk hmem
      rw [used_of_eq hc0] at this
      exact Nat.mod_eq_of_lt this
    have hlen : s2.heap.length = s.heap.length := by
      rw [same_chain_length hsame]
      simp [bumped]
    have hused : ∀ a, used_of s2.heap a =
        if a = q.chunk then c0.used + c.requested else used_of s.heap a := by
      intro a
      rw [same_chain_used hsame a, used_of_bumped c.requested hc0 a, hmod]
    refine ⟨l, same_chain_wf hsame (bumped_wf hwf hc0), by omega, ?_, ?_⟩
    · intro a
      rw [hused a]
      by_cases ha : a = q.chunk
      · subst ha
        rw [if_pos rfl, used_of_eq hc0]
        omega
      · rw [if_neg ha]
    · intro r hr
      rw [hp] at hr
      cases hr
      refine ⟨by rw [hlen]; exact lt_of_get hc0, ?_, fun _ => ?_⟩
      · rw [hused q.chunk, if_pos rfl, hoff]
      · rw [used_of_eq hc0, hoff]
  · have hmod : c.requested % SIZE_MOD = c.requested := Nat.mod_eq_of_lt hreq
    have hlen : s2.heap.length = s.heap.length + 1 := by
      rw [same_chain_length hsame]
      simp [grown]
    have hused : ∀ a, used_of s2.heap a =
        if a = s.heap.length then c.requested else used_of s.heap a := by
      intro a
      rw [same_chain_used hsame a, used_of_grown c.requested hc0 a, hmod]
    refine ⟨l ++ [s.heap.length], same_chain_wf hsame (grown_wf hwf hc0), by omega, ?_, ?_⟩
    · intro a
      rw [hused a]
      by_cases ha : a = s.heap.length
      · subst ha
        rw [if_pos rfl, used_of_none (List.getElem?_eq_none (Nat.le_refl _))]
        omega
      · rw [if_neg ha]
    · intro r hr
      rw [hp] at hr
      cases hr
      subst hq
      refine ⟨by rw [hlen]; simp, ?_, fun hlt => ?_⟩
      · rw [hused s.heap.length, if_pos rfl]
        simp
      · simp only at hlt
        omega

/-- A sequence of calls without wraparound, on a well-formed arena in which
the regions `live` lie below the `used` marks of their chunks: every region
the calls return is apart from the regions `live`, the returned regions are
pairwise apart, and all of them lie below the `used` marks of the final
state. -/
theorem run_calls_apart (reduce : Bool) :
    ∀ (calls : List Call) (s : State) (l : List Nat) (ps : List Ptr) (s2 : State)
      (live : List (Region × Nat)),
    WellFormed s l → run_calls reduce s calls = some (ps, s2) →
    no_overflow reduce s calls →
    (∀ x ∈ live, x.1.chunk < s.heap.length ∧ x.1.offset + x.2 ≤ used_of s.heap x.1.chunk) →
    (∀ y ∈ calls.zip ps, ∀ x ∈ live, ∀ r, y.2 = some r → apart x.1 x.2 r y.1.requested) ∧
    (calls.zip ps).Pairwise (fun x y => ∀ r1 r2, x.2 = some r1 → y.2 = some r2 →
      apart r1 x.1.requested r2 y.1.requested) ∧
    (∀ x ∈ live, x.1.chunk < s2.heap.length ∧
      x.1.offset + x.2 ≤ used_of s2.heap x.1.chunk) ∧
    (∀ y ∈ calls.zip ps, ∀ r, y.2 = some r → r.chunk < s2.heap.length ∧
      r.offset + y.1.requested ≤ used_of s2.heap r.chunk) := by
  intro calls
  induction calls with
  | nil =>
    intro s l ps s2 live _ hrun _ hlive
    simp only [run_calls, Option.some.injEq, Prod.mk.injEq] at hrun
    obtain ⟨_, hs⟩ := hrun
    subst hs
    simp only [List.zip_nil_left, List.not_mem_nil, false_implies, implies_true,
      List.Pairwise.nil, true_and, and_true]
    exact hlive
  | cons c cs ih =>
    intro s l qs s2 live hwf hrun hno hlive
    obtain ⟨p, s1, ps, hc, hrest, rfl⟩ := run_calls_cons_inv hrun
    obtain ⟨hreq, hsum, htail⟩ := hno
    obtain ⟨l1, hwf1, hlen, hmono, hnew⟩ :=
      call_live reduce c hwf hreq (hsum l hwf.1) hc
    have hlive1 : ∀ x ∈ live, x.1.chunk < s1.heap.length ∧
        x.1.offset + x.2 ≤ used_of s1.heap x.1.chunk := by
      intro x hx
      have h1 := hlive x hx
      have h2 := hmono x.1.chunk
      exact ⟨by omega, by omega⟩
    have hhead : ∀ x ∈ live, ∀ r, p = some r → apart x.1 x.2 r c.requested := by
      intro x hx r hr
      by_cases hch : x.1.chunk = r.chunk
      · have h1 := hlive x hx
        have h2 := (hnew r hr).2.2 (by rw [← hch]; exact h1.1)
        rw [← hch] at h2
        exact Or.inr (Or.inl (by omega))
      · exact Or.inl hch
    cases p with
    | none =>
      obtain ⟨hA, hB, hC, hD⟩ := ih s1 l1 ps s2 live hwf1 hrest (htail none s1 hc) hlive1
      simp only [List.zip_cons_cons, List.mem_cons, List.pairwise_cons]
      refine ⟨?_, ⟨?_, hB⟩, hC, ?_⟩
      · intro y hy x hx r hr
        rcases hy with rfl | hy
        · cases hr
        · exact hA y hy x hx r hr
      · intro y _ r1 r2 hr1 _
        cases hr1
      · intro y hy r hr
        rcases hy with rfl | hy
        · cases hr
        · exact hD y hy r hr
    | some q =>
      have hq := hnew q rfl
      have hlive2 : ∀ x ∈ (q, c.requested) :: live, x.1.chunk < s1.heap.length ∧
          x.1.offset + x.2 ≤ used_of s1.heap x.1.chunk := by
        intro x hx
        rcases List.mem_cons.mp hx with rfl | hx
        · exact ⟨hq.1, hq.2.1⟩
        · exact hlive1 x hx
      obtain ⟨hA, hB, hC, hD⟩ :=
        ih s1 l1 ps s2 ((q, c.requested) :: live) hwf1 hrest (htail (some q) s1 hc) hlive2
      simp only [List.zip_cons_cons, List.mem_cons, List.pairwise_cons]
      refine ⟨?_, ⟨?_, hB⟩, ?_, ?_⟩
      · intro y hy x hx r hr
        rcases hy with rfl | hy
        · exact hhead x hx r hr
        · exact hA y hy x (List.mem_cons_of_mem _ hx) r hr
      · intro y hy r1 r2 hr1 hr2
        simp only [Option.some.injEq] at hr1
        subst hr1
        exact hA y hy (q, c.requested) (List.mem_cons_self _ _) r2 hr2
      · intro x hx
        exact hC x (List.mem_cons_of_mem _ hx)
      · intro y hy r hr
        rcases hy with rfl | hy
        · simp only [Option.some.injEq] at hr
          subst hr
          exact hC (q, c.requested) (List.mem_cons_self _ _)
        · exact hD y hy r hr

/-- When the sizes requested, added to the bytes already used, stay below
`SIZE_MOD`, no addition of the calls wraps. -/
theorem no_overflow_of_total (reduce : Bool) :
    ∀ (calls : List Call) (s : State) (l : List Nat), WellFormed s l →
    used_sum s.heap l + (calls.map Call.requested).sum < SIZE_MOD →
    no_overflow reduce s calls := by
  intro calls
  induction calls with
  | nil => intro s l _ _; exact True.intro
  | cons c cs ih =>
    intro s l hwf hsum
    simp only [List.map_cons, List.sum_cons] at hsum
    refine ⟨by omega, ?_, ?_⟩
    · intro l1 hl1 a ha
      have hl : l1 = l := Option.some.inj (hl1.symm.trans hwf.1)
      subst hl
      have := used_of_le_sum s.heap ha
      omega
    · intro p s2 hrun
      obtain ⟨sz, s1, ha, hsame, _, hsz⟩ := call_as_alloc reduce s c p s2 hrun
      have hsz2 := hsz (by omega)
      subst hsz2
      obtain ⟨p1, sa1, l1, ha1, hwf1, _, _, _, hex⟩ :=
        arena_alloc_sum reduce s l c.requested hwf
      rw [ha] at ha1
      simp only [Option.some.injEq, Prod.mk.injEq] at ha1
      obtain ⟨hp, hs⟩ := ha1
      subst hp hs
      apply ih s2 l1 (same_chain_wf hsame hwf1)
      rw [same_chain_used_sum hsame l1, hex (by omega)]
      omega

/-- Disjointness by chunk and offset, under either policy: in a sequence of
`arena_alloc`, `arena_realloc`, `arena_strdup` and `arena_strndup` calls on a fresh arena in
which no `size_t` addition wraps, any two regions returned by two different
calls (each with the size its call requested) are in different chunks, or
the byte range of one ends before the byte range of the other starts. -/
theorem regions_disjoint (reduce : Bool) (h : Heap) (K : Nat) (calls : List Call)
    (ps : List Ptr) (s : State)
    (hrun : run_calls reduce (create_arena h K) calls = some (ps, s))
    (hexact : no_overflow reduce (create_arena h K) calls) :
    (calls.zip ps).Pairwise (fun x y => ∀ r1 r2, x.2 = some r1 → y.2 = some r2 →
      apart r1 x.1.requested r2 y.1.requested) :=
  (run_calls_apart reduce calls _ _ ps s [] (create_arena_wf h K) hrun hexact
    (by simp)).2.1

/-- Hole search, capacity 4096, requests of 4096, 2048, 4096 and 2048 bytes
and the duplicate of a two-letter string: the five regions are pairwise
apart. -/
theorem regions_disjoint_witness :
    (List.zip
      [Call.alloc 4096, Call.alloc 2048, Call.alloc 4096, Call.alloc 2048,
        Call.strdup [72, 105, 0]]
      [some { chunk := 0, offset := 0 }, some { chunk := 1, offset := 0 },
        some { chunk := 2, offset := 0 }, some { chunk := 1, offset := 2048 },
        some { chunk := 3, offset := 0 }]).Pairwise
      (fun x y => ∀ r1 r2, x.2 = some r1 → y.2 = some r2 →
        apart r1 x.1.requested r2 y.1.requested) :=
  regions_disjoint true [] 4096
    [Call.alloc 4096, Call.alloc 2048, Call.alloc 4096, Call.alloc 2048,
      Call.strdup [72, 105, 0]]
    [some { chunk := 0, offset := 0 }, some { chunk := 1, offset := 0 },
      some { chunk := 2, offset := 0 }, some { chunk := 1, offset := 2048 },
      some { chunk := 3, offset := 0 }]
    { heap := [{ next := some 1, size := 4096, used := 4096, data := fun _ => 0 },
        { next := some 2, size := 4096, used := 4096, data := fun _ => 0 },
        { next := some 3, size := 4096, used := 4096, data := fun _ => 0 },
        { next := none, size := 4096, used := 3,
          data := store_string (fun _ => 0) 0 [72, 105, 0] 2 }],
      arena := { begin := 0, end_ := 3 } }
    rfl
    (no_overflow_of_total true _ _ [0] (create_arena_wf [] 4096) (by decide))

/-! ## What `arena_realloc` copies -/

/-- A region placed in a chunk that was there before starts at the `used`
mark of that chunk. -/
theorem alloc_region_start (reduce : Bool) {s s1 : State} {l : List Nat} {size : Nat}
    {q : Region} (hwf : WellFormed s l) (hpos : 0 < size)
    (halloc : arena_alloc reduce s size = some (some q, s1)) {c : arena_chunk_t}
    (hc : s.heap[q.chunk]? = some c) : q.offset = c.used := by
  obtain ⟨c0, hc0, hcase⟩ := arena_alloc_step reduce s l size hwf hpos
  rcases hcase with ⟨_, h1⟩ | ⟨_, _, h1⟩
  · rw [halloc] at h1
    simp only [Option.some.injEq, Prod.mk.injEq] at h1
    obtain ⟨hq, _⟩ := h1
    subst hq
    simp only at hc
    rw [hc0] at hc
    cases hc
    rfl
  · rw [halloc] at h1
    simp only [Option.some.injEq, Prod.mk.injEq] at h1
    obtain ⟨hq, _⟩ := h1
    subst hq
    have := lt_of_get hc
    simp only at this
    omega

/-! ## What a call keeps -/

/-- Under either policy a call on a well-formed arena leaves the capacity of
every chunk as it was. -/
theorem call_keeps_capacity (reduce : Bool) {s s2 : State} {l : List Nat} (c : Call)
    {p : Ptr} (hwf : WellFormed s l) (hrun : c.run reduce s = some (p, s2))
    {a : Nat} {c0 : arena_chunk_t} (hc0 : s.heap[a]? = some c0) :
    ∃ c2, s2.heap[a]? = some c2 ∧ c2.size = c0.size := by
  obtain ⟨sz, s1, ha, hsame, _, _⟩ := call_as_alloc reduce s c p s2 hrun
  by_cases hz : sz = 0
  · subst hz
    rw [arena_alloc_size_zero] at ha
    simp only [Option.some.injEq, Prod.mk.injEq] at ha
    obtain ⟨_, hs⟩ := ha
    subst hs
    obtain ⟨c2, hc2, _, hs2, _⟩ := same_chain_get hsame hc0
    exact ⟨c2, hc2, hs2⟩
  · obtain ⟨q, sa, halloc, _, _, _, hold⟩ :=
      arena_alloc_effect reduce s l sz hwf (by omega)
    rw [ha] at halloc
    simp only [Option.some.injEq, Prod.mk.injEq] at halloc
    obtain ⟨_, hs⟩ := halloc
    subst hs
    obtain ⟨c1, hc1, hs1, _, _⟩ := hold a c0 hc0
    obtain ⟨c2, hc2, _, hs2, _⟩ := same_chain_get hsame hc1
    exact ⟨c2, hc2, by rw [hs2, hs1]⟩

/-! ## The two policies side by side -/

/-- One positive request under either policy, seen from the end chunk: the
request is served, the end chunk keeps its capacity, and either no chunk is
added and the end chunk's `used` is at most its old value plus the size, or
the end chunk was full for the request, one chunk is added and the new end
chunk's `used` is the size. -/
theorem alloc_end_step (reduce : Bool) (s : State) (l : List Nat) (c : arena_chunk_t)
    (size : Nat) (hwf : WellFormed s l) (hc : s.heap[s.arena.end_]? = some c)
    (hpos : 0 < size) :
    ∃ p s1 l1 c1, arena_alloc reduce s size = some (p, s1) ∧ WellFormed s1 l1 ∧
      s1.heap[s1.arena.end_]? = some c1 ∧ c1.size = c.size ∧
      ((l1.length = l.length ∧ c1.used ≤ c.used + size) ∨
       (c.size < (c.used + size) % SIZE_MOD ∧ l1.length = l.length + 1 ∧
          c1.used = size % SIZE_MOD)) := by
  obtain ⟨ct, hct, hcase⟩ := arena_alloc_step reduce s l size hwf hpos
  rcases hcase with ⟨hfit, halloc⟩ | ⟨hover, hend, halloc⟩
  · by_cases ht : target reduce s l size = s.arena.end_
    · rw [ht] at hct halloc
      rw [hc] at hct
      cases hct
      refine ⟨_, _, l, _, halloc, bumped_wf hwf hc, end_chunk_bumped size hc, rfl, Or.inl ⟨rfl, ?_⟩⟩
      exact Nat.mod_le _ _
    · have hget : (bumped s (target reduce s l size) ct size).heap[
          (bumped s (target reduce s l size) ct size).arena.end_]? = some c := by
        have hne : s.arena.end_ ≠ target reduce s l size := fun h => ht h.symm
        have h1 : (bumped s (target reduce s l size) ct size).heap[s.arena.end_]? =
            s.heap[s.arena.end_]? := bumped_get_ne ct size hne
        rw [hc] at h1
        exact h1
      exact ⟨_, _, l, c, halloc, bumped_wf hwf hct, hget, rfl, Or.inl ⟨rfl, by omega⟩⟩
  · rw [hend] at hct halloc
    rw [hc] at hct
    cases hct
    refine ⟨_, _, _, _, halloc, grown_wf hwf hc, end_chunk_grown s _ c size, rfl,
      Or.inr ⟨hover, by simp, rfl⟩⟩

/-- The hole search against the default policy, from any two well-formed
arenas whose end chunks have capacity `K`: when the first has fewer chunks,
or as many with an end chunk no fuller, and no sum `used + size` of the
default run passes the range of `size_t`, the same requests leave the first
with at most as many chunks as the second. -/
theorem hole_search_le_default (K : Nat) :
    ∀ (sizes : List Nat) (sh sd : State) (lh ld : List Nat) (ch cd : arena_chunk_t),
    WellFormed sh lh → WellFormed sd ld →
    sh.heap[sh.arena.end_]? = some ch → ch.size = K →
    sd.heap[sd.arena.end_]? = some cd → cd.size = K →
    (lh.length < ld.length ∨ (lh.length = ld.length ∧ ch.used ≤ cd.used)) →
    cd.used + sizes.sum < SIZE_MOD →
    ∃ ps1 s1 l1 ps2 s2 l2, run_allocs true sh sizes = some (ps1, s1) ∧ WellFormed s1 l1 ∧
      run_allocs false sd sizes = some (ps2, s2) ∧ WellFormed s2 l2 ∧
      l1.length ≤ l2.length := by
  intro sizes
  induction sizes with
  | nil =>
    intro sh sd lh ld ch cd hwfh hwfd _ _ _ _ hinv _
    exact ⟨[], sh, lh, [], sd, ld, rfl, hwfh, rfl, hwfd, by omega⟩
  | cons a as ih =>
    intro sh sd lh ld ch cd hwfh hwfd hch hszh hcd hszd hinv hsum
    simp only [List.sum_cons] at hsum
    rw [run_allocs_cons, run_allocs_cons]
    by_cases ha : a = 0
    · subst ha
      rw [arena_alloc_size_zero, arena_alloc_size_zero]
      obtain ⟨ps1, s1, l1, ps2, s2, l2, hrun1, hwf1, hrun2, hwf2, hle⟩ :=
        ih sh sd lh ld ch cd hwfh hwfd hch hszh hcd hszd hinv (by omega)
      refine ⟨none :: ps1, s1, l1, none :: ps2, s2, l2, ?_, hwf1, ?_, hwf2, hle⟩
      · simp only [hrun1]
      · simp only [hrun2]
    · have hpos : 0 < a := by omega
      have hmod : (cd.used + a) % SIZE_MOD = cd.used + a := Nat.mod_eq_of_lt (by omega)
      have hmoda : a % SIZE_MOD = a := Nat.mod_eq_of_lt (by omega)
      obtain ⟨p1, sh1, lh1, ch1, hallh, hwfh1, hch1, hszh1, hcaseh⟩ :=
        alloc_end_step true sh lh ch a hwfh hch hpos
      rw [hallh, arena_alloc_default sd a hpos]
      have hmodh : (ch.used + a) % SIZE_MOD ≤ ch.used + a := Nat.mod_le _ _
      by_cases hover : cd.size < (cd.used + a) % SIZE_MOD
      · rw [place_grows sd _ a cd hcd hover]
        have hinv1 : lh1.length < (ld ++ [sd.heap.length]).length ∨
            (lh1.length = (ld ++ [sd.heap.length]).length ∧ ch1.used ≤ a % SIZE_MOD) := by
          simp only [List.length_append, List.length_singleton]
          rcases hcaseh with ⟨hl, _⟩ | ⟨_, hl, hu⟩
          · left; omega
          · rcases hinv with hlt | ⟨heq, _⟩
            · left; omega
            · right; omega
        obtain ⟨ps1, s1, l1, ps2, s2, l2, hrun1, hwf1, hrun2, hwf2, hle⟩ :=
          ih sh1 (grown sd sd.arena.end_ cd a) lh1 _ ch1 _ hwfh1 (grown_wf hwfd hcd) hch1
            (by rw [hszh1, hszh]) (end_chunk_grown sd _ cd a) hszd hinv1
            (by simp only [hmoda]; omega)
        refine ⟨p1 :: ps1, s1, l1, some { chunk := sd.heap.length, offset := 0 } :: ps2, s2, l2,
          ?_, hwf1, ?_, hwf2, hle⟩
        · simp only [hrun1]
        · simp only [hrun2]
      · rw [place_fits sd _ a cd hcd (by omega)]
        have hinv1 : lh1.length < ld.length ∨
            (lh1.length = ld.length ∧ ch1.used ≤ (cd.used + a) % SIZE_MOD) := by
          rw [hmod]
          rcases hcaseh with ⟨hl, hu⟩ | ⟨hfull, hl, hu⟩
          · rcases hinv with hlt | ⟨heq, hle⟩
            · left; omega
            · right; omega
          · rcases hinv with hlt | ⟨heq, hle⟩
            · by_cases hlt1 : lh1.length < ld.length
              · left; exact hlt1
              · right; omega
            · exfalso
              rw [hmod] at hover
              omega
        obtain ⟨ps1, s1, l1, ps2, s2, l2, hrun1, hwf1, hrun2, hwf2, hle⟩ :=
          ih sh1 (bumped sd sd.arena.end_ cd a) lh1 ld ch1 _ hwfh1 (bumped_wf hwfd hcd) hch1
            (by rw [hszh1, hszh]) (end_chunk_bumped a hcd) hszd hinv1
            (by simp only [hmod]; omega)
        refine ⟨p1 :: ps1, s1, l1, some { chunk := sd.arena.end_, offset := cd.used } :: ps2,
          s2, l2, ?_, hwf1, ?_, hwf2, hle⟩
        · simp only [hrun1]
        · simp only [hrun2]

/-- On a fresh arena of any capacity `K`, requests whose sizes sum to less
than `2 ^ 64` are all served under both policies, and the hole search leaves
a chain of at most as many chunks as the default policy. -/
theorem hole_search_no_more_chunks (h : Heap) (K : Nat) (sizes : List Nat)
    (hsum : sizes.sum < SIZE_MOD) :
    ∃ ps1 s1 l1 ps2 s2 l2,
      run_allocs true (create_arena h K) sizes = some (ps1, s1) ∧ chain s1 = some l1 ∧
      run_allocs false (create_arena h K) sizes = some (ps2, s2) ∧ chain s2 = some l2 ∧
      l1.length ≤ l2.length := by
  obtain ⟨ps1, s1, l1, ps2, s2, l2, hrun1, hwf1, hrun2, hwf2, hle⟩ :=
    hole_search_le_default K sizes (create_arena h K) (create_arena h K) _ _ _ _
      (create_arena_wf h K) (create_arena_wf h K) (end_chunk_create_arena h K) rfl
      (end_chunk_create_arena h K) rfl (Or.inr ⟨rfl, le_refl _⟩) (by simpa using hsum)
  exact ⟨ps1, s1, l1, ps2, s2, l2, hrun1, hwf1.1, hrun2, hwf2.1, hle⟩

/-- The requests 4096, 2048, 4096, 2048 on a fresh arena of capacity 4096 sum
to less than `2 ^ 64`: both policies serve them, and the hole search leaves
at most as many chunks as the default policy. -/
theorem hole_search_no_more_chunks_example :
    [4096, 2048, 4096, 2048].sum < SIZE_MOD ∧
    ∃ ps1 s1 l1 ps2 s2 l2,
      run_allocs true (create_arena [] 4096) [4096, 2048, 4096, 2048] = some (ps1, s1) ∧
      chain s1 = some l1 ∧
      run_allocs false (create_arena [] 4096) [4096, 2048, 4096, 2048] = some (ps2, s2) ∧
      chain s2 = some l2 ∧ l1.length ≤ l2.length :=
  ⟨by decide, hole_search_no_more_chunks [] 4096 [4096, 2048, 4096, 2048] (by decide)⟩

/-- C21. The code at capacity 10 and the requests 5, 6, 3, `2 ^ 64 - 9`.
Default policy: 5 goes to chunk 0, 6 opens chunk 1, 3 is placed at offset 6
of chunk 1 (`used = 9`), and for the last request `9 + (2 ^ 64 - 9)` wraps to
0 in `size_t`, passes the test against the capacity and is placed in chunk 1:
2 chunks.  Hole search: 3 is placed in chunk 0 (`used = 8`), and for the last
request `8 + (2 ^ 64 - 9)` and `6 + (2 ^ 64 - 9)` do not wrap and exceed the
capacity, so a third chunk is appended: 3 chunks, more than the default
policy.  For the requests 4096, 2048, 4096, 2048 at capacity 4096 the counts
are 3 with the hole search and 4 without. -/
theorem hole_search_more_chunks_on_wrap :
    (∃ s1 s2 n1 n2,
      run_allocs true (create_arena [] 10) [5, 6, 3, 2 ^ 64 - 9] =
        some ([some { chunk := 0, offset := 0 }, some { chunk := 1, offset := 0 },
               some { chunk := 0, offset := 5 }, some { chunk := 2, offset := 0 }], s1) ∧
      run_allocs false (create_arena [] 10) [5, 6, 3, 2 ^ 64 - 9] =
        some ([some { chunk := 0, offset := 0 }, some { chunk := 1, offset := 0 },
               some { chunk := 1, offset := 6 }, some { chunk := 1, offset := 9 }], s2) ∧
      arena_get_chunks_count s1 = some n1 ∧ arena_get_chunks_count s2 = some n2 ∧
      n1 = 3 ∧ n2 = 2 ∧ ¬ n1 ≤ n2) ∧
    (∃ ps1 s1 ps2 s2,
      run_allocs true (create_arena [] 4096) [4096, 2048, 4096, 2048] = some (ps1, s1) ∧
      run_allocs false (create_arena [] 4096) [4096, 2048, 4096, 2048] = some (ps2, s2) ∧
      arena_get_chunks_count s1 = some 3 ∧ arena_get_chunks_count s2 = some 4) :=
  ⟨⟨_, _, 3, 2, rfl, rfl, rfl, rfl, rfl, rfl, by decide⟩, ⟨_, _, _, _, rfl, rfl, rfl, rfl⟩⟩

/-! ## Copies that stay inside the blocks -/

/-- A positive request of at most `C0` bytes, on a well-formed arena whose
chunks have capacity `C0 < 2 ^ 63` and at most `C0` bytes used: the region
returned lies inside the block of its chunk. -/
theorem alloc_in_block (reduce : Bool) {s s1 : State} {l : List Nat} (C0 : Nat) {size : Nat}
    {q : Region} (hwf : WellFormed s l) (hb : bounded_chain C0 s l)
    (hC0 : 2 * C0 < SIZE_MOD) (hpos : 0 < size) (hfit : size ≤ C0)
    (halloc : arena_alloc reduce s size = some (some q, s1)) :
    ∃ c, s1.heap[q.chunk]? = some c ∧ c.size = C0 ∧ q.offset + size ≤ c.size := by
  obtain ⟨r, l2, hr, _, _, hb2, hmem, hoff⟩ :=
    call_in_bounds reduce C0 (Call.alloc size) hwf hb hC0 ⟨hpos, hfit⟩ halloc
  cases hr
  obtain ⟨c, hc, hsz, _⟩ := hb2 q.chunk hmem
  refine ⟨c, hc, hsz, ?_⟩
  rw [hsz]
  exact hoff

/-- What `arena_strndup` does on a well-formed arena whose chunks have
capacity `C0 < 2 ^ 63` and at most `C0` bytes used, when the `n` bytes are
readable and the `n + 1` bytes requested are at most `C0`: it returns a
region inside the block of its chunk, the sum of `used` over the chain grows
by `n + 1`, and the region holds the first `n` input bytes followed by a zero
byte at offset `n`. -/
theorem arena_strndup_copies (reduce : Bool) (s : State) (l : List Nat) (C0 : Nat)
    (str : List Nat) (n : Nat) (hwf : WellFormed s l) (hb : bounded_chain C0 s l)
    (hC0 : 2 * C0 < SIZE_MOD) (hn : n ≤ str.length) (hfit : n + 1 ≤ C0) :
    ∃ q s2 l2 c2, arena_strndup reduce s str n = some (some q, s2) ∧ WellFormed s2 l2 ∧
      used_sum s2.heap l2 % SIZE_MOD = (used_sum s.heap l + (n + 1)) % SIZE_MOD ∧
      (used_sum s.heap l + (n + 1) < SIZE_MOD →
        used_sum s2.heap l2 = used_sum s.heap l + (n + 1)) ∧
      s2.heap[q.chunk]? = some c2 ∧ q.offset + (n + 1) ≤ c2.size ∧
      (∀ i, i < n → some (c2.data (q.offset + i)) = str[i]?) ∧
      c2.data (q.offset + n) = 0 := by
  have hsz : (1 * n + 1) % SIZE_MOD = n + 1 := by
    rw [Nat.one_mul]
    exact Nat.mod_eq_of_lt (by omega)
  obtain ⟨q, s1, halloc, _, hq, _, _⟩ :=
    arena_alloc_effect reduce s l (n + 1) hwf (Nat.succ_pos n)
  obtain ⟨p1, sa1, l1, ha1, hwf1, _, _, hmod, hex⟩ := arena_alloc_sum reduce s l (n + 1) hwf
  rw [halloc] at ha1
  simp only [Option.some.injEq, Prod.mk.injEq] at ha1
  obtain ⟨hp1, hs1⟩ := ha1
  subst hp1 hs1
  obtain ⟨cq, hcq, _, hin⟩ :=
    alloc_in_block reduce C0 hwf hb hC0 (Nat.succ_pos n) hfit halloc
  have hcd : s1.heap[q.chunk]? = some s1.heap[q.chunk] := List.getElem?_eq_getElem hq
  have hcqe : cq = s1.heap[q.chunk] := Option.some.inj (hcq.symm.trans hcd)
  subst hcqe
  have hsame := same_chain_with_data (store_string s1.heap[q.chunk].data q.offset str n) hcd
  have hnot : ¬ s1.heap[q.chunk].size < q.offset + n + 1 := by omega
  have hrun : arena_strndup reduce s str n = some (some q,
      with_data s1 q.chunk s1.heap[q.chunk]
        (store_string s1.heap[q.chunk].data q.offset str n)) := by
    unfold arena_strndup
    rw [hsz, halloc]
    simp only [Nat.not_lt.mpr hn, if_false, hcd, hnot, with_data]
  refine ⟨q, _, l1, _, hrun, same_chain_wf hsame hwf1, ?_, ?_, with_data_get _ _ hq,
    hin, ?_, ?_⟩
  · rw [same_chain_used_sum hsame l1]
    exact hmod
  · intro hlt
    rw [same_chain_used_sum hsame l1]
    exact hex hlt
  · intro i hi
    have h1 : ¬ q.offset + i = q.offset + n := by omega
    have h2 : q.offset ≤ q.offset + i ∧ q.offset + i < q.offset + n := by omega
    have h3 : q.offset + i - q.offset = i := by omega
    simp only [store_string, h1, if_false, h2, and_self, if_true, h3]
    rw [List.getD_eq_getElem?_getD, List.getElem?_eq_getElem (by omega)]
    rfl
  · simp [store_string]

/-- The 12 bytes `fake-url.com` out of the readable bytes
`fake-url.com/route` use 13 bytes of a fresh arena of capacity 1024 and are
followed by a zero byte; the empty string with `n = 0` uses 1 byte, the
terminator. -/
theorem arena_strndup_copies_witness :
    (∃ q s2 l2 c2, arena_strndup false (create_arena [] 1024)
        [102, 97, 107, 101, 45, 117, 114, 108, 46, 99, 111, 109, 47, 114, 111, 117, 116,
          101, 0] 12 = some (some q, s2) ∧
      WellFormed s2 l2 ∧ used_sum s2.heap l2 = 13 ∧ s2.heap[q.chunk]? = some c2 ∧
      (∀ i, i < 12 → some (c2.data (q.offset + i)) =
        [102, 97, 107, 101, 45, 117, 114, 108, 46, 99, 111, 109, 47, 114, 111, 117, 116,
          101, 0][i]?) ∧
      c2.data (q.offset + 12) = 0) ∧
    (∃ q s2 l2 c2, arena_strndup false (create_arena [] 1024) [0] 0 = some (some q, s2) ∧
      WellFormed s2 l2 ∧ used_sum s2.heap l2 = 1 ∧ s2.heap[q.chunk]? = some c2 ∧
      c2.data (q.offset + 0) = 0) :=
  ⟨match arena_strndup_copies false (create_arena [] 1024) [0] 1024
      [102, 97, 107, 101, 45, 117, 114, 108, 46, 99, 111, 109, 47, 114, 111, 117, 116,
        101, 0] 12 ⟨rfl, rfl⟩ (bounded_chain_create_arena [] 1024) (by decide) (by decide)
      (by decide) with
   | ⟨q, s2, l2, c2, hrun, hwf2, _, hex, hc2, _, hbytes, hzero⟩ =>
     ⟨q, s2, l2, c2, hrun, hwf2, (hex (by decide)).trans (by decide), hc2, hbytes, hzero⟩,
   match arena_strndup_copies false (create_arena [] 1024) [0] 1024 [0] 0 ⟨rfl, rfl⟩
      (bounded_chain_create_arena [] 1024) (by decide) (by decide) (by decide) with
   | ⟨q, s2, l2, c2, hrun, hwf2, _, hex, hc2, _, _, hzero⟩ =>
     ⟨q, s2, l2, c2, hrun, hwf2, (hex (by decide)).trans (by decide), hc2, hzero⟩⟩

/-- On a well-formed arena whose chunks have capacity `C0 < 2 ^ 63` and at
most `C0` bytes used, for a zero-terminated string `s` whose first zero byte
is at index `L`, with `L + 1` at most `C0`: `arena_strdup(arena, s)` is
`arena_strndup(arena, s, L)`; it returns a region that holds the `L` bytes of
`s` followed by a zero byte at offset `L`, so that the copy has length `L`,
and the sum of `used` over the chain grows by `L + 1`. -/
theorem arena_strdup_copies (reduce : Bool) (s : State) (l : List Nat) (C0 : Nat)
    (str : List Nat) (L : Nat) (hwf : WellFormed s l) (hb : bounded_chain C0 s l)
    (hC0 : 2 * C0 < SIZE_MOD) (hlen : strlen str = some L) (hfit : L + 1 ≤ C0) :
    arena_strdup reduce s str = arena_strndup reduce s str L ∧
    ∃ q s2 l2 c2, arena_strdup reduce s str = some (some q, s2) ∧ WellFormed s2 l2 ∧
      used_sum s2.heap l2 % SIZE_MOD = (used_sum s.heap l + (L + 1)) % SIZE_MOD ∧
      (used_sum s.heap l + (L + 1) < SIZE_MOD →
        used_sum s2.heap l2 = used_sum s.heap l + (L + 1)) ∧
      s2.heap[q.chunk]? = some c2 ∧
      (∀ i, i < L → some (c2.data (q.offset + i)) = str[i]?) ∧
      c2.data (q.offset + L) = 0 ∧
      strlen ((List.range (L + 1)).map (fun i => c2.data (q.offset + i))) = some L := by
  have heq : arena_strdup reduce s str = arena_strndup reduce s str L := by
    simp only [arena_strdup, hlen]
  obtain ⟨hterm, hbody⟩ := (strlen_spec str L).mp hlen
  have hL : L < str.length := by
    rcases List.getElem?_eq_some.mp hterm with ⟨h1, _⟩
    exact h1
  obtain ⟨q, s2, l2, c2, hrun, hwf2, hmod, hex, hc2, _, hbytes, hzero⟩ :=
    arena_strndup_copies reduce s l C0 str L hwf hb hC0 (by omega) hfit
  refine ⟨heq, q, s2, l2, c2, by rw [heq]; exact hrun, hwf2, hmod, hex, hc2, hbytes, hzero, ?_⟩
  apply (strlen_spec _ L).mpr
  constructor
  · simp [List.getElem?_map, List.getElem?_range, hzero]
  · intro i hi
    obtain ⟨b, hb1, hne⟩ := hbody i hi
    have h1 := hbytes i hi
    rw [hb1] at h1
    simp only [Option.some.injEq] at h1
    refine ⟨b, ?_, hne⟩
    rw [List.getElem?_map, List.getElem?_range (by omega)]
    simp [h1]

/-- The string `Hello World` has its first zero byte at index 11; its copy
has length 11 and uses 12 bytes of a fresh arena of capacity 1024; the empty
string uses 1 byte. -/
theorem arena_strdup_copies_witness :
    (∃ q s2 l2 c2, arena_strdup false (create_arena [] 1024)
        [72, 101, 108, 108, 111, 32, 87, 111, 114, 108, 100, 0] = some (some q, s2) ∧
      WellFormed s2 l2 ∧ used_sum s2.heap l2 = 12 ∧ s2.heap[q.chunk]? = some c2 ∧
      (∀ i, i < 11 → some (c2.data (q.offset + i)) =
        [72, 101, 108, 108, 111, 32, 87, 111, 114, 108, 100, 0][i]?) ∧
      c2.data (q.offset + 11) = 0 ∧
      strlen ((List.range (11 + 1)).map (fun i => c2.data (q.offset + i))) = some 11) ∧
    (∃ q s2 l2, arena_strdup false (create_arena [] 1024) [0] = some (some q, s2) ∧
      WellFormed s2 l2 ∧ used_sum s2.heap l2 = 1) :=
  ⟨match arena_strdup_copies false (create_arena [] 1024) [0] 1024
      [72, 101, 108, 108, 111, 32, 87, 111, 114, 108, 100, 0] 11 ⟨rfl, rfl⟩
      (bounded_chain_create_arena [] 1024) (by decide) (by decide) (by decide) with
   | ⟨_, q, s2, l2, c2, hrun, hwf2, _, hex, hc2, hbytes, hzero, hlen⟩ =>
     ⟨q, s2, l2, c2, hrun, hwf2, (hex (by decide)).trans (by decide), hc2, hbytes, hzero,
       hlen⟩,
   match arena_strdup_copies false (create_arena [] 1024) [0] 1024 [0] 0 ⟨rfl, rfl⟩
      (bounded_chain_create_arena [] 1024) (by decide) (by decide) (by decide) with
   | ⟨_, q, s2, l2, _, hrun, hwf2, _, hex, _, _, _, _⟩ =>
     ⟨q, s2, l2, hrun, hwf2, (hex (by decide)).trans (by decide)⟩⟩

/-- On a well-formed arena whose chunks have capacity `C0 < 2 ^ 63` and at
most `C0` bytes used, for a region `p` of `originalSize > 0` bytes in a chunk
of the chain, below the `used` mark of that chunk, and a new size between 1
and `C0` whose bytes, read from `p`, also end at or below that mark (every
new size up to `originalSize` does): `arena_realloc(arena, p, newSize)`
returns the region `q` of `arena_alloc(arena, newSize)`; `q` differs from
`p`, being in another chunk or starting at or after the end of `p`; after the
call the first `min(newSize, originalSize)` bytes at `q` are the bytes that
were at `p` before the call, and the bytes at `p` are as before. -/
theorem arena_realloc_copies (reduce : Bool) (s : State) (l : List Nat) (C0 : Nat)
    (p : Region) (c : arena_chunk_t) (originalSize newSize : Nat)
    (hwf : WellFormed s l) (hb : bounded_chain C0 s l) (hC0 : 2 * C0 < SIZE_MOD)
    (horig : 0 < originalSize) (hnew : 0 < newSize) (hfit : newSize ≤ C0)
    (hmem : p.chunk ∈ l) (hc : s.heap[p.chunk]? = some c)
    (hlive : p.offset + originalSize ≤ c.used) (hread : p.offset + newSize ≤ c.used) :
    ∃ q s1 s2 c2 c3, arena_alloc reduce s newSize = some (some q, s1) ∧
      arena_realloc reduce s (some p) newSize = some (some q, s2) ∧ q ≠ p ∧
      apart p originalSize q newSize ∧
      s2.heap[q.chunk]? = some c2 ∧
      (∀ i, i < min newSize originalSize → c2.data (q.offset + i) = c.data (p.offset + i)) ∧
      s2.heap[p.chunk]? = some c3 ∧
      (∀ i, i < originalSize → c3.data (p.offset + i) = c.data (p.offset + i)) := by
  obtain ⟨q, s1, halloc, _, hq, _, hold⟩ := arena_alloc_effect reduce s l newSize hwf hnew
  obtain ⟨c1, hc1, hsz1, hdata1, _⟩ := hold p.chunk c hc
  obtain ⟨cb, hcb, hszb, husb⟩ := hb p.chunk hmem
  have hcbe : cb = c := Option.some.inj (hcb.symm.trans hc)
  rw [hcbe] at hszb husb
  have hstart : p.chunk = q.chunk → c.used ≤ q.offset := by
    intro hpq
    have hcq : s.heap[q.chunk]? = some c := by rw [← hpq]; exact hc
    have := alloc_region_start reduce hwf hnew halloc hcq
    omega
  have hne : q ≠ p := by
    intro heq
    subst heq
    have := hstart rfl
    omega
  have hapart : apart p originalSize q newSize := by
    by_cases hpq : p.chunk = q.chunk
    · exact Or.inr (Or.inl (by have := hstart hpq; omega))
    · exact Or.inl hpq
  obtain ⟨cq, hcq, _, hin⟩ := alloc_in_block reduce C0 hwf hb hC0 hnew hfit halloc
  have hcd : s1.heap[q.chunk]? = some s1.heap[q.chunk] := List.getElem?_eq_getElem hq
  have hcqe : cq = s1.heap[q.chunk] := Option.some.inj (hcq.symm.trans hcd)
  subst hcqe
  have h1 : ¬ c1.size < p.offset + newSize := by omega
  have h2 : ¬ s1.heap[q.chunk].size < q.offset + newSize := by omega
  have h3 : ranges_apart q p newSize = true := by
    unfold ranges_apart
    rw [decide_eq_true_eq]
    by_cases hpq : p.chunk = q.chunk
    · exact Or.inr (Or.inr (by have := hstart hpq; omega))
    · exact Or.inl (fun h => hpq h.symm)
  have hre : arena_realloc reduce s (some p) newSize = some (some q,
      with_data s1 q.chunk s1.heap[q.chunk]
        (copy_bytes s1.heap[q.chunk].data q.offset c1.data p.offset newSize)) := by
    unfold arena_realloc
    rw [if_neg (by omega), halloc]
    simp only [memcpy, hc1, hcd, h1, h2, h3, if_false, if_true, with_data]
  have hc2 := with_data_get s1.heap[q.chunk]
    (copy_bytes s1.heap[q.chunk].data q.offset c1.data p.offset newSize) hq
  have hc3 : ∃ c3, (with_data s1 q.chunk s1.heap[q.chunk]
      (copy_bytes s1.heap[q.chunk].data q.offset c1.data p.offset newSize)).heap[p.chunk]? =
      some c3 ∧ ∀ i, i < originalSize → c3.data (p.offset + i) = c.data (p.offset + i) := by
    by_cases hpq : p.chunk = q.chunk
    · refine ⟨_, by rw [hpq]; exact hc2, ?_⟩
      intro i hi
      have hle := hstart hpq
      have hout : ¬ (q.offset ≤ p.offset + i ∧ p.offset + i < q.offset + newSize) := by omega
      rw [hpq, hcd] at hc1
      cases hc1
      simp only [copy_bytes, hout, if_false]
      rw [hdata1]
    · refine ⟨c1, ?_, fun i _ => by rw [hdata1]⟩
      simp only [with_data]
      rw [List.getElem?_set_ne (Ne.symm hpq)]
      exact hc1
  obtain ⟨c3, hc3, hbytes3⟩ := hc3
  refine ⟨q, s1, _, _, c3, halloc, hre, hne, hapart, hc2, ?_, hc3, hbytes3⟩
  intro i hi
  have hin2 : q.offset ≤ q.offset + i ∧ q.offset + i < q.offset + newSize := by
    have := Nat.min_le_left newSize originalSize
    omega
  have harith : q.offset + i - q.offset = i := by omega
  simp only [copy_bytes, hin2, and_self, if_true, harith]
  rw [hdata1]

/-- A chunk of capacity 1024 whose first 400 bytes were handed out at offset
0 and filled by the caller (byte `i` holds `i % 251`), reallocated to 352
bytes: the new region starts at offset 400 of the same chunk, and its 352
bytes are the first 352 bytes of the old region. -/
theorem arena_realloc_copies_witness :
    ∃ q s2 c2, arena_realloc false
        { heap := [{ next := none, size := 1024, used := 400, data := fun i => i % 251 }],
          arena := { begin := 0, end_ := 0 } } (some { chunk := 0, offset := 0 }) 352 =
        some (some q, s2) ∧
      q ≠ { chunk := 0, offset := 0 } ∧
      s2.heap[q.chunk]? = some c2 ∧
      ∀ i, i < min 352 400 → c2.data (q.offset + i) = (0 + i) % 251 :=
  match arena_realloc_copies false
    { heap := [{ next := none, size := 1024, used := 400, data := fun i => i % 251 }],
      arena := { begin := 0, end_ := 0 } } [0] 1024 { chunk := 0, offset := 0 }
    { next := none, size := 1024, used := 400, data := fun i => i % 251 } 400 352
    ⟨rfl, rfl⟩
    (fun a ha => by
      simp only [List.mem_singleton] at ha
      subst ha
      exact ⟨_, rfl, rfl, by decide⟩)
    (by decide) (by decide) (by decide) (by decide) (by simp) rfl (by decide) (by decide) with
  | ⟨q, _, s2, c2, _, _, hre, hne, _, hc2, hbytes, _, _⟩ => ⟨q, s2, c2, hre, hne, hc2, hbytes⟩

/-! ## Requests that wrap around, call by call -/

/-- C3. The code at `create_arena(1024)`, `arena_alloc(arena, 10)` and then
`arena_alloc(arena, 2 ^ 64 - 5)`, default policy.  Before the last call the
end chunk has capacity 1024 and `used = 10`, so `end.used + size` exceeds
`end.size`.  The code computes the sum in `size_t`, where it is 5, and so
appends no chunk: the heap keeps its one chunk, `end` stays, the chunk's
`next` stays `NULL`, the region returned is at offset 10 of the old end
chunk, not at offset 0 of a new one, and the `used` of that pre-existing
chunk changes from 10 to 5. -/
theorem default_grow_skipped_on_wrap :
    ∃ ps s1 c1 s2 c2, run_allocs false (create_arena [] 1024) [10] = some (ps, s1) ∧
      s1.heap[s1.arena.end_]? = some c1 ∧ c1.size < c1.used + (2 ^ 64 - 5) ∧
      arena_alloc false s1 (2 ^ 64 - 5) = some (some { chunk := 0, offset := 10 }, s2) ∧
      s2.heap.length = s1.heap.length ∧ s2.arena.end_ = s1.arena.end_ ∧
      s2.heap[s1.arena.end_]? = some c2 ∧ c2.next = none ∧ c1.used = 10 ∧ c2.used = 5 :=
  ⟨_, _, _, _, _, rfl, rfl, by decide, rfl, rfl, rfl, rfl, rfl, rfl, rfl⟩

/-- C4. The code at `create_arena(1024)`, `arena_alloc(arena, 10)` and
`arena_alloc(arena, 2 ^ 64 - 5)`, default policy: both calls return a region,
the sizes requested sum to `2 ^ 64 + 5`, and the sum of `used` over the one
chunk of the chain is 5. -/
theorem used_sum_differs_on_wrap :
    ∃ s1 l, run_calls false (create_arena [] 1024)
        [Call.alloc 10, Call.alloc (2 ^ 64 - 5)] =
        some ([some { chunk := 0, offset := 0 }, some { chunk := 0, offset := 10 }], s1) ∧
      chain s1 = some l ∧ l = [0] ∧ used_sum s1.heap l = 5 ∧
      requested_total [Call.alloc 10, Call.alloc (2 ^ 64 - 5)]
        [some { chunk := 0, offset := 0 }, some { chunk := 0, offset := 10 }] = 2 ^ 64 + 5 ∧
      used_sum s1.heap l ≠
        requested_total [Call.alloc 10, Call.alloc (2 ^ 64 - 5)]
          [some { chunk := 0, offset := 0 }, some { chunk := 0, offset := 10 }] :=
  ⟨_, _, rfl, rfl, rfl, rfl, by decide, by decide⟩

/-- C5. The code at capacity 1024 and the positive requests 10 and
`2 ^ 64 - 5`, default policy.  Before the second request the current chunk
has `used = 10`, and `used` plus the request exceeds 1024: one overflow
event, so a count of 2.  The code computes the sum in `size_t` as 5, creates
no chunk for the second request, and `arena_get_chunks_count` is 1 after the
sequence. -/
theorem overflow_event_missed_on_wrap :
    ∃ ps s0 c s1, run_allocs false (create_arena [] 1024) [10] = some (ps, s0) ∧
      s0.heap[s0.arena.end_]? = some c ∧ 1024 < c.used + (2 ^ 64 - 5) ∧
      arena_get_chunks_count s0 = some 1 ∧
      run_allocs false (create_arena [] 1024) [10, 2 ^ 64 - 5] =
        some ([some { chunk := 0, offset := 0 }, some { chunk := 0, offset := 10 }], s1) ∧
      arena_get_chunks_count s1 = some 1 ∧
      overflow_events_exact 1024 0 [10, 2 ^ 64 - 5] = 1 ∧
      arena_get_chunks_count s1 ≠
        some (1 + (overflow_events_exact 1024 0 [10, 2 ^ 64 - 5] : Int)) :=
  ⟨_, _, _, _, rfl, rfl, by decide, rfl, rfl, rfl, by decide, by decide⟩

/-- C7. The code with the hole search at capacity 10, after the requests 5
and 6 (chunk 0 has `used = 5`, the final chunk 1 has `used = 6`), on the
request `2 ^ 64 - 5`.  In neither chunk does `used + size <= capacity` hold,
so the request belongs in a new third chunk, at offset 0.  The code computes
`5 + size` in `size_t` as 0, takes chunk 0 for a chunk with room, and returns
the region at offset 5 of chunk 0; the chain keeps its 2 chunks. -/
theorem hole_search_takes_full_chunk_on_wrap :
    ∃ ps s1 c0 c1 s2, run_allocs true (create_arena [] 10) [5, 6] = some (ps, s1) ∧
      chain s1 = some [0, 1] ∧ s1.heap[0]? = some c0 ∧ s1.heap[1]? = some c1 ∧
      ¬ c0.used + (2 ^ 64 - 5) ≤ c0.size ∧ ¬ c1.used + (2 ^ 64 - 5) ≤ c1.size ∧
      arena_alloc true s1 (2 ^ 64 - 5) = some (some { chunk := 0, offset := 5 }, s2) ∧
      chain s2 = some [0, 1] :=
  ⟨_, _, _, _, _, rfl, rfl, rfl, rfl, by decide, by decide, rfl, rfl⟩

/-- C10. The code at `create_arena(1024)`, `arena_alloc(arena, 10)` and then
`arena_realloc(arena, NULL, 2 ^ 64 - 5)`, default policy.  The first call
returns the bytes 0 to 9 of chunk 0 and leaves 10 bytes used.  The
reallocation returns the region at offset 10 and leaves 5 bytes used: the
used space does not grow by the new size, it shrinks.  The next call,
`arena_alloc(arena, 3)`, returns the region at offset 5: its bytes are among
those of the first region, which are handed out a second time. -/
theorem realloc_lowers_used_on_wrap :
    ∃ s1 s2 s3, run_allocs false (create_arena [] 1024) [10] =
        some ([some { chunk := 0, offset := 0 }], s1) ∧
      chain s1 = some [0] ∧ used_sum s1.heap [0] = 10 ∧
      arena_realloc false s1 none (2 ^ 64 - 5) =
        some (some { chunk := 0, offset := 10 }, s2) ∧
      chain s2 = some [0] ∧ used_sum s2.heap [0] = 5 ∧
      arena_alloc false s2 3 = some (some { chunk := 0, offset := 5 }, s3) ∧
      ¬ apart { chunk := 0, offset := 0 } 10 { chunk := 0, offset := 5 } 3 :=
  ⟨_, _, _, rfl, rfl, rfl, rfl, rfl, rfl, rfl, by simp [apart]⟩

/-- C11. The code of `arena_realloc` on a region `p` returned by
`arena_alloc(arena, 10)` on `create_arena(1024)`, at offset 0 of chunk 0.
First, after `arena_alloc(arena, 2 ^ 64 - 10)` has wrapped `used` to 0,
`arena_realloc(arena, p, 4)` reserves its result at offset 0 of chunk 0: the
new address is `p` itself, and `memcpy` is called with the destination equal
to the source.  Second, without any wraparound, `arena_realloc(arena, p, 20)`
reserves its result at offset 10 and calls `memcpy` to copy the 20 bytes from
offset 0 to offset 10: the bytes read run into the bytes written, which C
leaves undefined. -/
theorem realloc_copies_onto_source :
    (∃ s1 s2, run_allocs false (create_arena [] 1024) [10, 2 ^ 64 - 10] =
        some ([some { chunk := 0, offset := 0 }, some { chunk := 0, offset := 10 }], s1) ∧
      arena_alloc false s1 4 = some (some { chunk := 0, offset := 0 }, s2) ∧
      ranges_apart { chunk := 0, offset := 0 } { chunk := 0, offset := 0 } 4 = false ∧
      arena_realloc false s1 (some { chunk := 0, offset := 0 }) 4 = none) ∧
    (∃ s1 s2, run_allocs false (create_arena [] 1024) [10] =
        some ([some { chunk := 0, offset := 0 }], s1) ∧
      arena_alloc false s1 20 = some (some { chunk := 0, offset := 10 }, s2) ∧
      ranges_apart { chunk := 0, offset := 10 } { chunk := 0, offset := 0 } 20 = false ∧
      arena_realloc false s1 (some { chunk := 0, offset := 0 }) 20 = none) :=
  ⟨⟨_, _, rfl, rfl, by decide, rfl⟩, ⟨_, _, rfl, rfl, by decide, rfl⟩⟩

/-- C19. The code at `create_arena(C0)` with `C0 = 2 ^ 64 - 9` and the
requests `C0` and 9, both between 1 and `C0`, default policy.  The first
request fills the chunk.  For the second the code computes `C0 + 9` in
`size_t` as 0, finds that it fits and returns the region at offset `C0`: its
9 bytes start where the capacity ends (`offset + size` exceeds the capacity),
and `used` becomes 0. -/
theorem region_passes_capacity_on_wrap :
    ∃ s1 c, run_allocs false (create_arena [] (2 ^ 64 - 9)) [2 ^ 64 - 9, 9] =
        some ([some { chunk := 0, offset := 0 },
               some { chunk := 0, offset := 2 ^ 64 - 9 }], s1) ∧
      chain s1 = some [0] ∧ s1.heap[0]? = some c ∧ c.size = 2 ^ 64 - 9 ∧ c.used = 0 ∧
      ¬ (2 ^ 64 - 9) + 9 ≤ c.size ∧
      in_block s1.heap { chunk := 0, offset := 2 ^ 64 - 9 } 9 = false :=
  ⟨_, _, rfl, rfl, rfl, rfl, rfl, by decide, by decide⟩

/-! ## Regions larger than their block -/

/-- C12. The code of `arena_strndup` at `create_arena(10)` with the 12 bytes
`fake-url.com` of the readable bytes `fake-url.com/route`: the 13 bytes
requested do not fit chunk 0, `arena_alloc` appends a chunk of capacity 10
and returns the region at its offset 0, and the 13 bytes that `memcpy` and
the terminator store there pass the end of the 10-byte block, so the call has
no result. -/
theorem strndup_passes_block_end :
    ∃ s1 c, arena_alloc false (create_arena [] 10) (12 + 1) =
        some (some { chunk := 1, offset := 0 }, s1) ∧
      s1.heap[1]? = some c ∧ c.size = 10 ∧ c.used = 13 ∧
      in_block s1.heap { chunk := 1, offset := 0 } (12 + 1) = false ∧
      arena_strndup false (create_arena [] 10)
        [102, 97, 107, 101, 45, 117, 114, 108, 46, 99, 111, 109, 47, 114, 111, 117, 116,
          101, 0] 12 = none :=
  ⟨_, _, rfl, rfl, rfl, rfl, by decide, rfl⟩

/-- C13. The code of `arena_strdup` at `create_arena(10)` with the string
`Hello World`, whose first zero byte is at index 11: the 12 bytes requested
do not fit chunk 0, `arena_alloc` appends a chunk of capacity 10 and returns
the region at its offset 0, and the 12 bytes stored there pass the end of the
10-byte block, so the call has no result. -/
theorem strdup_passes_block_end :
    ∃ s1 c, strlen [72, 101, 108, 108, 111, 32, 87, 111, 114, 108, 100, 0] = some 11 ∧
      arena_alloc false (create_arena [] 10) (11 + 1) =
        some (some { chunk := 1, offset := 0 }, s1) ∧
      s1.heap[1]? = some c ∧ c.size = 10 ∧ c.used = 12 ∧
      in_block s1.heap { chunk := 1, offset := 0 } (11 + 1) = false ∧
      arena_strdup false (create_arena [] 10)
        [72, 101, 108, 108, 111, 32, 87, 111, 114, 108, 100, 0] = none :=
  ⟨_, _, rfl, rfl, rfl, rfl, rfl, by decide, rfl⟩

/-- C20. The code at `create_arena(10)` and the requests 100 and 5, default
policy; no `size_t` addition wraps.  The first request gets the region at
offset 0 of a new chunk 1, the second the region at offset 0 of a new chunk
2, both of capacity 10.  The two regions are in different chunks, but the 100
bytes of the first pass the end of the 10-byte block of chunk 1: 90 of the
bytes handed out lie outside that block, in memory that the arena does not
own and that the provider is free to return for the block of chunk 2. -/
theorem oversized_region_passes_block_end :
    ∃ s1 c1 c2, run_allocs false (create_arena [] 10) [100, 5] =
        some ([some { chunk := 1, offset := 0 }, some { chunk := 2, offset := 0 }], s1) ∧
      no_overflow false (create_arena [] 10) [Call.alloc 100, Call.alloc 5] ∧
      s1.heap[1]? = some c1 ∧ c1.size = 10 ∧ s1.heap[2]? = some c2 ∧ c2.size = 10 ∧
      apart { chunk := 1, offset := 0 } 100 { chunk := 2, offset := 0 } 5 ∧
      in_block s1.heap { chunk := 1, offset := 0 } 100 = false ∧
      in_block s1.heap { chunk := 1, offset := 0 } 10 = true ∧
      ¬ (0 + 100 ≤ c1.size) :=
  ⟨_, _, _, rfl,
    no_overflow_of_total false _ _ [0] (create_arena_wf [] 10) (by decide),
    rfl, rfl, rfl, rfl, Or.inl (by decide), by decide, by decide, by decide⟩

/-! ## More chunks than an `int` counts -/

theorem overflow_events_unit (n : Nat) : overflow_events 1 1 (List.replicate n 1) = n := by
  induction n with
  | zero => rfl
  | succ n ih =>
    have h2 : (1 + 1) % SIZE_MOD = 2 := by decide
    have h1 : 1 % SIZE_MOD = 1 := by decide
    rw [List.replicate_succ]
    simp only [overflow_events, h2, h1]
    rw [if_pos (by decide), ih]
    omega

theorem overflow_events_unit_fresh (n : Nat) :
    overflow_events 1 0 (List.replicate (n + 1) 1) = n := by
  have h1 : (0 + 1) % SIZE_MOD = 1 := by decide
  rw [List.replicate_succ]
  simp only [overflow_events, h1]
  rw [if_neg (by decide), overflow_events_unit]

/-- At capacity 1, under the default policy, `n + 1` requests of one byte
are all served and leave a well-formed arena of `n + 1` chunks: the first
request fills chunk 0 and every later one opens a chunk. -/
theorem unit_requests_chain (n : Nat) :
    ∃ ps s l c, run_allocs false (create_arena [] 1) (List.replicate (n + 1) 1) =
        some (ps, s) ∧
      WellFormed s l ∧ l.length = n + 1 ∧ s.heap[s.arena.end_]? = some c := by
  obtain ⟨ps, s, l, c, hrun, hwf, hc, _, hlen⟩ :=
    run_allocs_default_count 1 (List.replicate (n + 1) 1) (create_arena [] 1) _ _
      (create_arena_wf [] 1) (end_chunk_create_arena [] 1) rfl
      (fun a ha => by
        have h1 : a = 1 := List.eq_of_mem_replicate ha
        subst h1
        decide)
  refine ⟨ps, s, l, c, hrun, hwf, ?_, hc⟩
  have hev : overflow_events 1 0 (List.replicate (n + 1) 1) = n :=
    overflow_events_unit_fresh n
  have hlen2 : l.length = 1 + overflow_events 1 0 (List.replicate (n + 1) 1) := hlen
  rw [hlen2, hev]
  omega

/-- C14. The code at `create_arena(1)` followed by `2 ^ 31` calls
`arena_alloc(arena, 1)`, default policy: every call is served and the chain
has `2 ^ 31` chunks.  `destroy_arena` releases each of them once, in chain
order, so the number of releases is `2 ^ 31`; `arena_get_chunks_count`
before the call has no result to compare it with, because its `int` counter
is incremented past `INT_MAX`. -/
theorem releases_exceed_int_count :
    ∃ ps s l, run_allocs false (create_arena [] 1) (List.replicate (2 ^ 31) 1) =
        some (ps, s) ∧
      chain s = some l ∧ destroy_arena s = some l ∧ l.Nodup ∧ l.length = 2 ^ 31 ∧
      arena_get_chunks_count s = none := by
  obtain ⟨ps, s, l, _, hrun, hwf, hlen, _⟩ := unit_requests_chain 2147483647
  have hn : 2147483647 + 1 = 2 ^ 31 := by norm_num
  rw [hn] at hrun hlen
  refine ⟨ps, s, l, hrun, hwf.1, destroy_arena_wf hwf, chain_from_nodup hwf.1, hlen, ?_⟩
  apply arena_get_chunks_count_overflow hwf
  rw [hlen]
  decide

/-- C16. The code at `create_arena(1)` followed by `2 ^ 31` calls
`arena_alloc(arena, 1)`, default policy: every call is served and the chain
has `2 ^ 31` chunks.  The current used space and the current available space
are read from the end chunk and have a value, but
`arena_get_chunks_count` has none, its `int` counter being incremented past
`INT_MAX`; the two queries by index, which start by counting the chunks, have
no result at any index. -/
theorem current_space_without_count :
    ∃ ps s l u v, run_allocs false (create_arena [] 1) (List.replicate (2 ^ 31) 1) =
        some (ps, s) ∧
      chain s = some l ∧ l.length = 2 ^ 31 ∧
      arena_get_current_used_space s = some u ∧
      arena_get_current_available_space s = some v ∧
      arena_get_chunks_count s = none ∧
      ∀ i : Int, arena_get_used_space_of s i = none ∧
        arena_get_available_space_of s i = none := by
  obtain ⟨ps, s, l, c, hrun, hwf, hlen, hc⟩ := unit_requests_chain 2147483647
  have hn : 2147483647 + 1 = 2 ^ 31 := by norm_num
  rw [hn] at hrun hlen
  have hcount : arena_get_chunks_count s = none := by
    apply arena_get_chunks_count_overflow hwf
    rw [hlen]
    decide
  refine ⟨ps, s, l, c.used, size_sub c.size c.used, hrun, hwf.1, hlen, ?_, ?_, hcount, ?_⟩
  · simp [arena_get_current_used_space, hc]
  · simp [arena_get_current_available_space, hc]
  · intro i
    simp [arena_get_used_space_of, arena_get_available_space_of, hcount]

end Arena
